import Mathlib

/-!
# bfc: a single-pass translator from the eight-instruction language to LLVM IR

The development embeds `src/main.go`:

* the part of the `llir/llvm` object model that `main` builds (types, values,
  instructions, terminators, blocks, functions, the module);
* the translator itself: the prelude emitted before the scan, the
  per-byte `switch`, the bracket checks and the final `ret`;
* an execution semantics for the emitted instructions, used to state what the
  emitted code does when it runs.
-/

namespace Bfc

/-! ## The IR object model -/

/-- The `types.*` values used by `main`. -/
inductive Ty where
  | void
  | i1
  | i8
  | i32
  | i64
  | ptr (elem : Ty)
  | array (len : Nat) (elem : Ty)
  deriving DecidableEq, Repr

/-- The functions of the module, referred to by identity (`*ir.Func`). -/
inductive FuncRef where
  | getchar
  | putchar
  | memset
  | main
  deriving DecidableEq, Repr

/-- An operand. An instruction used as an operand is referred to by identity:
`inst b i` is the instruction at position `i` of block `b` of `main`
(blocks are numbered in creation order). -/
inductive Value where
  | const (ty : Ty) (x : Int)
  | inst (blk : Nat) (idx : Nat)
  deriving DecidableEq, Repr

/-- Integer comparison predicates (`enum.IPred*`). -/
inductive IPred where
  | eq
  | ne
  deriving DecidableEq, Repr

/-- Non-terminator instructions built by `main`. -/
inductive Inst where
  | alloca (elemTy : Ty)
  | getElementPtr (elemTy : Ty) (src : Value) (indices : List Value)
  | call (callee : FuncRef) (args : List Value)
  | store (src : Value) (dst : Value)
  | load (elemTy : Ty) (src : Value)
  | add (x : Value) (y : Value)
  | icmp (pred : IPred) (x : Value) (y : Value)
  deriving DecidableEq, Repr

/-- Terminators. `br` is part of the object model but `main` never builds it. -/
inductive Term where
  | ret (x : Value)
  | br (target : Nat)
  | condBr (cond : Value) (targetTrue : Nat) (targetFalse : Nat)
  deriving DecidableEq, Repr

/-- A basic block: `Insts` and `Term` of `ir.Block`. -/
structure Block where
  insts : List Inst
  term : Option Term
  deriving DecidableEq, Repr

/-- A function: a declaration when `blocks` is empty. -/
structure Func where
  ref : FuncRef
  name : String
  retTy : Ty
  params : List (String × Ty)
  blocks : List Block
  deriving DecidableEq, Repr

/-- The module: its functions in creation order. -/
structure Module where
  funcs : List Func
  deriving DecidableEq, Repr

/-! ## The translator -/

/-- The constant `_defaultMemLimit = 0xFFFF`. -/
def _defaultMemLimit : Nat := 0xFFFF

/-- The struct `loop`: the two blocks of one loop, by block number. -/
structure Loop where
  body : Nat
  end_ : Nat
  deriving DecidableEq, Repr

/-- The two `log.Fatal` calls of the translation. -/
inductive TError where
  | unmatchedClose
  | unmatchedOpen
  deriving DecidableEq, Repr

/-- The message passed to `log.Fatal`. -/
def TError.msg : TError → String
  | .unmatchedClose => "unexpected closing bracket"
  | .unmatchedOpen => "excessive opening brackets"

/-- The variables of `main` that change during the scan: the blocks of
`mainFn`, the current `block` (its number) and `stack`. -/
structure TState where
  blocks : List Block
  block : Nat
  stack : List Loop
  deriving DecidableEq, Repr

/-- Apply `f` to the element at position `n`. -/
def modifyAt (f : Block → Block) : Nat → List Block → List Block
  | _, [] => []
  | 0, b :: bs => f b :: bs
  | n + 1, b :: bs => b :: modifyAt f n bs

/-- Number of instructions of block `b`. -/
def instCount (blocks : List Block) (b : Nat) : Nat :=
  match blocks.get? b with
  | some blk => blk.insts.length
  | none => 0

/-- The `block.NewXxx` constructors for instructions: append to the current
block and hand back the new instruction as a value. -/
def TState.emit (st : TState) (ins : Inst) : Value × TState :=
  (Value.inst st.block (instCount st.blocks st.block),
   { st with blocks := modifyAt (fun blk => { blk with insts := blk.insts ++ [ins] }) st.block st.blocks })

/-- The `block.NewCondBr` and `block.NewRet` constructors: set the terminator of
the current block. -/
def TState.setTerm (st : TState) (t : Term) : TState :=
  { st with blocks := modifyAt (fun blk => { blk with term := some t }) st.block st.blocks }

/-- The constructor `mainFn.NewBlock("")`: append an empty block to the function. -/
def TState.newBlock (st : TState) : Nat × TState :=
  (st.blocks.length, { st with blocks := st.blocks ++ [{ insts := [], term := none }] })

/-- The value `arrayType`. -/
def arrayType : Ty := Ty.array _defaultMemLimit Ty.i8

/-- The value `cellMem`: the first instruction of the entry block. -/
def cellMem : Value := Value.inst 0 0

/-- The value `pc`: the fourth instruction of the entry block. -/
def pc : Value := Value.inst 0 3

/-- Lines 53-66: the entry block with the allocation and zero fill of the cell
array and the allocation and initialisation of the pointer register. -/
def prelude : Value × Value × TState :=
  let st : TState := { blocks := [{ insts := [], term := none }], block := 0, stack := [] }
  let (cellMem, st) := st.emit (Inst.alloca arrayType)
  let (g, st) := st.emit (Inst.getElementPtr arrayType cellMem [Value.const Ty.i64 0, Value.const Ty.i64 0])
  let (_, st) := st.emit (Inst.call FuncRef.memset [g, Value.const Ty.i8 0, Value.const Ty.i64 _defaultMemLimit])
  let (pc, st) := st.emit (Inst.alloca Ty.i64)
  let (_, st) := st.emit (Inst.store (Value.const Ty.i64 0) pc)
  (cellMem, pc, st)

/-- The state in which the scan starts. -/
def init : TState := prelude.2.2

/-- The expression `block.NewGetElementPtr(arrayType, cellMem, 0, block.NewLoad(types.I64, pc))`:
the argument is built first. -/
def TState.cellPtr (st : TState) : Value × TState :=
  let (ld, st) := st.emit (Inst.load Ty.i64 pc)
  st.emit (Inst.getElementPtr arrayType cellMem [Value.const Ty.i64 0, ld])

/-- One iteration of the loop of line 68: the `switch` on the byte `c`. -/
def step (st : TState) (c : Nat) : Except TError TState :=
  if c = 43 then -- '+'
    let (ptr, st) := st.cellPtr
    let (ld, st) := st.emit (Inst.load Ty.i8 ptr)
    let (added, st) := st.emit (Inst.add ld (Value.const Ty.i8 1))
    let (_, st) := st.emit (Inst.store added ptr)
    .ok st
  else if c = 45 then -- '-'
    let (ptr, st) := st.cellPtr
    let (ld, st) := st.emit (Inst.load Ty.i8 ptr)
    let (added, st) := st.emit (Inst.add ld (Value.const Ty.i8 (-1)))
    let (_, st) := st.emit (Inst.store added ptr)
    .ok st
  else if c = 60 then -- '<'
    let (ld, st) := st.emit (Inst.load Ty.i64 pc)
    let (t1, st) := st.emit (Inst.add ld (Value.const Ty.i8 (-1)))
    let (_, st) := st.emit (Inst.store t1 pc)
    .ok st
  else if c = 62 then -- '>'
    let (ld, st) := st.emit (Inst.load Ty.i64 pc)
    let (t1, st) := st.emit (Inst.add ld (Value.const Ty.i8 1))
    let (_, st) := st.emit (Inst.store t1 pc)
    .ok st
  else if c = 46 then -- '.'
    let (ptr, st) := st.cellPtr
    let (ld, st) := st.emit (Inst.load Ty.i8 ptr)
    let (_, st) := st.emit (Inst.call FuncRef.putchar [ld])
    .ok st
  else if c = 44 then -- ','
    let (char, st) := st.emit (Inst.call FuncRef.getchar [])
    let (ptr, st) := st.cellPtr
    let (_, st) := st.emit (Inst.store char ptr)
    .ok st
  else if c = 91 then -- '['
    let (ptr, st) := st.cellPtr
    let (ld, st) := st.emit (Inst.load Ty.i8 ptr)
    let (cmpResult, st) := st.emit (Inst.icmp IPred.ne ld (Value.const Ty.i8 0))
    let (body, st) := st.newBlock
    let (end_, st) := st.newBlock
    let lp : Loop := { body := body, end_ := end_ }
    let st := { st with stack := st.stack ++ [lp] }
    let st := st.setTerm (Term.condBr cmpResult lp.body lp.end_)
    .ok { st with block := lp.body }
  else if c = 93 then -- ']'
    match st.stack.getLast? with
    | none => .error TError.unmatchedClose
    | some lp =>
      let st := { st with stack := st.stack.dropLast }
      let (ptr, st) := st.cellPtr
      let (ld, st) := st.emit (Inst.load Ty.i8 ptr)
      let (cmpResult, st) := st.emit (Inst.icmp IPred.ne ld (Value.const Ty.i8 0))
      let st := st.setTerm (Term.condBr cmpResult lp.body lp.end_)
      .ok { st with block := lp.end_ }
  else
    .ok st

/-- The loop of line 68 over the bytes that are left. -/
def scanFrom : TState → List Nat → Except TError TState
  | st, [] => .ok st
  | st, c :: cs =>
    match step st c with
    | .error e => .error e
    | .ok st => scanFrom st cs

/-- The whole scan, from the state after the prelude. -/
def scan (prog : List Nat) : Except TError TState := scanFrom init prog

/-- The module as it is when `mod.String()` is called. -/
def mkModule (blocks : List Block) : Module :=
  { funcs :=
      [ { ref := FuncRef.getchar, name := "getchar", retTy := Ty.i8, params := [], blocks := [] },
        { ref := FuncRef.putchar, name := "putchar", retTy := Ty.i32, params := [("ch", Ty.i8)], blocks := [] },
        { ref := FuncRef.memset, name := "memset", retTy := Ty.void,
          params := [("ptr", Ty.ptr Ty.i8), ("val", Ty.i8), ("len", Ty.i64)], blocks := [] },
        { ref := FuncRef.main, name := "main", retTy := Ty.i32, params := [], blocks := blocks } ] }

/-- Lines 123-127: the check of the stack and the final `ret`. -/
def finish (st : TState) : Except TError Module :=
  if st.stack.length ≠ 0 then .error TError.unmatchedOpen
  else .ok (mkModule (st.setTerm (Term.ret (Value.const Ty.i32 0))).blocks)

/-- Lines 47-127 of `main`: from the bytes of the source file to the module,
or to the fatal error. -/
def translate (prog : List Nat) : Except TError Module :=
  match scan prog with
  | .error e => .error e
  | .ok st => finish st

/-- The bytes of an ASCII string. -/
def bytes (s : String) : List Nat := s.toList.map Char.toNat

/-- The blocks of `main` in a module. -/
def Module.mainBlocks (m : Module) : List Block :=
  match m.funcs.find? (fun f => f.ref = FuncRef.main) with
  | some f => f.blocks
  | none => []

/-! ## Execution semantics of the emitted instructions

The module is handed to the backend as text (`mod.String()`), so the semantics
is that of the printed instructions: `add` and `icmp` print the type of their
first operand only, and the second operand, when a constant, is read at that
type. Memory is a list of objects, one for each executed `alloca`; a pointer is
an object number and an offset. Reading memory that was never written, or
addressing outside an object, is an error: the emitted code has no bounds
checks. -/

/-- A runtime value. -/
inductive RVal where
  | int (width : Nat) (val : Nat)
  | ptr (obj : Nat) (off : Int)
  | void
  deriving DecidableEq, Repr

/-- A memory object: an integer slot or an array of bytes; `none` is a slot
that has not been written yet. -/
inductive Obj where
  | scalar (width : Nat) (val : Option Nat)
  | array (len : Nat) (elts : Nat → Option Nat)

/-- How execution can go wrong. -/
inductive XErr where
  | undefinedBehaviour
  | illFormed
  | outOfFuel
  deriving DecidableEq, Repr

/-- A call of one of the declared external functions, with the bytes that
went in or came out. -/
inductive ExtCall where
  | getchar (result : Nat)
  | putchar (arg : Nat)
  | memset (val : Nat) (len : Nat)
  deriving DecidableEq, Repr

/-- The machine state: the registers (one for each instruction), the memory,
the bytes still to be read from standard input, the external calls made so
far and the blocks that control was transferred to so far. -/
structure XState where
  env : Nat → Nat → Option RVal
  mem : List Obj
  input : List Nat
  calls : List ExtCall
  trace : List Nat

/-- Bit width of an integer type. -/
def Ty.width : Ty → Option Nat
  | Ty.i1 => some 1
  | Ty.i8 => some 8
  | Ty.i32 => some 32
  | Ty.i64 => some 64
  | _ => none

/-- The integer `x` in two's complement at width `w`. -/
def wrap (w : Nat) (x : Int) : Nat := (x % Int.ofNat (2 ^ w)).toNat

/-- The signed reading of a `w`-bit value. -/
def toSigned (w : Nat) (v : Nat) : Int :=
  if v < 2 ^ (w - 1) then Int.ofNat v else Int.ofNat v - Int.ofNat (2 ^ w)

/-- An operand printed with its type. -/
def evalTyped (env : Nat → Nat → Option RVal) : Value → Except XErr RVal
  | Value.const ty x =>
    match ty.width with
    | some w => .ok (RVal.int w (wrap w x))
    | none => .error XErr.illFormed
  | Value.inst b i =>
    match env b i with
    | some v => .ok v
    | none => .error XErr.illFormed

/-- An integer operand read at width `w`. -/
def evalAt (env : Nat → Nat → Option RVal) (w : Nat) : Value → Except XErr Nat
  | Value.const _ x => .ok (wrap w x)
  | Value.inst b i =>
    match env b i with
    | some (RVal.int w1 v) => if w1 = w then .ok v else .error XErr.illFormed
    | _ => .error XErr.illFormed

/-- Write the result register of instruction `i` of block `b`. -/
def XState.setReg (s : XState) (b i : Nat) (v : RVal) : XState :=
  { s with env := fun b1 i1 => if b1 = b ∧ i1 = i then some v else s.env b1 i1 }

/-- Read a `w`-bit integer at offset `off` of object `o`. -/
def loadMem (mem : List Obj) (w : Nat) (o : Nat) (off : Int) : Except XErr Nat :=
  match mem[o]? with
  | some (Obj.scalar w1 (some v)) =>
    if w1 = w ∧ off = 0 then .ok v else .error XErr.undefinedBehaviour
  | some (Obj.array n elts) =>
    if w = 8 ∧ 0 ≤ off ∧ off < Int.ofNat n then
      match elts off.toNat with
      | some v => .ok v
      | none => .error XErr.undefinedBehaviour
    else .error XErr.undefinedBehaviour
  | _ => .error XErr.undefinedBehaviour

/-- Write the `w`-bit integer `v` at offset `off` of object `o`. -/
def storeMem (mem : List Obj) (w v : Nat) (o : Nat) (off : Int) : Except XErr (List Obj) :=
  match mem[o]? with
  | some (Obj.scalar w1 _) =>
    if w1 = w ∧ off = 0 then .ok (mem.set o (Obj.scalar w1 (some v)))
    else .error XErr.undefinedBehaviour
  | some (Obj.array n elts) =>
    if w = 8 ∧ 0 ≤ off ∧ off < Int.ofNat n then
      .ok (mem.set o (Obj.array n (fun j => if j = off.toNat then some v else elts j)))
    else .error XErr.undefinedBehaviour
  | none => .error XErr.undefinedBehaviour

/-- Set `len` bytes from offset `off` of object `o` to `val`. -/
def fillMem (mem : List Obj) (o : Nat) (off : Int) (val len : Nat) : Except XErr (List Obj) :=
  match mem[o]? with
  | some (Obj.array n elts) =>
    if 0 ≤ off ∧ off + Int.ofNat len ≤ Int.ofNat n then
      .ok (mem.set o (Obj.array n
        (fun j => if off.toNat ≤ j ∧ j < off.toNat + len then some val else elts j)))
    else .error XErr.undefinedBehaviour
  | _ => .error XErr.undefinedBehaviour

/-- A call of a declared function. `getchar` hands out the next input byte, and
255 (the byte of `EOF`) when there is none; `putchar` returns what it wrote. -/
def execCall (b i : Nat) (s : XState) : FuncRef → List Value → Except XErr XState
  | FuncRef.getchar, [] =>
    match s.input with
    | [] => .ok ({ s with calls := s.calls ++ [ExtCall.getchar 255] }.setReg b i (RVal.int 8 255))
    | x :: rest =>
      .ok ({ s with input := rest, calls := s.calls ++ [ExtCall.getchar (x % 256)] }.setReg b i
        (RVal.int 8 (x % 256)))
  | FuncRef.putchar, [a] =>
    match evalTyped s.env a with
    | .ok (RVal.int 8 v) =>
      .ok ({ s with calls := s.calls ++ [ExtCall.putchar v] }.setReg b i (RVal.int 32 v))
    | .ok _ => .error XErr.illFormed
    | .error e => .error e
  | FuncRef.memset, [p, v, n] =>
    match evalTyped s.env p, evalTyped s.env v, evalTyped s.env n with
    | .ok (RVal.ptr o off), .ok (RVal.int 8 val), .ok (RVal.int 64 len) =>
      match fillMem s.mem o off val len with
      | .ok mem =>
        .ok ({ s with mem := mem, calls := s.calls ++ [ExtCall.memset val len] }.setReg b i RVal.void)
      | .error e => .error e
    | _, _, _ => .error XErr.illFormed
  | _, _ => .error XErr.illFormed

/-- Execute instruction `i` of block `b`. -/
def execInst (b i : Nat) (s : XState) : Inst → Except XErr XState
  | Inst.alloca (Ty.array n Ty.i8) =>
    .ok ({ s with mem := s.mem ++ [Obj.array n (fun _ => none)] }.setReg b i
      (RVal.ptr s.mem.length 0))
  | Inst.alloca ty =>
    match ty.width with
    | some w =>
      .ok ({ s with mem := s.mem ++ [Obj.scalar w none] }.setReg b i (RVal.ptr s.mem.length 0))
    | none => .error XErr.illFormed
  | Inst.getElementPtr (Ty.array n Ty.i8) src [i0, i1] =>
    match evalTyped s.env src, evalTyped s.env i0, evalTyped s.env i1 with
    | .ok (RVal.ptr o off), .ok (RVal.int w0 v0), .ok (RVal.int w1 v1) =>
      .ok (s.setReg b i (RVal.ptr o (off + toSigned w0 v0 * Int.ofNat n + toSigned w1 v1)))
    | _, _, _ => .error XErr.illFormed
  | Inst.getElementPtr _ _ _ => .error XErr.illFormed
  | Inst.call f args => execCall b i s f args
  | Inst.store src dst =>
    match evalTyped s.env src, evalTyped s.env dst with
    | .ok (RVal.int w v), .ok (RVal.ptr o off) =>
      match storeMem s.mem w v o off with
      | .ok mem => .ok { s with mem := mem }
      | .error e => .error e
    | _, _ => .error XErr.illFormed
  | Inst.load ty src =>
    match ty.width, evalTyped s.env src with
    | some w, .ok (RVal.ptr o off) =>
      match loadMem s.mem w o off with
      | .ok v => .ok (s.setReg b i (RVal.int w v))
      | .error e => .error e
    | _, _ => .error XErr.illFormed
  | Inst.add x y =>
    match evalTyped s.env x with
    | .ok (RVal.int w a) =>
      match evalAt s.env w y with
      | .ok c => .ok (s.setReg b i (RVal.int w ((a + c) % 2 ^ w)))
      | .error e => .error e
    | _ => .error XErr.illFormed
  | Inst.icmp pred x y =>
    match evalTyped s.env x with
    | .ok (RVal.int w a) =>
      match evalAt s.env w y with
      | .ok c =>
        let r : Bool := match pred with
          | IPred.eq => decide (a = c)
          | IPred.ne => decide (a ≠ c)
        .ok (s.setReg b i (RVal.int 1 (if r then 1 else 0)))
      | .error e => .error e
    | _ => .error XErr.illFormed

/-- Execute the instructions `insts`, which sit at positions `i`, `i + 1`, ... of
block `b`. -/
def execInsts (b : Nat) : Nat → List Inst → XState → Except XErr XState
  | _, [], s => .ok s
  | i, ins :: rest, s =>
    match execInst b i s ins with
    | .ok s1 => execInsts b (i + 1) rest s1
    | .error e => .error e

/-- Execute from instruction `i` of block `b` until a `ret`; `fuel` bounds the
number of blocks that may be executed. The result is the returned value and
the final state. -/
def run (blocks : List Block) : Nat → Nat → Nat → XState → Except XErr (RVal × XState)
  | 0, _, _, _ => .error XErr.outOfFuel
  | fuel + 1, b, i, s =>
    match blocks[b]? with
    | none => .error XErr.illFormed
    | some blk =>
      match execInsts b i (blk.insts.drop i) s with
      | .error e => .error e
      | .ok s1 =>
        match blk.term with
        | none => .error XErr.illFormed
        | some (Term.ret x) =>
          match evalTyped s1.env x with
          | .ok v => .ok (v, s1)
          | .error e => .error e
        | some (Term.br t) => run blocks fuel t 0 { s1 with trace := s1.trace ++ [t] }
        | some (Term.condBr c t f) =>
          match evalTyped s1.env c with
          | .ok (RVal.int 1 v) =>
            if v ≠ 0 then run blocks fuel t 0 { s1 with trace := s1.trace ++ [t] }
            else run blocks fuel f 0 { s1 with trace := s1.trace ++ [f] }
          | .ok _ => .error XErr.illFormed
          | .error e => .error e

/-- The state in which `main` is entered. -/
def XState.start (input : List Nat) : XState :=
  { env := fun _ _ => none, mem := [], input := input, calls := [], trace := [] }

/-- Execute `main` of a module on the given standard input. -/
def execModule (m : Module) (fuel : Nat) (input : List Nat) : Except XErr (RVal × XState) :=
  run m.mainBlocks fuel 0 0 (XState.start input)

/-- The byte in cell `j` of the cell array (the first object allocated). -/
def XState.cell (s : XState) (j : Nat) : Option Nat :=
  match s.mem[0]? with
  | some (Obj.array _ elts) => elts j
  | _ => none

/-- The content of the pointer register (the second object allocated). -/
def XState.pointer (s : XState) : Option Nat :=
  match s.mem[1]? with
  | some (Obj.scalar _ v) => v
  | _ => none

/-- What is observed of a finished run: the returned value, the pointer
register, the external calls and the blocks control went through. -/
def observe (r : Except XErr (RVal × XState)) :
    Except XErr (RVal × Option Nat × List ExtCall × List Nat) :=
  match r with
  | .ok (v, s) => .ok (v, s.pointer, s.calls, s.trace)
  | .error e => .error e

/-- Execute the translation of a source, when there is one. -/
def compileAndRun (prog : List Nat) (fuel : Nat) (input : List Nat) :
    Option (Except XErr (RVal × XState)) :=
  match translate prog with
  | .ok m => some (execModule m fuel input)
  | .error _ => none

/-! ## Notions of the specification used to state the claims -/

/-- Number of `[` that are left without a matching `]` when the source ends,
`d` of them being open at the start: a `]` matches the nearest earlier `[`
that is not matched yet, and matches nothing when there is none. -/
def unmatchedOpens : Nat → List Nat → Nat
  | d, [] => d
  | d, c :: cs =>
    if c = 91 then unmatchedOpens (d + 1) cs
    else if c = 93 then unmatchedOpens (d - 1) cs
    else unmatchedOpens d cs

/-- The eight instruction bytes `+ - < > . , [ ]`. -/
def isInstr (c : Nat) : Bool :=
  c = 43 || c = 45 || c = 60 || c = 62 || c = 46 || c = 44 || c = 91 || c = 93

/-- The instructions that `step` appends to the current block of `st` for the
byte `c` run, from the machine state `s`, to a state that satisfies `post`. -/
def EmittedCodeRuns (st : TState) (c : Nat) (s : XState) (post : XState → Prop) : Prop :=
  ∃ blk st1 blk1 code s1, st.blocks[st.block]? = some blk ∧ step st c = .ok st1 ∧
    st1.blocks[st.block]? = some blk1 ∧ blk1.insts = blk.insts ++ code ∧
    execInsts st.block blk.insts.length code s = .ok s1 ∧ post s1

/-- A machine state as the prelude leaves it, with the given content of the
cells and of the pointer register. -/
def XState.ready (cells : Nat → Option Nat) (p : Nat) (input : List Nat) : XState :=
  { env := fun b i =>
      if b = 0 ∧ i = 0 then some (RVal.ptr 0 0)
      else if b = 0 ∧ i = 3 then some (RVal.ptr 1 0) else none,
    mem := [Obj.array _defaultMemLimit cells, Obj.scalar 64 (some p)],
    input := input, calls := [], trace := [] }

/-- The state of the reference interpreter: the cells, the pointer, the bytes
still to be read and the bytes written. -/
structure RefState where
  cells : Nat → Nat
  ptr : Nat
  input : List Nat
  output : List Nat

/-- The source after the `]` that closes the loop whose body starts here, `d`
further loops being open. -/
def afterLoop : Nat → List Nat → List Nat
  | _, [] => []
  | d, c :: cs =>
    if c = 91 then afterLoop (d + 1) cs
    else if c = 93 then (if d = 0 then cs else afterLoop (d - 1) cs)
    else afterLoop d cs

/-- Reference interpreter: the dispatch table of the specification read as the
meaning of the source bytes, on the cells `cells`, the pointer `ptr`, the
bytes `inp` still to be read and the bytes `out` written so far. `+` and `-`
add 1 and -1 to the cell at the pointer with 8-bit wraparound, `>` and `<` add
1 and -1 to the pointer in 64-bit arithmetic, `.` writes the cell, `,` reads
into it (255 at the end of the input), `[` goes on with the body when the cell
is not 0 and with what follows the loop otherwise, `]` goes back to the body
when the cell is not 0 and on otherwise; any other byte does nothing. `loops`
holds the bodies of the open loops, innermost last; a cell outside the array
is undefined behaviour (`none`), and `fuel` bounds the number of bytes
interpreted. -/
def refInterp : Nat → List Nat → List (List Nat) → (Nat → Nat) → Nat → List Nat → List Nat →
    Option RefState
  | 0, _, _, _, _, _, _ => none
  | _ + 1, [], _, cells, ptr, inp, out =>
    some { cells := cells, ptr := ptr, input := inp, output := out }
  | fuel + 1, c :: cs, loops, cells, ptr, inp, out =>
    if c = 43 then
      if ptr < _defaultMemLimit then
        refInterp fuel cs loops (fun j => if j = ptr then (cells ptr + 1) % 256 else cells j)
          ptr inp out
      else none
    else if c = 45 then
      if ptr < _defaultMemLimit then
        refInterp fuel cs loops (fun j => if j = ptr then (cells ptr + 255) % 256 else cells j)
          ptr inp out
      else none
    else if c = 62 then refInterp fuel cs loops cells ((ptr + 1) % 2 ^ 64) inp out
    else if c = 60 then refInterp fuel cs loops cells ((ptr + (2 ^ 64 - 1)) % 2 ^ 64) inp out
    else if c = 46 then
      if ptr < _defaultMemLimit then refInterp fuel cs loops cells ptr inp (out ++ [cells ptr])
      else none
    else if c = 44 then
      if ptr < _defaultMemLimit then
        match inp with
        | [] => refInterp fuel cs loops (fun j => if j = ptr then 255 else cells j) ptr [] out
        | x :: rest =>
          refInterp fuel cs loops (fun j => if j = ptr then x % 256 else cells j) ptr rest out
      else none
    else if c = 91 then
      if ptr < _defaultMemLimit then
        if cells ptr ≠ 0 then refInterp fuel cs (loops ++ [cs]) cells ptr inp out
        else refInterp fuel (afterLoop 0 cs) loops cells ptr inp out
      else none
    else if c = 93 then
      match loops.getLast? with
      | none => none
      | some body =>
        if ptr < _defaultMemLimit then
          if cells ptr ≠ 0 then refInterp fuel body loops cells ptr inp out
          else refInterp fuel cs loops.dropLast cells ptr inp out
        else none
    else refInterp fuel cs loops cells ptr inp out

/-- The reference interpreter on a whole source, from zeroed cells. -/
def refRun (prog : List Nat) (fuel : Nat) (input : List Nat) : Option RefState :=
  refInterp fuel prog [] (fun _ => 0) 0 input []

/-! ## Bracket counts -/

/-- Number of `[` bytes. -/
def opens (prog : List Nat) : Nat := prog.count 91

/-- Number of `]` bytes. -/
def closes (prog : List Nat) : Nat := prog.count 93

/-- Every prefix has at least as many `[` as `]`. -/
def PrefixOk (prog : List Nat) : Prop :=
  ∀ k, k ≤ prog.length → closes (prog.take k) ≤ opens (prog.take k)

/-! ## Definitions used by the proofs -/

/-- The instructions built by `cellPtr` in block `b` at position `n`. -/
def codeCellPtr (b n : Nat) : List Inst :=
  [Inst.load Ty.i64 pc,
   Inst.getElementPtr arrayType cellMem [Value.const Ty.i64 0, Value.inst b n]]

/-- The instructions built for `+` (`d = 1`) and `-` (`d = -1`). -/
def codeAdd (d : Int) (b n : Nat) : List Inst :=
  codeCellPtr b n ++
  [Inst.load Ty.i8 (Value.inst b (n + 1)),
   Inst.add (Value.inst b (n + 2)) (Value.const Ty.i8 d),
   Inst.store (Value.inst b (n + 3)) (Value.inst b (n + 1))]

/-- The instructions built for `>` (`d = 1`) and `<` (`d = -1`). -/
def codeMove (d : Int) (b n : Nat) : List Inst :=
  [Inst.load Ty.i64 pc,
   Inst.add (Value.inst b n) (Value.const Ty.i8 d),
   Inst.store (Value.inst b (n + 1)) pc]

/-- The instructions built for `.`. -/
def codeOut (b n : Nat) : List Inst :=
  codeCellPtr b n ++
  [Inst.load Ty.i8 (Value.inst b (n + 1)),
   Inst.call FuncRef.putchar [Value.inst b (n + 2)]]

/-- The instructions built for `,`. -/
def codeIn (b n : Nat) : List Inst :=
  Inst.call FuncRef.getchar [] :: codeCellPtr b (n + 1) ++
  [Inst.store (Value.inst b n) (Value.inst b (n + 2))]

/-- The instructions built for `[` and for `]`; the comparison is the last one. -/
def codeTest (b n : Nat) : List Inst :=
  codeCellPtr b n ++
  [Inst.load Ty.i8 (Value.inst b (n + 1)),
   Inst.icmp IPred.ne (Value.inst b (n + 2)) (Value.const Ty.i8 0)]

/-- What holds of every state the scan goes through: the current block exists,
the entry block starts with the five instructions of the prelude, and the end
blocks of the open loops exist. -/
def TState.WF (st : TState) : Prop :=
  st.block < st.blocks.length ∧ 5 ≤ instCount st.blocks 0 ∧
  ∀ lp, lp ∈ st.stack → lp.end_ < st.blocks.length

/-- The cells with cell `p` set to `x`. -/
def setCell (cells : Nat → Option Nat) (p x : Nat) : Nat → Option Nat :=
  fun j => if j = p then some x else cells j

/-- The machine state once the prelude has run: the registers of the two
`alloca` instructions point to the cell array and to the pointer register,
the cells hold `cells` and the pointer register holds `p`. -/
def Ready (s : XState) (cells : Nat → Option Nat) (p : Nat) : Prop :=
  s.env 0 0 = some (RVal.ptr 0 0) ∧ s.env 0 3 = some (RVal.ptr 1 0) ∧
  s.mem = [Obj.array _defaultMemLimit cells, Obj.scalar 64 (some p)]

/-- The five instructions of the prelude. -/
def preludeCode : List Inst :=
  [Inst.alloca arrayType,
   Inst.getElementPtr arrayType cellMem [Value.const Ty.i64 0, Value.const Ty.i64 0],
   Inst.call FuncRef.memset
     [Value.inst 0 1, Value.const Ty.i8 0, Value.const Ty.i64 _defaultMemLimit],
   Inst.alloca Ty.i64,
   Inst.store (Value.const Ty.i64 0) pc]

/-- The blocks of `main` for the source `[-]`. -/
def clearLoopBlocks : List Block :=
  [⟨preludeCode ++ codeTest 0 5, some (Term.condBr (Value.inst 0 8) 1 2)⟩,
   ⟨codeAdd (-1) 1 0 ++ codeTest 1 5, some (Term.condBr (Value.inst 1 8) 1 2)⟩,
   ⟨[], some (Term.ret (Value.const Ty.i32 0))⟩]

/-- The blocks of `main` for the source `++[>++<-]`. -/
def nestedBlocks : List Block :=
  [⟨preludeCode ++ (codeAdd 1 0 5 ++ (codeAdd 1 0 10 ++ codeTest 0 15)),
      some (Term.condBr (Value.inst 0 18) 1 2)⟩,
   ⟨codeMove 1 1 0 ++ (codeAdd 1 1 3 ++ (codeAdd 1 1 8 ++ (codeMove (-1) 1 13 ++
      (codeAdd (-1) 1 16 ++ codeTest 1 21)))),
      some (Term.condBr (Value.inst 1 24) 1 2)⟩,
   ⟨[], some (Term.ret (Value.const Ty.i32 0))⟩]

/-- The instructions built in block `b` at position `n` for the byte `c`. -/
def codeFor (c b n : Nat) : List Inst :=
  if c = 43 then codeAdd 1 b n
  else if c = 45 then codeAdd (-1) b n
  else if c = 60 then codeMove (-1) b n
  else if c = 62 then codeMove 1 b n
  else if c = 46 then codeOut b n
  else if c = 44 then codeIn b n
  else if c = 91 then codeTest b n
  else if c = 93 then codeTest b n
  else []

/-- The block ends with a conditional branch one of whose targets is block `t`. -/
def Block.condBranchTo (blk : Block) (t : Nat) : Bool :=
  match blk.term with
  | some (Term.condBr _ a b) => a == t || b == t
  | _ => false

/-- Number of blocks that end with a conditional branch to block `t`. -/
def condBranchesTo (blocks : List Block) (t : Nat) : Nat :=
  blocks.countP (fun blk => blk.condBranchTo t)

/-- Number of frames of the stack one of whose blocks is block `t`. -/
def stackRefs (stack : List Loop) (t : Nat) : Nat :=
  stack.countP (fun lp => lp.body == t || lp.end_ == t)

/-- What holds of the blocks and the stack in every state the scan goes
through: the current block and the end blocks of the open loops have no
terminator yet, these end blocks are distinct and not current, every other
block ends with a conditional branch, and every block but the entry block
is the target of two conditional branches, one of them still to be emitted
for each block of an open loop. -/
structure LoopInv (st : TState) : Prop where
  cur : ∃ blk, st.blocks[st.block]? = some blk ∧ blk.term = none
  pending : ∀ lp, lp ∈ st.stack →
    lp.end_ ≠ st.block ∧ ∃ blk, st.blocks[lp.end_]? = some blk ∧ blk.term = none
  nodup : (st.stack.map Loop.end_).Nodup
  unterminated : ∀ (b : Nat) (blk : Block), st.blocks[b]? = some blk → blk.term = none →
    b = st.block ∨ ∃ lp, lp ∈ st.stack ∧ lp.end_ = b
  terms : ∀ (b : Nat) (blk : Block), st.blocks[b]? = some blk →
    blk.term = none ∨ ∃ c t f, blk.term = some (Term.condBr c t f)
  count : ∀ t, condBranchesTo st.blocks t + stackRefs st.stack t =
    if 1 ≤ t ∧ t < st.blocks.length then 2 else 0

/-- What holds of the blocks of `main` throughout: the entry block starts with
the prelude, and an `alloca` is found only among the five instructions of
the prelude. -/
def PreludeInv (blocks : List Block) : Prop :=
  (∃ entry rest, blocks[0]? = some entry ∧ entry.insts = preludeCode ++ rest) ∧
  ∀ (b : Nat) (blk : Block) (i : Nat) (t : Ty), blocks[b]? = some blk →
    blk.insts[i]? = some (Inst.alloca t) → b = 0 ∧ i < 5

/-- The instructions that the step for the byte `c` appends to the current
block of `st`. -/
def emittedCode (st : TState) (c : Nat) : List Inst :=
  match step st c with
  | .ok st1 =>
    match st1.blocks[st.block]? with
    | some blk => blk.insts.drop (instCount st.blocks st.block)
    | none => []
  | .error _ => []

/-- The types of the constants that the `add` instructions of a list have as
second operand. -/
def addedConstTys : List Inst → List Ty
  | [] => []
  | Inst.add _ (Value.const ty _) :: rest => ty :: addedConstTys rest
  | _ :: rest => addedConstTys rest

/-- The code emitted for the byte `c` adds a constant of a type narrower than
the 64-bit pointer register. -/
def addsNarrowConst (st : TState) (c : Nat) : Bool :=
  (addedConstTys (emittedCode st c)).any fun ty =>
    match ty.width with
    | some w => decide (w < 64)
    | none => false

/-! ## The scan and the Loop Stack -/

theorem step_other (st : TState) (c : Nat) (h1 : c ≠ 91) (h2 : c ≠ 93) :
    ∃ st1, step st c = .ok st1 ∧ st1.stack = st.stack ∧ st1.block = st.block := by
  unfold step
  simp only [h1, h2, if_false]
  split_ifs <;> exact ⟨_, rfl, rfl, rfl⟩

theorem step_open (st : TState) :
    ∃ st1, step st 91 = .ok st1 ∧ ∃ lp, st1.stack = st.stack ++ [lp] := by
  exact ⟨_, rfl, _, rfl⟩

theorem step_close_empty (st : TState) (h : st.stack = []) :
    step st 93 = .error TError.unmatchedClose := by
  simp [step, h]

theorem step_close_cons (st : TState) (h : st.stack ≠ []) :
    ∃ st1, step st 93 = .ok st1 ∧ st1.stack = st.stack.dropLast := by
  obtain ⟨lp, hlp⟩ : ∃ lp, st.stack.getLast? = some lp := by
    cases hs : st.stack.getLast? with
    | none => exact absurd (List.getLast?_eq_none_iff.mp hs) h
    | some lp => exact ⟨lp, rfl⟩
  unfold step
  simp only [hlp]
  exact ⟨_, rfl, rfl⟩

theorem opens_cons (c : Nat) (cs : List Nat) :
    opens (c :: cs) = opens cs + if c = 91 then 1 else 0 := by
  by_cases h : c = 91 <;> simp [opens, List.count_cons, h]

theorem closes_cons (c : Nat) (cs : List Nat) :
    closes (c :: cs) = closes cs + if c = 93 then 1 else 0 := by
  by_cases h : c = 93 <;> simp [closes, List.count_cons, h]

theorem scanFrom_append (xs ys : List Nat) : ∀ st : TState,
    scanFrom st (xs ++ ys) =
      match scanFrom st xs with
      | .ok st1 => scanFrom st1 ys
      | .error e => .error e := by
  induction xs with
  | nil => intro st; rfl
  | cons c cs ih =>
    intro st
    simp only [List.cons_append, scanFrom]
    cases step st c with
    | error e => rfl
    | ok st1 => exact ih st1

/-- While no prefix closes more loops than are open, the scan goes through and
the depth of the stack follows the brackets. -/
theorem scanFrom_ok (prog : List Nat) : ∀ st : TState,
    (∀ k, k ≤ prog.length → closes (prog.take k) ≤ st.stack.length + opens (prog.take k)) →
    ∃ st1, scanFrom st prog = .ok st1 ∧
      st1.stack.length + closes prog = st.stack.length + opens prog := by
  induction prog with
  | nil => intro st _; exact ⟨st, rfl, by simp [opens, closes]⟩
  | cons c cs ih =>
    intro st h
    have hk : ∀ k, k ≤ cs.length →
        closes (c :: cs.take k) ≤ st.stack.length + opens (c :: cs.take k) := by
      intro k hk
      have := h (k + 1) (by simpa using hk)
      simpa using this
    by_cases h91 : c = 91
    · subst h91
      obtain ⟨st1, hst, lp, hlp⟩ := step_open st
      have hlen : st1.stack.length = st.stack.length + 1 := by simp [hlp]
      obtain ⟨st2, h2, hd⟩ := ih st1 (by
        intro k hk'
        have := hk k hk'
        rw [opens_cons, closes_cons] at this
        simp at this
        omega)
      refine ⟨st2, by simp only [scanFrom, hst]; exact h2, ?_⟩
      rw [opens_cons, closes_cons]
      simp
      omega
    · by_cases h93 : c = 93
      · subst h93
        have hne : st.stack ≠ [] := by
          intro he
          have := hk 0 (Nat.zero_le _)
          rw [opens_cons, closes_cons] at this
          simp [he, opens, closes] at this
        obtain ⟨st1, hst, hdl⟩ := step_close_cons st hne
        have hpos : 0 < st.stack.length := List.length_pos.mpr hne
        have hlen : st1.stack.length = st.stack.length - 1 := by simp [hdl]
        obtain ⟨st2, h2, hd⟩ := ih st1 (by
          intro k hk'
          have := hk k hk'
          rw [opens_cons, closes_cons] at this
          simp at this
          omega)
        refine ⟨st2, by simp only [scanFrom, hst]; exact h2, ?_⟩
        rw [opens_cons, closes_cons]
        simp
        omega
      · obtain ⟨st1, hst, hstack, _⟩ := step_other st c h91 h93
        obtain ⟨st2, h2, hd⟩ := ih st1 (by
          intro k hk'
          have := hk k hk'
          rw [opens_cons, closes_cons] at this
          simp [h91, h93] at this
          rw [hstack]
          exact this)
        refine ⟨st2, by simp only [scanFrom, hst]; exact h2, ?_⟩
        rw [opens_cons, closes_cons, hstack] at *
        simp [h91, h93]
        exact hd

/-- As soon as a prefix closes more loops than are open, the scan stops with
the error of line 107. -/
theorem scanFrom_err (prog : List Nat) : ∀ (st : TState) (k : Nat), k ≤ prog.length →
    st.stack.length + opens (prog.take k) < closes (prog.take k) →
    scanFrom st prog = .error TError.unmatchedClose := by
  induction prog with
  | nil => intro st k _ h; simp [opens, closes] at h
  | cons c cs ih =>
    intro st k hk h
    cases k with
    | zero => simp [opens, closes] at h
    | succ k =>
      have hk' : k ≤ cs.length := by simpa using hk
      rw [List.take_succ_cons, opens_cons, closes_cons] at h
      by_cases h91 : c = 91
      · subst h91
        obtain ⟨st1, hst, lp, hlp⟩ := step_open st
        have hlen : st1.stack.length = st.stack.length + 1 := by simp [hlp]
        simp only [scanFrom, hst]
        apply ih st1 k hk'
        simp at h
        omega
      · by_cases h93 : c = 93
        · subst h93
          by_cases he : st.stack = []
          · simp only [scanFrom, step_close_empty st he]
          · obtain ⟨st1, hst, hdl⟩ := step_close_cons st he
            have hpos : 0 < st.stack.length := List.length_pos.mpr he
            have hlen : st1.stack.length = st.stack.length - 1 := by simp [hdl]
            simp only [scanFrom, hst]
            apply ih st1 k hk'
            simp at h
            omega
        · obtain ⟨st1, hst, hstack, _⟩ := step_other st c h91 h93
          simp only [scanFrom, hst]
          apply ih st1 k hk'
          simp [h91, h93] at h
          rw [hstack]
          exact h

theorem init_stack : init.stack = [] := rfl

theorem scan_ok_of_prefixOk (prog : List Nat) (h : PrefixOk prog) :
    ∃ st, scan prog = .ok st ∧ st.stack.length + closes prog = opens prog := by
  obtain ⟨st, hst, hd⟩ := scanFrom_ok prog init (by
    intro k hk
    have := h k hk
    simp [init_stack]
    exact this)
  exact ⟨st, hst, by simpa [init_stack] using hd⟩

theorem scan_err_of_not_prefixOk (prog : List Nat) (h : ¬ PrefixOk prog) :
    scan prog = .error TError.unmatchedClose := by
  unfold PrefixOk at h
  push_neg at h
  obtain ⟨k, hk, hlt⟩ := h
  exact scanFrom_err prog init k hk (by simpa [init_stack] using hlt)

/-- The three outcomes of `translate`, by the brackets of the source. -/
theorem translate_cases (prog : List Nat) :
    (¬ PrefixOk prog ∧ translate prog = .error TError.unmatchedClose) ∨
    (PrefixOk prog ∧ closes prog < opens prog ∧ translate prog = .error TError.unmatchedOpen) ∨
    (PrefixOk prog ∧ opens prog = closes prog ∧
      ∃ st, scan prog = .ok st ∧ st.stack = [] ∧ translate prog =
        .ok (mkModule (st.setTerm (Term.ret (Value.const Ty.i32 0))).blocks)) := by
  by_cases h : PrefixOk prog
  · obtain ⟨st, hst, hd⟩ := scan_ok_of_prefixOk prog h
    by_cases he : st.stack.length = 0
    · right; right
      refine ⟨h, by omega, st, hst, List.length_eq_zero.mp he, ?_⟩
      simp [translate, hst, finish, he]
    · right; left
      refine ⟨h, by omega, ?_⟩
      simp [translate, hst, finish, he]
  · left
    exact ⟨h, by simp [translate, scan_err_of_not_prefixOk prog h]⟩

theorem unmatchedOpens_eq (prog : List Nat) : ∀ d : Nat,
    (∀ k, k ≤ prog.length → closes (prog.take k) ≤ d + opens (prog.take k)) →
    unmatchedOpens d prog + closes prog = d + opens prog := by
  induction prog with
  | nil => intro d _; simp [unmatchedOpens, opens, closes]
  | cons c cs ih =>
    intro d h
    have hk : ∀ k, k ≤ cs.length → closes (c :: cs.take k) ≤ d + opens (c :: cs.take k) := by
      intro k hk
      have := h (k + 1) (by simpa using hk)
      simpa using this
    have h0 := hk 0 (Nat.zero_le _)
    simp only [List.take_zero] at h0
    rw [opens_cons, closes_cons] at h0
    rw [opens_cons, closes_cons]
    by_cases h91 : c = 91
    · subst h91
      have := ih (d + 1) (by
        intro k hk'
        have := hk k hk'
        rw [opens_cons, closes_cons] at this
        simp at this
        omega)
      simp [unmatchedOpens]
      omega
    · by_cases h93 : c = 93
      · subst h93
        simp [opens, closes] at h0
        have := ih (d - 1) (by
          intro k hk'
          have := hk k hk'
          rw [opens_cons, closes_cons] at this
          simp at this
          omega)
        simp [unmatchedOpens]
        omega
      · have := ih d (by
          intro k hk'
          have := hk k hk'
          rw [opens_cons, closes_cons] at this
          simpa [h91, h93] using this)
        simp [unmatchedOpens, h91, h93]
        exact this

theorem step_noop (st : TState) (c : Nat) (h : isInstr c = false) : step st c = .ok st := by
  simp only [isInstr, Bool.or_eq_false_iff, decide_eq_false_iff_not] at h
  obtain ⟨⟨⟨⟨⟨⟨⟨h1, h2⟩, h3⟩, h4⟩, h5⟩, h6⟩, h7⟩, h8⟩ := h
  simp [step, h1, h2, h3, h4, h5, h6, h7, h8]

theorem scanFrom_filter (prog : List Nat) : ∀ st : TState,
    scanFrom st (prog.filter isInstr) = scanFrom st prog := by
  induction prog with
  | nil => intro st; rfl
  | cons c cs ih =>
    intro st
    cases hc : isInstr c with
    | false =>
      rw [List.filter_cons_of_neg (by simp [hc])]
      simp only [scanFrom, step_noop st c hc]
      exact ih st
    | true =>
      rw [List.filter_cons_of_pos hc]
      simp only [scanFrom]
      cases step st c with
      | error e => rfl
      | ok st1 => exact ih st1

/-! ## The claims about the outcome of the translation -/

/-- C1: a source whose brackets are correctly nested (no prefix has more `]`
than `[`, and the totals are equal) is scanned without error, the Loop Stack is
empty when the scan ends, and a Module is produced. -/
theorem nested_source_translates (prog : List Nat) (hpre : PrefixOk prog)
    (htot : opens prog = closes prog) :
    ∃ st, scan prog = .ok st ∧ st.stack = [] ∧ ∃ m, translate prog = .ok m := by
  rcases translate_cases prog with ⟨h, _⟩ | ⟨_, h, _⟩ | ⟨_, _, st, hst, hstack, htr⟩
  · exact absurd hpre h
  · omega
  · exact ⟨st, hst, hstack, _, htr⟩

theorem nested_source_translates_witness :
    PrefixOk (bytes "[+[-]]") ∧ opens (bytes "[+[-]]") = closes (bytes "[+[-]]") ∧
      ∃ st, scan (bytes "[+[-]]") = .ok st ∧ st.stack = [] ∧
        ∃ m, translate (bytes "[+[-]]") = .ok m :=
  ⟨by unfold PrefixOk; decide, by decide,
    nested_source_translates (bytes "[+[-]]") (by unfold PrefixOk; decide) (by decide)⟩

/-- C2: translation fails with "unexpected closing bracket" exactly when some
prefix of the source has more `]` than `[`. At the first such prefix, of length
`k + 1`, byte `k` is a `]`, the scan of the `k` bytes before it succeeds and
leaves the Loop Stack empty, the step for `]` in that state raises the error,
and whatever bytes follow, the outcome is the same error. -/
theorem unmatchedClose_iff (prog : List Nat) :
    (translate prog = .error TError.unmatchedClose ↔
      ∃ k, k ≤ prog.length ∧ opens (prog.take k) < closes (prog.take k)) ∧
    (∀ k, k < prog.length →
      (∀ j, j ≤ k → closes (prog.take j) ≤ opens (prog.take j)) →
      opens (prog.take (k + 1)) < closes (prog.take (k + 1)) →
      prog[k]? = some 93 ∧
      ∃ st, scan (prog.take k) = .ok st ∧ st.stack = [] ∧
        step st 93 = .error TError.unmatchedClose ∧
        ∀ rest, translate (prog.take (k + 1) ++ rest) = .error TError.unmatchedClose) := by
  constructor
  · constructor
    · intro h
      rcases translate_cases prog with ⟨hn, _⟩ | ⟨_, _, h2⟩ | ⟨_, _, st, _, _, h2⟩
      · unfold PrefixOk at hn
        push_neg at hn
        exact hn
      · rw [h2] at h; cases h
      · rw [h2] at h; cases h
    · rintro ⟨k, hk, hlt⟩
      have : ¬ PrefixOk prog := fun hp => absurd (hp k hk) (by omega)
      simp [translate, scan_err_of_not_prefixOk prog this]
  · intro k hk hpre hbad
    have hget : prog[k]? = some prog[k] := List.getElem?_eq_getElem hk
    have htake : prog.take (k + 1) = prog.take k ++ [prog[k]] := by
      rw [List.take_succ, hget]; rfl
    have hpk : PrefixOk (prog.take k) := by
      intro j hj
      have hj' : j ≤ k := le_trans hj (List.length_take_le _ _)
      rw [List.take_take, Nat.min_eq_left hj']
      exact hpre j hj'
    have hkk := hpre k le_rfl
    have h93 : prog[k] = 93 := by
      by_contra hne
      rw [htake] at hbad
      simp only [opens, closes, List.count_append, List.count_cons, List.count_nil] at hbad hkk
      simp [hne] at hbad
      omega
    have hbal : opens (prog.take k) = closes (prog.take k) := by
      rw [htake, h93] at hbad
      simp only [opens, closes, List.count_append, List.count_cons, List.count_nil] at hbad hkk
      simp at hbad
      simp only [opens, closes]
      omega
    obtain ⟨st, hst, hd⟩ := scan_ok_of_prefixOk (prog.take k) hpk
    have hempty : st.stack = [] := List.length_eq_zero.mp (by omega)
    refine ⟨by rw [hget, h93], st, hst, hempty, step_close_empty st hempty, ?_⟩
    intro rest
    have hscan : scan (prog.take (k + 1) ++ rest) = .error TError.unmatchedClose := by
      unfold scan at hst ⊢
      rw [htake, h93, List.append_assoc, scanFrom_append, hst]
      simp only [List.singleton_append, scanFrom, step_close_empty st hempty]
    simp [translate, hscan]

/-- C3, as amended: a source that leaves at least one `[` without a matching `]`,
and in which no prefix has more `]` than `[`, fails with "excessive opening
brackets". -/
theorem unmatchedOpen_of_prefixOk (prog : List Nat) (hpre : PrefixOk prog)
    (hopen : 0 < unmatchedOpens 0 prog) :
    translate prog = .error TError.unmatchedOpen := by
  have heq := unmatchedOpens_eq prog 0 (by
    intro k hk
    simpa using hpre k hk)
  rcases translate_cases prog with ⟨h, _⟩ | ⟨_, _, h⟩ | ⟨_, h, _⟩
  · exact absurd hpre h
  · exact h
  · omega

theorem unmatchedOpen_of_prefixOk_witness :
    PrefixOk (bytes "[") ∧ 0 < unmatchedOpens 0 (bytes "[") ∧
      translate (bytes "[") = .error TError.unmatchedOpen :=
  ⟨by unfold PrefixOk; decide, by decide,
    unmatchedOpen_of_prefixOk (bytes "[") (by unfold PrefixOk; decide) (by decide)⟩

/-- C3 as stated fails: the source `][` leaves its `[` without a matching `]`,
and translation stops at the `]` with "unexpected closing bracket". -/
theorem unmatchedOpen_counterexample :
    ¬ (0 < unmatchedOpens 0 (bytes "][") →
        translate (bytes "][") = .error TError.unmatchedOpen) := by
  intro h
  have h1 : translate (bytes "][") = .error TError.unmatchedClose := rfl
  rw [h1] at h
  cases h (by decide)

/-- C4: a source without `[` and `]` is translated successfully, whatever its
bytes (the empty source and a source of comment bytes included); and a
translation that fails fails with one of the two bracket errors: with
"unexpected closing bracket" when some prefix has more `]` than `[`, otherwise
with "excessive opening brackets", there being more `[` than `]`. -/
theorem only_bracket_errors (prog : List Nat) :
    ((∀ c, c ∈ prog → c ≠ 91 ∧ c ≠ 93) → ∃ m, translate prog = .ok m) ∧
    ((∀ c, c ∈ prog → isInstr c = false) → ∃ m, translate prog = .ok m) ∧
    (∃ m, translate [] = .ok m) ∧
    (∀ e, translate prog = .error e →
      (e = TError.unmatchedClose ∧ ¬ PrefixOk prog) ∨
      (e = TError.unmatchedOpen ∧ PrefixOk prog ∧ closes prog < opens prog)) := by
  have key : (∀ c, c ∈ prog → c ≠ 91 ∧ c ≠ 93) → ∃ m, translate prog = .ok m := by
    intro h
    have ho : ∀ l : List Nat, (∀ c, c ∈ l → c ≠ 91 ∧ c ≠ 93) → opens l = 0 ∧ closes l = 0 := by
      intro l hl
      constructor
      · exact List.count_eq_zero.mpr (fun hm => (hl 91 hm).1 rfl)
      · exact List.count_eq_zero.mpr (fun hm => (hl 93 hm).2 rfl)
    have hp : PrefixOk prog := by
      intro k _
      have := ho (prog.take k) (fun c hc => h c (List.mem_of_mem_take hc))
      omega
    have htot := ho prog h
    rcases translate_cases prog with ⟨hn, _⟩ | ⟨_, hlt, _⟩ | ⟨_, _, st, _, _, htr⟩
    · exact absurd hp hn
    · omega
    · exact ⟨_, htr⟩
  refine ⟨key, ?_, ⟨_, rfl⟩, ?_⟩
  · intro h
    apply key
    intro c hc
    have := h c hc
    constructor <;> (rintro rfl; simp [isInstr] at this)
  · intro e he
    rcases translate_cases prog with ⟨hn, h⟩ | ⟨hp, hlt, h⟩ | ⟨_, _, st, _, _, h⟩
    · rw [h] at he; cases he; exact Or.inl ⟨rfl, hn⟩
    · rw [h] at he; cases he; exact Or.inr ⟨rfl, hp, hlt⟩
    · rw [h] at he; cases he

/-- C5: translating a source and translating it with every byte outside
`+ - < > . , [ ]` removed give the same outcome, the same error or the same
Module; `a+b` translates as `+`; and the step for a byte outside the eight
leaves the translator state (blocks of the Module, current block, Loop Stack)
as it is. -/
theorem comments_are_noops (prog : List Nat) :
    translate (prog.filter isInstr) = translate prog ∧
    translate (bytes "a+b") = translate (bytes "+") ∧
    ∀ (st : TState) (c : Nat), isInstr c = false → step st c = .ok st := by
  refine ⟨?_, rfl, step_noop⟩
  simp only [translate, scan, scanFrom_filter]

/-! ## What one step emits

The blocks of `main` are written `pre ++ blk :: post`, `blk` being the current
block, so that its number is `pre.length`. -/

theorem modifyAt_append_cons (f : Block → Block) (pre : List Block) (blk : Block)
    (post : List Block) :
    modifyAt f pre.length (pre ++ blk :: post) = pre ++ f blk :: post := by
  induction pre with
  | nil => rfl
  | cons a l ih => simp [modifyAt, ih]

theorem instCount_append_cons (pre : List Block) (blk : Block) (post : List Block) :
    instCount (pre ++ blk :: post) pre.length = blk.insts.length := by
  induction pre with
  | nil => rfl
  | cons a l ih => simpa [instCount] using ih

theorem emit_zipper (pre post : List Block) (blk : Block) (stk : List Loop) (ins : Inst) :
    TState.emit ⟨pre ++ blk :: post, pre.length, stk⟩ ins =
      (Value.inst pre.length blk.insts.length,
        ⟨pre ++ { blk with insts := blk.insts ++ [ins] } :: post, pre.length, stk⟩) := by
  simp [TState.emit, modifyAt_append_cons, instCount_append_cons]

theorem setTerm_zipper (pre post : List Block) (blk : Block) (stk : List Loop) (t : Term) :
    TState.setTerm ⟨pre ++ blk :: post, pre.length, stk⟩ t =
      ⟨pre ++ { blk with term := some t } :: post, pre.length, stk⟩ := by
  simp [TState.setTerm, modifyAt_append_cons]

theorem cellPtr_zipper (pre post : List Block) (blk : Block) (stk : List Loop) :
    TState.cellPtr ⟨pre ++ blk :: post, pre.length, stk⟩ =
      (Value.inst pre.length (blk.insts.length + 1),
        ⟨pre ++ { blk with insts := blk.insts ++ codeCellPtr pre.length blk.insts.length } :: post,
          pre.length, stk⟩) := by
  simp [TState.cellPtr, emit_zipper, codeCellPtr]

theorem step_plus (pre post : List Block) (blk : Block) (stk : List Loop) :
    step ⟨pre ++ blk :: post, pre.length, stk⟩ 43 =
      .ok ⟨pre ++ { blk with insts := blk.insts ++ codeAdd 1 pre.length blk.insts.length } :: post,
        pre.length, stk⟩ := by
  simp [step, cellPtr_zipper, emit_zipper, codeAdd, codeCellPtr, Nat.add_assoc]

theorem step_minus (pre post : List Block) (blk : Block) (stk : List Loop) :
    step ⟨pre ++ blk :: post, pre.length, stk⟩ 45 =
      .ok ⟨pre ++ { blk with insts := blk.insts ++ codeAdd (-1) pre.length blk.insts.length } :: post,
        pre.length, stk⟩ := by
  simp [step, cellPtr_zipper, emit_zipper, codeAdd, codeCellPtr, Nat.add_assoc]

theorem step_left (pre post : List Block) (blk : Block) (stk : List Loop) :
    step ⟨pre ++ blk :: post, pre.length, stk⟩ 60 =
      .ok ⟨pre ++ { blk with insts := blk.insts ++ codeMove (-1) pre.length blk.insts.length } :: post,
        pre.length, stk⟩ := by
  simp [step, emit_zipper, codeMove, pc, Nat.add_assoc]

theorem step_right (pre post : List Block) (blk : Block) (stk : List Loop) :
    step ⟨pre ++ blk :: post, pre.length, stk⟩ 62 =
      .ok ⟨pre ++ { blk with insts := blk.insts ++ codeMove 1 pre.length blk.insts.length } :: post,
        pre.length, stk⟩ := by
  simp [step, emit_zipper, codeMove, pc, Nat.add_assoc]

theorem step_dot (pre post : List Block) (blk : Block) (stk : List Loop) :
    step ⟨pre ++ blk :: post, pre.length, stk⟩ 46 =
      .ok ⟨pre ++ { blk with insts := blk.insts ++ codeOut pre.length blk.insts.length } :: post,
        pre.length, stk⟩ := by
  simp [step, cellPtr_zipper, emit_zipper, codeOut, codeCellPtr, Nat.add_assoc]

theorem step_comma (pre post : List Block) (blk : Block) (stk : List Loop) :
    step ⟨pre ++ blk :: post, pre.length, stk⟩ 44 =
      .ok ⟨pre ++ { blk with insts := blk.insts ++ codeIn pre.length blk.insts.length } :: post,
        pre.length, stk⟩ := by
  simp [step, cellPtr_zipper, emit_zipper, codeIn, codeCellPtr, Nat.add_assoc]

theorem step_lbracket (pre post : List Block) (blk : Block) (stk : List Loop) :
    step ⟨pre ++ blk :: post, pre.length, stk⟩ 91 =
      .ok ⟨pre ++ { insts := blk.insts ++ codeTest pre.length blk.insts.length,
                    term := some (Term.condBr (Value.inst pre.length (blk.insts.length + 3))
                      (pre.length + post.length + 1) (pre.length + post.length + 2)) } ::
              (post ++ [⟨[], none⟩, ⟨[], none⟩]),
        pre.length + post.length + 1,
        stk ++ [⟨pre.length + post.length + 1, pre.length + post.length + 2⟩]⟩ := by
  simp [step, cellPtr_zipper, emit_zipper, codeTest, codeCellPtr, TState.newBlock,
    TState.setTerm, Nat.add_assoc]
  rw [modifyAt_append_cons]

theorem step_rbracket (pre post : List Block) (blk : Block) (stk : List Loop) (lp : Loop) :
    step ⟨pre ++ blk :: post, pre.length, stk ++ [lp]⟩ 93 =
      .ok ⟨pre ++ { insts := blk.insts ++ codeTest pre.length blk.insts.length,
                    term := some (Term.condBr (Value.inst pre.length (blk.insts.length + 3))
                      lp.body lp.end_) } :: post,
        lp.end_, stk⟩ := by
  simp [step, cellPtr_zipper, emit_zipper, setTerm_zipper, codeTest, codeCellPtr, Nat.add_assoc]

/-! ## States reached by the scan -/

theorem zipper_of_lt (st : TState) (h : st.block < st.blocks.length) :
    ∃ pre blk post, st.blocks[st.block]? = some blk ∧
      st = ⟨pre ++ blk :: post, pre.length, st.stack⟩ := by
  refine ⟨st.blocks.take st.block, st.blocks[st.block], st.blocks.drop (st.block + 1),
    List.getElem?_eq_getElem h, ?_⟩
  have h1 : st.blocks.take st.block ++ st.blocks[st.block] :: st.blocks.drop (st.block + 1)
      = st.blocks := by
    rw [← List.drop_eq_getElem_cons h, List.take_append_drop]
  have h2 : (st.blocks.take st.block).length = st.block := by
    rw [List.length_take]; omega
  rw [h1, h2]

theorem instCount_zero_zipper (pre post : List Block) (blk blk1 : Block)
    (h : blk.insts.length ≤ blk1.insts.length) :
    instCount (pre ++ blk :: post) 0 ≤ instCount (pre ++ blk1 :: post) 0 := by
  cases pre with
  | nil => simpa [instCount] using h
  | cons a l => simp [instCount]

theorem WF_update (pre post : List Block) (blk blk1 : Block) (stk : List Loop)
    (h : TState.WF ⟨pre ++ blk :: post, pre.length, stk⟩)
    (hlen : blk.insts.length ≤ blk1.insts.length) :
    TState.WF ⟨pre ++ blk1 :: post, pre.length, stk⟩ := by
  obtain ⟨h1, h2, h3⟩ := h
  refine ⟨by simp, le_trans h2 (instCount_zero_zipper pre post blk blk1 hlen), ?_⟩
  intro lp hlp
  have := h3 lp hlp
  simpa using this

theorem step_WF (st st1 : TState) (c : Nat) (h : st.WF) (hs : step st c = .ok st1) : st1.WF := by
  obtain ⟨pre, blk, post, _, hz⟩ := zipper_of_lt st h.1
  rw [hz] at h hs
  generalize st.stack = stk at h hs
  by_cases hi : isInstr c = false
  · rw [step_noop _ c hi] at hs
    cases hs
    exact h
  · simp only [isInstr, Bool.or_eq_false_iff, decide_eq_false_iff_not] at hi
    have hc : c = 43 ∨ c = 45 ∨ c = 60 ∨ c = 62 ∨ c = 46 ∨ c = 44 ∨ c = 91 ∨ c = 93 := by
      by_contra hcon
      simp only [not_or] at hcon
      exact hi ⟨⟨⟨⟨⟨⟨⟨hcon.1, hcon.2.1⟩, hcon.2.2.1⟩, hcon.2.2.2.1⟩, hcon.2.2.2.2.1⟩,
        hcon.2.2.2.2.2.1⟩, hcon.2.2.2.2.2.2.1⟩, hcon.2.2.2.2.2.2.2⟩
    rcases hc with rfl | rfl | rfl | rfl | rfl | rfl | rfl | rfl
    · rw [step_plus] at hs; cases hs
      exact WF_update _ _ _ _ _ h (by simp)
    · rw [step_minus] at hs; cases hs
      exact WF_update _ _ _ _ _ h (by simp)
    · rw [step_left] at hs; cases hs
      exact WF_update _ _ _ _ _ h (by simp)
    · rw [step_right] at hs; cases hs
      exact WF_update _ _ _ _ _ h (by simp)
    · rw [step_dot] at hs; cases hs
      exact WF_update _ _ _ _ _ h (by simp)
    · rw [step_comma] at hs; cases hs
      exact WF_update _ _ _ _ _ h (by simp)
    · rw [step_lbracket] at hs; cases hs
      obtain ⟨h1, h2, h3⟩ := h
      refine ⟨by simp; omega, ?_, ?_⟩
      · refine le_trans h2 ?_
        cases pre with
        | nil => simp [instCount]
        | cons a l => simp [instCount]
      · intro lp hlp
        rcases List.mem_append.mp hlp with hm | hm
        · have := h3 lp hm
          simp at this ⊢
          omega
        · simp at hm
          subst hm
          simp
          omega
    · by_cases he : stk = []
      · rw [step_close_empty _ he] at hs
        cases hs
      · obtain ⟨stk1, lp, rfl⟩ : ∃ stk1 lp, stk = stk1 ++ [lp] :=
          ⟨stk.dropLast, stk.getLast he, (List.dropLast_append_getLast he).symm⟩
        rw [step_rbracket] at hs; cases hs
        obtain ⟨h1, h2, h3⟩ := h
        refine ⟨?_, ?_, ?_⟩
        · have := h3 lp (by simp)
          simpa using this
        · refine le_trans h2 ?_
          cases pre with
          | nil => simp [instCount]
          | cons a l => simp [instCount]
        · intro lp1 hlp1
          have := h3 lp1 (by simp [hlp1])
          simpa using this

theorem init_WF : init.WF := by
  refine ⟨by decide, by decide, ?_⟩
  intro lp hlp
  simp [init_stack] at hlp

theorem scanFrom_WF (prog : List Nat) : ∀ st st1 : TState, st.WF →
    scanFrom st prog = .ok st1 → st1.WF := by
  induction prog with
  | nil => intro st st1 h hs; cases hs; exact h
  | cons c cs ih =>
    intro st st1 h hs
    simp only [scanFrom] at hs
    cases hst : step st c with
    | error e => rw [hst] at hs; cases hs
    | ok st2 =>
      rw [hst] at hs
      exact ih st2 st1 (step_WF st st2 c h hst) hs

theorem scan_WF (prog : List Nat) (st : TState) (h : scan prog = .ok st) : st.WF :=
  scanFrom_WF prog init st init_WF h

/-! ## What the emitted code does -/

theorem execInsts_append (b : Nat) (xs ys : List Inst) : ∀ (i : Nat) (s : XState),
    execInsts b i (xs ++ ys) s =
      match execInsts b i xs s with
      | .ok s1 => execInsts b (i + xs.length) ys s1
      | .error e => .error e := by
  induction xs with
  | nil => intro i s; rfl
  | cons x xs ih =>
    intro i s
    simp only [List.cons_append, execInsts, List.length_cons]
    cases execInst b i s x with
    | error e => rfl
    | ok s1 =>
      have h := ih (i + 1) s1
      rw [Nat.add_assoc, Nat.add_comm 1 xs.length] at h
      exact h

theorem toSigned_of_lt (p : Nat) (hp : p < 9223372036854775808) : toSigned 64 p = (p : Int) := by
  simp [toSigned, hp]

theorem wrap_zero (w : Nat) : wrap w 0 = 0 := by
  simp [wrap]

theorem setReg_same (s : XState) (b i : Nat) (v : RVal) : (s.setReg b i v).env b i = some v := by
  simp [XState.setReg]

theorem setReg_other (s : XState) (b i b1 i1 : Nat) (v : RVal) (h : ¬ (b1 = b ∧ i1 = i)) :
    (s.setReg b i v).env b1 i1 = s.env b1 i1 := by
  simp [XState.setReg, h]

theorem Ready_setReg (s : XState) (cells : Nat → Option Nat) (p b i : Nat) (v : RVal)
    (hs : Ready s cells p) (hb : b = 0 → 4 ≤ i) : Ready (s.setReg b i v) cells p := by
  obtain ⟨h0, h3, hm⟩ := hs
  refine ⟨?_, ?_, hm⟩
  · rw [setReg_other _ _ _ _ _ _ (by intro h; have := hb h.1.symm; omega)]; exact h0
  · rw [setReg_other _ _ _ _ _ _ (by intro h; have := hb h.1.symm; omega)]; exact h3

/-- The load of the pointer register. -/
theorem exec_load_pc (b i : Nat) (s : XState) (cells : Nat → Option Nat) (p : Nat)
    (hs : Ready s cells p) :
    execInst b i s (Inst.load Ty.i64 pc) = .ok (s.setReg b i (RVal.int 64 p)) := by
  obtain ⟨h0, h3, hm⟩ := hs
  simp [execInst, pc, evalTyped, loadMem, Ty.width, h3, hm]

/-- The address of the cell at the pointer. -/
theorem exec_gep (b i b1 i1 : Nat) (s : XState) (cells : Nat → Option Nat) (p0 p : Nat)
    (hs : Ready s cells p0) (hp : p < _defaultMemLimit)
    (h1 : s.env b1 i1 = some (RVal.int 64 p)) :
    execInst b i s
        (Inst.getElementPtr arrayType cellMem [Value.const Ty.i64 0, Value.inst b1 i1]) =
      .ok (s.setReg b i (RVal.ptr 0 p)) := by
  have hlt : p < 9223372036854775808 := by
    have : p < 65535 := hp
    omega
  simp [execInst, arrayType, cellMem, evalTyped, Ty.width, hs.1, h1, toSigned_of_lt, hlt,
    wrap_zero]

/-- The load of a cell. -/
theorem exec_load_cell (b i b1 i1 : Nat) (s : XState) (cells : Nat → Option Nat) (p0 p v : Nat)
    (hs : Ready s cells p0) (hp : p < _defaultMemLimit) (hv : cells p = some v)
    (h1 : s.env b1 i1 = some (RVal.ptr 0 p)) :
    execInst b i s (Inst.load Ty.i8 (Value.inst b1 i1)) = .ok (s.setReg b i (RVal.int 8 v)) := by
  simp [execInst, evalTyped, loadMem, Ty.width, h1, hs.2.2, hp, hv]

/-- An addition of a constant: the constant is read at the width of the first operand. -/
theorem exec_add (b i b1 i1 : Nat) (s : XState) (w a : Nat) (t : Ty) (d : Int)
    (h1 : s.env b1 i1 = some (RVal.int w a)) :
    execInst b i s (Inst.add (Value.inst b1 i1) (Value.const t d)) =
      .ok (s.setReg b i (RVal.int w ((a + wrap w d) % 2 ^ w))) := by
  simp [execInst, evalTyped, evalAt, h1]

/-- The comparison with the constant 0. -/
theorem exec_icmp_ne (b i b1 i1 : Nat) (s : XState) (w a : Nat) (t : Ty)
    (h1 : s.env b1 i1 = some (RVal.int w a)) :
    execInst b i s (Inst.icmp IPred.ne (Value.inst b1 i1) (Value.const t 0)) =
      .ok (s.setReg b i (RVal.int 1 (if a ≠ 0 then 1 else 0))) := by
  simp [execInst, evalTyped, evalAt, h1, wrap_zero]

/-- The store to a cell. -/
theorem exec_store_cell (b i b1 i1 b2 i2 : Nat) (s : XState) (cells : Nat → Option Nat)
    (p0 p v : Nat) (hs : Ready s cells p0) (hp : p < _defaultMemLimit)
    (h1 : s.env b1 i1 = some (RVal.int 8 v)) (h2 : s.env b2 i2 = some (RVal.ptr 0 p)) :
    execInst b i s (Inst.store (Value.inst b1 i1) (Value.inst b2 i2)) =
      .ok { s with mem := [Obj.array _defaultMemLimit (setCell cells p v),
                           Obj.scalar 64 (some p0)] } := by
  simp [execInst, evalTyped, storeMem, h1, h2, hs.2.2, hp]
  rfl

/-- The store to the pointer register. -/
theorem exec_store_pc (b i b1 i1 : Nat) (s : XState) (cells : Nat → Option Nat)
    (p0 v : Nat) (hs : Ready s cells p0) (h1 : s.env b1 i1 = some (RVal.int 64 v)) :
    execInst b i s (Inst.store (Value.inst b1 i1) pc) =
      .ok { s with mem := [Obj.array _defaultMemLimit cells, Obj.scalar 64 (some v)] } := by
  simp [execInst, evalTyped, storeMem, pc, h1, hs.2.1, hs.2.2]

/-- The call of the output primitive. -/
theorem exec_putchar (b i b1 i1 : Nat) (s : XState) (v : Nat)
    (h1 : s.env b1 i1 = some (RVal.int 8 v)) :
    execInst b i s (Inst.call FuncRef.putchar [Value.inst b1 i1]) =
      .ok ({ s with calls := s.calls ++ [ExtCall.putchar v] }.setReg b i (RVal.int 32 v)) := by
  simp [execInst, execCall, evalTyped, h1]

/-- The call of the input primitive when a byte is available. -/
theorem exec_getchar (b i : Nat) (s : XState) (x : Nat) (rest : List Nat)
    (h1 : s.input = x :: rest) :
    execInst b i s (Inst.call FuncRef.getchar []) =
      .ok ({ s with input := rest, calls := s.calls ++ [ExtCall.getchar (x % 256)] }.setReg b i
        (RVal.int 8 (x % 256))) := by
  simp [execInst, execCall, h1]

/-- The two instructions of `cellPtr` leave the address of the cell at the
pointer in the register of the second. -/
theorem exec_codeCellPtr (b n : Nat) (s : XState) (cells : Nat → Option Nat) (p : Nat)
    (hs : Ready s cells p) (hp : p < _defaultMemLimit) (hb : b = 0 → 4 ≤ n) :
    ∃ s1, execInsts b n (codeCellPtr b n) s = .ok s1 ∧ Ready s1 cells p ∧
      s1.env b (n + 1) = some (RVal.ptr 0 p) ∧
      (∀ b1 i1, ¬ (b1 = b ∧ (i1 = n ∨ i1 = n + 1)) → s1.env b1 i1 = s.env b1 i1) ∧
      s1.input = s.input ∧ s1.calls = s.calls ∧ s1.trace = s.trace := by
  have hr1 : Ready (s.setReg b n (RVal.int 64 p)) cells p := Ready_setReg _ _ _ _ _ _ hs hb
  refine ⟨(s.setReg b n (RVal.int 64 p)).setReg b (n + 1) (RVal.ptr 0 p), ?_, ?_, ?_, ?_,
    rfl, rfl, rfl⟩
  · simp only [codeCellPtr, execInsts]
    rw [exec_load_pc b n s cells p hs]
    simp only []
    rw [exec_gep b (n + 1) b n _ cells p p hr1 hp (setReg_same _ _ _ _)]
  · exact Ready_setReg _ _ _ _ _ _ hr1 (fun h => by have := hb h; omega)
  · exact setReg_same _ _ _ _
  · intro b1 i1 h
    rw [setReg_other _ _ _ _ _ _ (by tauto), setReg_other _ _ _ _ _ _ (by tauto)]

theorem exec_codeAdd (d : Int) (b n : Nat) (s : XState) (cells : Nat → Option Nat) (p v : Nat)
    (hs : Ready s cells p) (hp : p < _defaultMemLimit) (hv : cells p = some v)
    (hb : b = 0 → 4 ≤ n) :
    ∃ s1, execInsts b n (codeAdd d b n) s = .ok s1 ∧
      Ready s1 (setCell cells p ((v + wrap 8 d) % 256)) p ∧
      s1.input = s.input ∧ s1.calls = s.calls ∧ s1.trace = s.trace := by
  obtain ⟨s1, he1, hr1, hptr, _, hi1, hc1, ht1⟩ := exec_codeCellPtr b n s cells p hs hp hb
  have hr2 : Ready (s1.setReg b (n + 2) (RVal.int 8 v)) cells p :=
    Ready_setReg _ _ _ _ _ _ hr1 (fun h => by have := hb h; omega)
  have hr3 : Ready ((s1.setReg b (n + 2) (RVal.int 8 v)).setReg b (n + 3)
      (RVal.int 8 ((v + wrap 8 d) % 2 ^ 8))) cells p :=
    Ready_setReg _ _ _ _ _ _ hr2 (fun h => by have := hb h; omega)
  refine ⟨{ (s1.setReg b (n + 2) (RVal.int 8 v)).setReg b (n + 3)
      (RVal.int 8 ((v + wrap 8 d) % 2 ^ 8)) with
      mem := [Obj.array _defaultMemLimit (setCell cells p ((v + wrap 8 d) % 2 ^ 8)),
              Obj.scalar 64 (some p)] }, ?_, ?_, ?_, ?_, ?_⟩
  · rw [codeAdd, execInsts_append, he1]
    simp only [codeCellPtr, List.length_cons, List.length_nil, execInsts]
    rw [exec_load_cell b (n + 2) b (n + 1) s1 cells p p v hr1 hp hv hptr]
    simp only []
    rw [exec_add b (n + 2 + 1) b (n + 2) _ 8 v Ty.i8 d (setReg_same _ _ _ _)]
    simp only []
    rw [exec_store_cell b (n + 2 + 1 + 1) b (n + 3) b (n + 1) _ cells p p
      ((v + wrap 8 d) % 2 ^ 8) hr3 hp (setReg_same _ _ _ _)
      (by rw [setReg_other _ _ _ _ _ _ (by omega), setReg_other _ _ _ _ _ _ (by omega)]
          exact hptr)]
  · exact ⟨hr3.1, hr3.2.1, rfl⟩
  · exact hi1
  · exact hc1
  · exact ht1

theorem Ready_cell (s : XState) (cells : Nat → Option Nat) (p j : Nat) (hs : Ready s cells p) :
    s.cell j = cells j := by
  simp [XState.cell, hs.2.2]

theorem Ready_pointer (s : XState) (cells : Nat → Option Nat) (p : Nat) (hs : Ready s cells p) :
    s.pointer = some p := by
  simp [XState.pointer, hs.2.2]

theorem getElem?_zipper (pre post : List Block) (blk : Block) :
    (pre ++ blk :: post)[pre.length]? = some blk := by
  induction pre with
  | nil => simp
  | cons a l ih => simpa using ih

/-- In a state of the scan, when the current block is the entry block it holds
the prelude. -/
theorem WF_entry (pre post : List Block) (blk : Block) (stk : List Loop)
    (h : TState.WF ⟨pre ++ blk :: post, pre.length, stk⟩) :
    pre.length = 0 → 4 ≤ blk.insts.length := by
  intro h0
  have hnil : pre = [] := List.length_eq_zero.mp h0
  subst hnil
  have := h.2.1
  simp [instCount] at this
  omega

/-- The code appended for `+` or `-` in a state of the scan, run in a machine
state in which cell `p` holds `v`. -/
theorem add_exec (d : Int) (c : Nat)
    (hstep : ∀ (pre post : List Block) (blk : Block) (stk : List Loop),
      step ⟨pre ++ blk :: post, pre.length, stk⟩ c =
        .ok ⟨pre ++ { blk with insts := blk.insts ++ codeAdd d pre.length blk.insts.length } ::
          post, pre.length, stk⟩)
    (st : TState) (hwf : st.WF) (s : XState) (cells : Nat → Option Nat) (p v : Nat)
    (hs : Ready s cells p) (hp : p < _defaultMemLimit) (hv : cells p = some v) :
    EmittedCodeRuns st c s (fun s1 => Ready s1 (setCell cells p ((v + wrap 8 d) % 256)) p) := by
  obtain ⟨pre, blk, post, hget, hz⟩ := zipper_of_lt st hwf.1
  have hblock : st.block = pre.length := by rw [hz]
  rw [hz] at hwf
  obtain ⟨s1, he, hr, _⟩ := exec_codeAdd d pre.length blk.insts.length s cells p v hs hp hv
    (WF_entry pre post blk _ hwf)
  refine ⟨blk, ⟨pre ++ { blk with insts := blk.insts ++ codeAdd d pre.length blk.insts.length } ::
      post, pre.length, st.stack⟩,
    { blk with insts := blk.insts ++ codeAdd d pre.length blk.insts.length },
    codeAdd d pre.length blk.insts.length, s1, hget, ?_, ?_, rfl, ?_, hr⟩
  · rw [hz]; exact hstep pre post blk _
  · rw [hblock]; exact getElem?_zipper _ _ _
  · rw [hblock]; exact he

theorem EmittedCodeRuns.mono (st : TState) (c : Nat) (s : XState) (post post1 : XState → Prop)
    (h : EmittedCodeRuns st c s post) (himp : ∀ s1, post s1 → post1 s1) :
    EmittedCodeRuns st c s post1 := by
  obtain ⟨blk, st1, blk1, code, s1, h1, h2, h3, h4, h5, h6⟩ := h
  exact ⟨blk, st1, blk1, code, s1, h1, h2, h3, h4, h5, himp s1 h6⟩

theorem exec_codeTest (b n : Nat) (s : XState) (cells : Nat → Option Nat) (p v : Nat)
    (hs : Ready s cells p) (hp : p < _defaultMemLimit) (hv : cells p = some v)
    (hb : b = 0 → 4 ≤ n) :
    ∃ s1, execInsts b n (codeTest b n) s = .ok s1 ∧ Ready s1 cells p ∧
      s1.env b (n + 3) = some (RVal.int 1 (if v ≠ 0 then 1 else 0)) ∧
      s1.input = s.input ∧ s1.calls = s.calls ∧ s1.trace = s.trace := by
  obtain ⟨s1, he1, hr1, hptr, _, hi1, hc1, ht1⟩ := exec_codeCellPtr b n s cells p hs hp hb
  have hr2 : Ready (s1.setReg b (n + 2) (RVal.int 8 v)) cells p :=
    Ready_setReg _ _ _ _ _ _ hr1 (fun h => by have := hb h; omega)
  refine ⟨(s1.setReg b (n + 2) (RVal.int 8 v)).setReg b (n + 3)
      (RVal.int 1 (if v ≠ 0 then 1 else 0)), ?_, ?_, setReg_same _ _ _ _, hi1, hc1, ht1⟩
  · rw [codeTest, execInsts_append, he1]
    simp only [codeCellPtr, List.length_cons, List.length_nil, execInsts]
    rw [exec_load_cell b (n + 2) b (n + 1) s1 cells p p v hr1 hp hv hptr]
    simp only []
    rw [exec_icmp_ne b (n + 2 + 1) b (n + 2) _ 8 v Ty.i8 (setReg_same _ _ _ _)]
  · exact Ready_setReg _ _ _ _ _ _ hr2 (fun h => by have := hb h; omega)

theorem exec_codeOut (b n : Nat) (s : XState) (cells : Nat → Option Nat) (p v : Nat)
    (hs : Ready s cells p) (hp : p < _defaultMemLimit) (hv : cells p = some v)
    (hb : b = 0 → 4 ≤ n) :
    ∃ s1, execInsts b n (codeOut b n) s = .ok s1 ∧ Ready s1 cells p ∧
      s1.input = s.input ∧ s1.calls = s.calls ++ [ExtCall.putchar v] ∧ s1.trace = s.trace := by
  obtain ⟨s1, he1, hr1, hptr, _, hi1, hc1, ht1⟩ := exec_codeCellPtr b n s cells p hs hp hb
  have hr2 : Ready (s1.setReg b (n + 2) (RVal.int 8 v)) cells p :=
    Ready_setReg _ _ _ _ _ _ hr1 (fun h => by have := hb h; omega)
  refine ⟨({ s1.setReg b (n + 2) (RVal.int 8 v) with
      calls := s1.calls ++ [ExtCall.putchar v] }).setReg b (n + 3) (RVal.int 32 v),
    ?_, ?_, hi1, ?_, ht1⟩
  · rw [codeOut, execInsts_append, he1]
    simp only [codeCellPtr, List.length_cons, List.length_nil, execInsts]
    rw [exec_load_cell b (n + 2) b (n + 1) s1 cells p p v hr1 hp hv hptr]
    simp only []
    rw [exec_putchar b (n + 2 + 1) b (n + 2) _ v (setReg_same _ _ _ _)]
    rfl
  · exact Ready_setReg _ _ _ _ _ _ ⟨hr2.1, hr2.2.1, hr2.2.2⟩ (fun h => by have := hb h; omega)
  · show s1.calls ++ [ExtCall.putchar v] = s.calls ++ [ExtCall.putchar v]
    rw [hc1]

theorem setCell_setCell (cells : Nat → Option Nat) (p x y : Nat) :
    setCell (setCell cells p x) p y = setCell cells p y := by
  funext j
  by_cases h : j = p <;> simp [setCell, h]

theorem run_condBr (blocks : List Block) (fuel b i : Nat) (s s1 : XState) (blk : Block)
    (c : Value) (t f v : Nat) (hb : blocks[b]? = some blk)
    (he : execInsts b i (blk.insts.drop i) s = .ok s1)
    (ht : blk.term = some (Term.condBr c t f))
    (hc : evalTyped s1.env c = .ok (RVal.int 1 v)) :
    run blocks (fuel + 1) b i s =
      if v ≠ 0 then run blocks fuel t 0 { s1 with trace := s1.trace ++ [t] }
      else run blocks fuel f 0 { s1 with trace := s1.trace ++ [f] } := by
  simp only [run, hb, he, ht, hc]

theorem run_ret (blocks : List Block) (fuel b i : Nat) (s s1 : XState) (blk : Block)
    (x : Value) (v : RVal) (hb : blocks[b]? = some blk)
    (he : execInsts b i (blk.insts.drop i) s = .ok s1)
    (ht : blk.term = some (Term.ret x))
    (hc : evalTyped s1.env x = .ok v) :
    run blocks (fuel + 1) b i s = .ok (v, s1) := by
  simp only [run, hb, he, ht, hc]

theorem evalTyped_reg (env : Nat → Nat → Option RVal) (b i : Nat) (v : RVal)
    (h : env b i = some v) : evalTyped env (Value.inst b i) = .ok v := by
  simp [evalTyped, h]

/-- The end block of `[-]`: it returns 0. -/
theorem clearLoop_end (fuel : Nat) (s : XState) :
    run clearLoopBlocks (fuel + 1) 2 0 s = .ok (RVal.int 32 0, s) :=
  run_ret clearLoopBlocks fuel 2 0 s s _ _ _ rfl rfl rfl rfl

/-- One run of the body block of `[-]`: the cell at the pointer goes from `k + 1`
to `k`, and the test at the end of the block sees `k`. -/
theorem clearLoop_body (s : XState) (cells : Nat → Option Nat) (p k : Nat)
    (hs : Ready s cells p) (hp : p < _defaultMemLimit) (hv : cells p = some (k + 1))
    (hk : k + 1 < 256) :
    ∃ s1, execInsts 1 0 (codeAdd (-1) 1 0 ++ codeTest 1 5) s = .ok s1 ∧
      Ready s1 (setCell cells p k) p ∧
      s1.env 1 8 = some (RVal.int 1 (if k ≠ 0 then 1 else 0)) ∧
      s1.input = s.input ∧ s1.calls = s.calls ∧ s1.trace = s.trace := by
  obtain ⟨s1, he1, hr1, hi1, hc1, ht1⟩ :=
    exec_codeAdd (-1) 1 0 s cells p (k + 1) hs hp hv (by omega)
  have hw : (k + 1 + wrap 8 (-1)) % 256 = k := by
    have : wrap 8 (-1) = 255 := by decide
    omega
  rw [hw] at hr1
  obtain ⟨s2, he2, hr2, hc, hi2, hc2, ht2⟩ :=
    exec_codeTest 1 5 s1 (setCell cells p k) p k hr1 hp (by simp [setCell]) (by omega)
  refine ⟨s2, ?_, hr2, hc, hi2.trans hi1, hc2.trans hc1, ht2.trans ht1⟩
  rw [execInsts_append, he1]
  exact he2

/-- The loop of `[-]`, entered with `k + 1` in the cell at the pointer: the body
block runs `k` more times after this one, then control reaches the end block,
with 0 in the cell. -/
theorem clearLoop_loop (p : Nat) (hp : p < _defaultMemLimit) : ∀ (k : Nat) (s : XState)
    (cells : Nat → Option Nat), Ready s cells p → cells p = some (k + 1) → k + 1 < 256 →
    ∃ s1, run clearLoopBlocks (k + 2) 1 0 s = .ok (RVal.int 32 0, s1) ∧
      s1.trace = s.trace ++ List.replicate k 1 ++ [2] ∧
      Ready s1 (setCell cells p 0) p ∧ s1.input = s.input ∧ s1.calls = s.calls := by
  intro k
  induction k with
  | zero =>
    intro s cells hs hv hk
    obtain ⟨s1, he, hr, hc, hi, hcalls, ht⟩ := clearLoop_body s cells p 0 hs hp hv hk
    refine ⟨{ s1 with trace := s1.trace ++ [2] }, ?_, ?_, ⟨hr.1, hr.2.1, hr.2.2⟩, hi, hcalls⟩
    · rw [run_condBr clearLoopBlocks 1 1 0 s s1 _ _ 1 2 0 rfl he rfl (evalTyped_reg _ _ _ _ hc)]
      simp only [ne_eq, not_true_eq_false, if_false]
      exact clearLoop_end 0 _
    · show s1.trace ++ [2] = s.trace ++ List.replicate 0 1 ++ [2]
      rw [ht]; simp
  | succ k ih =>
    intro s cells hs hv hk
    obtain ⟨s1, he, hr, hc, hi, hcalls, ht⟩ := clearLoop_body s cells p (k + 1) hs hp hv hk
    obtain ⟨s2, hrun, htr, hr2, hi2, hc2⟩ := ih { s1 with trace := s1.trace ++ [1] }
      (setCell cells p (k + 1)) ⟨hr.1, hr.2.1, hr.2.2⟩ (by simp [setCell]) (by omega)
    rw [setCell_setCell] at hr2
    refine ⟨s2, ?_, ?_, hr2, hi2.trans hi, hc2.trans hcalls⟩
    · rw [run_condBr clearLoopBlocks (k + 2) 1 0 s s1 _ _ 1 2 1 rfl he rfl
        (by rw [evalTyped_reg _ _ _ _ hc]; simp)]
      simp only [ne_eq, one_ne_zero, not_false_eq_true, if_true]
      exact hrun
    · rw [htr]
      show s1.trace ++ [1] ++ List.replicate k 1 ++ [2] = _
      rw [ht, List.replicate_succ]
      simp

theorem init_eq : init = ⟨[⟨preludeCode, none⟩], 0, []⟩ := rfl

/-- The prelude, run from the state in which `main` is entered, zeroes the
cells and the pointer register with a single call of `memset`. -/
theorem exec_prelude (input : List Nat) :
    ∃ s0 cells0, execInsts 0 0 preludeCode (XState.start input) = .ok s0 ∧
      Ready s0 cells0 0 ∧ (∀ j, j < _defaultMemLimit → cells0 j = some 0) ∧
      s0.input = input ∧ s0.calls = [ExtCall.memset 0 _defaultMemLimit] ∧ s0.trace = [] := by
  refine ⟨_, _, rfl, ⟨rfl, rfl, rfl⟩, ?_, rfl, rfl, rfl⟩
  intro j hj
  have h1 : toSigned 64 0 = 0 := by decide
  have h2 : wrap 64 (_defaultMemLimit : Int) = _defaultMemLimit := by decide
  simp [hj, wrap_zero, h1, h2]

/-- The scan of `k` bytes `+` in a function of one block, together with the
run of the block built so far. -/
theorem pluses_run (start : XState) : ∀ (k : Nat) (blk : Block) (s : XState)
    (cells : Nat → Option Nat) (v : Nat),
    execInsts 0 0 blk.insts start = .ok s → Ready s cells 0 → cells 0 = some v → v < 256 →
    4 ≤ blk.insts.length →
    ∃ blk1 s1 cells1, scanFrom ⟨[blk], 0, []⟩ (List.replicate k 43) = .ok ⟨[blk1], 0, []⟩ ∧
      blk1.term = blk.term ∧ 4 ≤ blk1.insts.length ∧
      execInsts 0 0 blk1.insts start = .ok s1 ∧ Ready s1 cells1 0 ∧
      cells1 0 = some ((v + k) % 256) ∧
      s1.input = s.input ∧ s1.calls = s.calls ∧ s1.trace = s.trace := by
  intro k
  induction k with
  | zero =>
    intro blk s cells v he hs hv hv8 hlen
    exact ⟨blk, s, cells, rfl, rfl, hlen, he, hs, by rw [hv]; congr 1; omega, rfl, rfl, rfl⟩
  | succ k ih =>
    intro blk s cells v he hs hv hv8 hlen
    have hstep : step ⟨[blk], 0, []⟩ 43 =
        .ok ⟨[{ blk with insts := blk.insts ++ codeAdd 1 0 blk.insts.length }], 0, []⟩ :=
      step_plus [] [] blk []
    obtain ⟨s1, he1, hr1, hi1, hc1, ht1⟩ :=
      exec_codeAdd 1 0 blk.insts.length s cells 0 v hs (by decide) hv (fun _ => hlen)
    have hw : wrap 8 1 = 1 := by decide
    rw [hw] at hr1
    obtain ⟨blk2, s2, cells2, hscan, hterm, hlen2, he2, hr2, hv2, hi2, hc2, ht2⟩ :=
      ih { blk with insts := blk.insts ++ codeAdd 1 0 blk.insts.length } s1
        (setCell cells 0 ((v + 1) % 256)) ((v + 1) % 256)
        (by
          show execInsts 0 0 (blk.insts ++ codeAdd 1 0 blk.insts.length) start = .ok s1
          rw [execInsts_append, he]
          simpa using he1)
        hr1 (by simp [setCell]) (Nat.mod_lt _ (by decide))
        (by simp only [List.length_append]; omega)
    refine ⟨blk2, s2, cells2, ?_, hterm, hlen2, he2, hr2, ?_, hi2.trans hi1, hc2.trans hc1,
      ht2.trans ht1⟩
    · rw [List.replicate_succ]
      simp only [scanFrom, hstep]
      exact hscan
    · rw [hv2]; congr 1; omega

theorem exec_codeMove (d : Int) (b n : Nat) (s : XState) (cells : Nat → Option Nat) (p : Nat)
    (hs : Ready s cells p) (hb : b = 0 → 4 ≤ n) :
    ∃ s1, execInsts b n (codeMove d b n) s = .ok s1 ∧
      Ready s1 cells ((p + wrap 64 d) % 2 ^ 64) ∧
      s1.input = s.input ∧ s1.calls = s.calls ∧ s1.trace = s.trace := by
  have hr1 : Ready (s.setReg b n (RVal.int 64 p)) cells p := Ready_setReg _ _ _ _ _ _ hs hb
  have hr2 : Ready ((s.setReg b n (RVal.int 64 p)).setReg b (n + 1)
      (RVal.int 64 ((p + wrap 64 d) % 2 ^ 64))) cells p :=
    Ready_setReg _ _ _ _ _ _ hr1 (fun h => by have := hb h; omega)
  refine ⟨{ (s.setReg b n (RVal.int 64 p)).setReg b (n + 1)
      (RVal.int 64 ((p + wrap 64 d) % 2 ^ 64)) with
      mem := [Obj.array _defaultMemLimit cells,
              Obj.scalar 64 (some ((p + wrap 64 d) % 2 ^ 64))] }, ?_, ?_, rfl, rfl, rfl⟩
  · simp only [codeMove, execInsts]
    rw [exec_load_pc b n s cells p hs]
    simp only []
    rw [exec_add b (n + 1) b n _ 64 p Ty.i8 d (setReg_same _ _ _ _)]
    simp only []
    rw [exec_store_pc b (n + 1 + 1) b (n + 1) _ cells p _ hr2 (setReg_same _ _ _ _)]
  · exact ⟨hr2.1, hr2.2.1, rfl⟩

theorem exec_seq (b i : Nat) (xs ys : List Inst) (s s1 : XState) (r : Except XErr XState)
    (n : Nat) (hn : i + xs.length = n)
    (h1 : execInsts b i xs s = .ok s1) (h2 : execInsts b n ys s1 = r) :
    execInsts b i (xs ++ ys) s = r := by
  rw [execInsts_append, h1]
  simp only [hn]
  exact h2

/-- One run of the body block of `++[>++<-]`: cell 0 goes from `a + 1` to `a`,
cell 1 from `c` to `c + 2`, the pointer is back at 0, and the test at the end
of the block sees `a`. -/
theorem nested_body (s : XState) (cells : Nat → Option Nat) (a c : Nat)
    (hs : Ready s cells 0) (h0 : cells 0 = some (a + 1)) (h1 : cells 1 = some c)
    (ha : a + 1 < 256) :
    ∃ s1 cells1, execInsts 1 0
        (codeMove 1 1 0 ++ (codeAdd 1 1 3 ++ (codeAdd 1 1 8 ++ (codeMove (-1) 1 13 ++
          (codeAdd (-1) 1 16 ++ codeTest 1 21))))) s = .ok s1 ∧
      Ready s1 cells1 0 ∧ cells1 0 = some a ∧ cells1 1 = some ((c + 2) % 256) ∧
      s1.env 1 24 = some (RVal.int 1 (if a ≠ 0 then 1 else 0)) ∧
      s1.input = s.input ∧ s1.calls = s.calls ∧ s1.trace = s.trace := by
  have hw1 : wrap 64 1 = 1 := by decide
  have hw2 : wrap 64 (-1) = 18446744073709551615 := by decide
  have hw3 : wrap 8 1 = 1 := by decide
  have hw4 : wrap 8 (-1) = 255 := by decide
  obtain ⟨s1, he1, hr1, hi1, hc1, ht1⟩ := exec_codeMove 1 1 0 s cells 0 hs (by omega)
  rw [hw1] at hr1
  have hp1 : (0 + 1) % 2 ^ 64 = 1 := by decide
  rw [hp1] at hr1
  obtain ⟨s2, he2, hr2, hi2, hc2, ht2⟩ :=
    exec_codeAdd 1 1 3 s1 cells 1 c hr1 (by decide) h1 (by omega)
  rw [hw3] at hr2
  obtain ⟨s3, he3, hr3, hi3, hc3, ht3⟩ :=
    exec_codeAdd 1 1 8 s2 _ 1 ((c + 1) % 256) hr2 (by decide) (by simp [setCell]) (by omega)
  rw [hw3, setCell_setCell] at hr3
  obtain ⟨s4, he4, hr4, hi4, hc4, ht4⟩ := exec_codeMove (-1) 1 13 s3 _ 1 hr3 (by omega)
  rw [hw2] at hr4
  have hp2 : (1 + 18446744073709551615) % 2 ^ 64 = 0 := by decide
  rw [hp2] at hr4
  obtain ⟨s5, he5, hr5, hi5, hc5, ht5⟩ :=
    exec_codeAdd (-1) 1 16 s4 _ 0 (a + 1) hr4 (by decide) (by simp [setCell, h0]) (by omega)
  rw [hw4] at hr5
  have ha' : (a + 1 + 255) % 256 = a := by omega
  rw [ha'] at hr5
  obtain ⟨s6, he6, hr6, hc, hi6, hc6, ht6⟩ :=
    exec_codeTest 1 21 s5 _ 0 a hr5 (by decide) (by simp [setCell]) (by omega)
  refine ⟨s6, _, ?_, hr6, by simp [setCell], ?_, hc, ?_, ?_, ?_⟩
  · refine exec_seq 1 0 _ _ s s1 _ 3 rfl he1 ?_
    refine exec_seq 1 3 _ _ s1 s2 _ 8 rfl he2 ?_
    refine exec_seq 1 8 _ _ s2 s3 _ 13 rfl he3 ?_
    refine exec_seq 1 13 _ _ s3 s4 _ 16 rfl he4 ?_
    exact exec_seq 1 16 _ _ s4 s5 _ 21 rfl he5 he6
  · simp only [setCell]
    simp
  · rw [hi6, hi5, hi4, hi3, hi2, hi1]
  · rw [hc6, hc5, hc4, hc3, hc2, hc1]
  · rw [ht6, ht5, ht4, ht3, ht2, ht1]

/-- The entry block of `++[>++<-]`: after the prelude and the two `+`, cell 0
holds 2, and the test sees it. -/
theorem nested_entry (input : List Nat) :
    ∃ s1 cells1, execInsts 0 0
        (preludeCode ++ (codeAdd 1 0 5 ++ (codeAdd 1 0 10 ++ codeTest 0 15)))
        (XState.start input) = .ok s1 ∧
      Ready s1 cells1 0 ∧ cells1 0 = some 2 ∧ cells1 1 = some 0 ∧
      s1.env 0 18 = some (RVal.int 1 1) ∧
      s1.input = input ∧ s1.calls = [ExtCall.memset 0 _defaultMemLimit] ∧ s1.trace = [] := by
  have hw3 : wrap 8 1 = 1 := by decide
  obtain ⟨s0, cells0, he0, hr0, hz, hi0, hc0, ht0⟩ := exec_prelude input
  obtain ⟨s1, he1, hr1, hi1, hc1, ht1⟩ :=
    exec_codeAdd 1 0 5 s0 cells0 0 0 hr0 (by decide) (hz 0 (by decide)) (by omega)
  rw [hw3] at hr1
  obtain ⟨s2, he2, hr2, hi2, hc2, ht2⟩ :=
    exec_codeAdd 1 0 10 s1 _ 0 1 hr1 (by decide) (by simp [setCell]) (by omega)
  rw [hw3, setCell_setCell] at hr2
  obtain ⟨s3, he3, hr3, hc, hi3, hc3, ht3⟩ :=
    exec_codeTest 0 15 s2 _ 0 2 hr2 (by decide) (by simp [setCell]) (by omega)
  refine ⟨s3, _, ?_, hr3, by simp [setCell], ?_, hc, ?_, ?_, ?_⟩
  · refine exec_seq 0 0 _ _ _ s0 _ 5 rfl he0 ?_
    refine exec_seq 0 5 _ _ s0 s1 _ 10 rfl he1 ?_
    exact exec_seq 0 10 _ _ s1 s2 _ 15 rfl he2 he3
  · simp only [setCell]
    simp
    exact hz 1 (by decide)
  · rw [hi3, hi2, hi1, hi0]
  · rw [hc3, hc2, hc1, hc0]
  · rw [ht3, ht2, ht1, ht0]

/-- The reference interpreter on `++[>++<-]`. -/
theorem refRun_nested (input : List Nat) :
    ∃ r, refRun (bytes "++[>++<-]") 16 input = some r ∧
      r.ptr = 0 ∧ r.cells 0 = 0 ∧ r.cells 1 = 4 :=
  ⟨_, rfl, rfl, rfl, rfl⟩

/-! ## The claims about the emitted code when it runs -/

/-- C6: in every state `st` the scan can reach, the instructions appended to
the current block for `+`, run in a machine state where the pointer register
holds `p` and cell `p` holds `v` (any `v`, so every 8-bit `v`), leave
`(v + 1) mod 256` in cell `p` (0 when `v` is 255), and those appended for `-`
leave `(v - 1) mod 256` (255 when `v` is 0); every other cell and the pointer
register are as before. -/
theorem plus_minus_wrap (src : List Nat) (st : TState) (hscan : scan src = .ok st)
    (s : XState) (cells : Nat → Option Nat) (p v : Nat) (hs : Ready s cells p)
    (hp : p < _defaultMemLimit) (hv : cells p = some v) :
    EmittedCodeRuns st 43 s (fun s1 =>
      s1.cell p = some ((v + 1) % 256) ∧ (v = 255 → s1.cell p = some 0) ∧
      (∀ j, j ≠ p → s1.cell j = s.cell j) ∧ s1.pointer = s.pointer) ∧
    EmittedCodeRuns st 45 s (fun s1 =>
      (∃ r : Nat, s1.cell p = some r ∧ (r : Int) = ((v : Int) - 1) % 256) ∧
      (v = 0 → s1.cell p = some 255) ∧
      (∀ j, j ≠ p → s1.cell j = s.cell j) ∧ s1.pointer = s.pointer) := by
  have hwf := scan_WF src st hscan
  have hw1 : wrap 8 1 = 1 := by decide
  have hw2 : wrap 8 (-1) = 255 := by decide
  constructor
  · refine EmittedCodeRuns.mono _ _ _ _ _ (add_exec 1 43 step_plus st hwf s cells p v hs hp hv) ?_
    intro s1 hr
    rw [hw1] at hr
    have hc : s1.cell p = some ((v + 1) % 256) := by
      rw [Ready_cell s1 _ p p hr]; simp [setCell]
    refine ⟨hc, ?_, ?_, ?_⟩
    · intro h255; rw [hc, h255]
    · intro j hj
      rw [Ready_cell s1 _ p j hr, Ready_cell s _ p j hs]; simp [setCell, hj]
    · rw [Ready_pointer s1 _ p hr, Ready_pointer s _ p hs]
  · refine EmittedCodeRuns.mono _ _ _ _ _
      (add_exec (-1) 45 step_minus st hwf s cells p v hs hp hv) ?_
    intro s1 hr
    rw [hw2] at hr
    have hc : s1.cell p = some ((v + 255) % 256) := by
      rw [Ready_cell s1 _ p p hr]; simp [setCell]
    refine ⟨⟨_, hc, by omega⟩, ?_, ?_, ?_⟩
    · intro h0; rw [hc, h0]
    · intro j hj
      rw [Ready_cell s1 _ p j hr, Ready_cell s _ p j hs]; simp [setCell, hj]
    · rw [Ready_pointer s1 _ p hr, Ready_pointer s _ p hs]

theorem plus_minus_wrap_witness :
    ∃ st, scan (bytes "[") = .ok st ∧ st.block = 1 ∧
      Ready (XState.ready (fun _ => some 255) 7 []) (fun _ => some 255) 7 ∧
      EmittedCodeRuns st 43 (XState.ready (fun _ => some 255) 7 [])
        (fun s1 => s1.cell 7 = some 0 ∧ s1.pointer = some 7) :=
  ⟨_, rfl, rfl, ⟨rfl, rfl, rfl⟩,
    EmittedCodeRuns.mono _ _ _ _ _
      (plus_minus_wrap (bytes "[") _ rfl (XState.ready (fun _ => some 255) 7 [])
        (fun _ => some 255) 7 255 ⟨rfl, rfl, rfl⟩ (by decide) rfl).1
      (fun _ h => ⟨h.2.1 rfl, h.2.2.2⟩)⟩

/-- C7: the blocks produced for `[-]`, entered after the prelude in a machine
state where the cell at the pointer holds `n` (0 to 255), run to the `ret`
within `n + 2` blocks: control goes `n` times to the body block (block 1, whose
every run takes the cell from `v + 1` to `v`), then once to the end block
(block 2), and the cell holds 0 there; the other cells and the pointer
register are as before. -/
theorem clear_loop_runs (n p : Nat) (s : XState) (cells : Nat → Option Nat)
    (hs : Ready s cells p) (hp : p < _defaultMemLimit) (hn : cells p = some n)
    (hn8 : n < 256) :
    ∃ m, translate (bytes "[-]") = .ok m ∧
      (∃ entry body, m.mainBlocks[0]? = some entry ∧ m.mainBlocks[1]? = some body ∧
        (∃ c, entry.term = some (Term.condBr c 1 2)) ∧
        ∀ (s2 : XState) (cells2 : Nat → Option Nat) (v : Nat), Ready s2 cells2 p →
          cells2 p = some (v + 1) → v + 1 < 256 →
          ∃ s3, execInsts 1 0 body.insts s2 = .ok s3 ∧ s3.cell p = some v) ∧
      ∃ s1, run m.mainBlocks (n + 2) 0 5 s = .ok (RVal.int 32 0, s1) ∧
        s1.trace = s.trace ++ List.replicate n 1 ++ [2] ∧
        s1.cell p = some 0 ∧ (∀ j, j ≠ p → s1.cell j = s.cell j) ∧
        s1.pointer = some p := by
  refine ⟨mkModule clearLoopBlocks, rfl, ⟨_, _, rfl, rfl, ⟨_, rfl⟩, ?_⟩, ?_⟩
  · intro s2 cells2 v hs2 hv hv8
    obtain ⟨s3, he, hr, _⟩ := clearLoop_body s2 cells2 p v hs2 hp hv hv8
    exact ⟨s3, he, by rw [Ready_cell s3 _ p p hr]; simp [setCell]⟩
  · show ∃ s1, run clearLoopBlocks (n + 2) 0 5 s = .ok (RVal.int 32 0, s1) ∧ _
    obtain ⟨s0, he, hr, hc, hi, hcalls, ht⟩ := exec_codeTest 0 5 s cells p n hs hp hn (by omega)
    have hrun := run_condBr clearLoopBlocks (n + 1) 0 5 s s0 _ _ 1 2 _ rfl he rfl
      (evalTyped_reg _ _ _ _ hc)
    cases n with
    | zero =>
      refine ⟨{ s0 with trace := s0.trace ++ [2] }, ?_, ?_, ?_, ?_, ?_⟩
      · rw [hrun]
        simp only [ne_eq, not_true_eq_false, if_false]
        exact clearLoop_end 0 _
      · show s0.trace ++ [2] = _
        rw [ht]; simp
      · show s0.cell p = some 0
        rw [Ready_cell s0 _ p p hr]; exact hn
      · intro j _
        show s0.cell j = s.cell j
        rw [Ready_cell s0 _ p j hr, Ready_cell s _ p j hs]
      · show s0.pointer = some p
        exact Ready_pointer s0 _ p hr
    | succ k =>
      obtain ⟨s1, hloop, htr, hr1, _, _⟩ := clearLoop_loop p hp k
        { s0 with trace := s0.trace ++ [1] } cells ⟨hr.1, hr.2.1, hr.2.2⟩ hn hn8
      refine ⟨s1, ?_, ?_, ?_, ?_, ?_⟩
      · rw [hrun]
        simp only [ne_eq, Nat.add_one_ne_zero, not_false_eq_true, if_true, one_ne_zero]
        exact hloop
      · rw [htr]
        show s0.trace ++ [1] ++ List.replicate k 1 ++ [2] = _
        rw [ht, List.replicate_succ]
        simp
      · rw [Ready_cell s1 _ p p hr1]; simp [setCell]
      · intro j hj
        rw [Ready_cell s1 _ p j hr1, Ready_cell s _ p j hs]; simp [setCell, hj]
      · exact Ready_pointer s1 _ p hr1

theorem clear_loop_runs_witness :
    Ready (XState.ready (fun _ => some 3) 9 []) (fun _ => some 3) 9 ∧
    ∃ m, translate (bytes "[-]") = .ok m ∧
      ∃ s1, run m.mainBlocks 5 0 5 (XState.ready (fun _ => some 3) 9 []) =
          .ok (RVal.int 32 0, s1) ∧
        s1.trace = [1, 1, 1, 2] ∧ s1.cell 9 = some 0 :=
  ⟨⟨rfl, rfl, rfl⟩,
    match clear_loop_runs 3 9 (XState.ready (fun _ => some 3) 9 []) (fun _ => some 3)
      ⟨rfl, rfl, rfl⟩ (by decide) rfl (by decide) with
    | ⟨m, hm, _, s1, hrun, htr, hc, _⟩ => ⟨m, hm, s1, hrun, htr, hc⟩⟩

/-- C8: the Module translated from `k` bytes `+` followed by `.`, executed, calls
the output primitive exactly once, with the byte `k mod 256`, and returns 0
(the only other external call is the fill of the prelude); for `+++.` the byte
is 3. -/
theorem pluses_then_dot (k : Nat) (input : List Nat) :
    (∃ m, translate (List.replicate k 43 ++ [46]) = .ok m ∧
      ∃ s, execModule m 1 input = .ok (RVal.int 32 0, s) ∧
        s.calls = [ExtCall.memset 0 _defaultMemLimit, ExtCall.putchar (k % 256)]) ∧
    bytes "+++." = List.replicate 3 43 ++ [46] ∧
    (compileAndRun (bytes "+++.") 1 input).map observe =
      some (.ok (RVal.int 32 0, some 0,
        [ExtCall.memset 0 _defaultMemLimit, ExtCall.putchar 3], [])) := by
  refine ⟨?_, rfl, rfl⟩
  obtain ⟨s0, cells0, he0, hr0, hz, hi0, hc0, ht0⟩ := exec_prelude input
  obtain ⟨blk1, s1, cells1, hscan, hterm, hlen, he1, hr1, hv1, hi1, hc1, ht1⟩ :=
    pluses_run (XState.start input) k ⟨preludeCode, none⟩ s0 cells0 0 he0 hr0
      (hz 0 (by decide)) (by decide) (by decide)
  obtain ⟨s2, he2, hr2, hi2, hc2, ht2⟩ :=
    exec_codeOut 0 blk1.insts.length s1 cells1 0 ((0 + k) % 256) hr1 (by decide) hv1
      (fun _ => hlen)
  have hdot : step ⟨[blk1], 0, []⟩ 46 =
      .ok ⟨[{ blk1 with insts := blk1.insts ++ codeOut 0 blk1.insts.length }], 0, []⟩ :=
    step_dot [] [] blk1 []
  have hsc : scan (List.replicate k 43 ++ [46]) =
      .ok ⟨[{ blk1 with insts := blk1.insts ++ codeOut 0 blk1.insts.length }], 0, []⟩ := by
    unfold scan
    rw [init_eq, scanFrom_append, hscan]
    simp only [scanFrom, hdot]
  refine ⟨mkModule [⟨blk1.insts ++ codeOut 0 blk1.insts.length,
      some (Term.ret (Value.const Ty.i32 0))⟩], ?_, s2, ?_, ?_⟩
  · simp only [translate, hsc]
    rfl
  · have hex : execInsts 0 0 ((blk1.insts ++ codeOut 0 blk1.insts.length).drop 0)
        (XState.start input) = .ok s2 := by
      rw [List.drop_zero, execInsts_append, he1]
      simpa using he2
    exact run_ret _ 0 0 0 _ s2 _ _ _ rfl hex rfl rfl
  · rw [hc2, hc1, hc0]
    simp

/-- C9: the Module translated from `,.`, executed on an input that starts with
the byte `b`, calls the input primitive once, which yields `b`, then the output
primitive once, with `b`, and returns 0. -/
theorem echo_one_byte (b : Nat) (rest : List Nat) (hb : b < 256) :
    ∃ m, translate (bytes ",.") = .ok m ∧
      ∃ s, execModule m 1 (b :: rest) = .ok (RVal.int 32 0, s) ∧
        s.calls = [ExtCall.memset 0 _defaultMemLimit, ExtCall.getchar b, ExtCall.putchar b] ∧
        s.input = rest := by
  have hmod : b % 256 = b := Nat.mod_eq_of_lt hb
  refine ⟨_, rfl, _, rfl, ?_, rfl⟩
  show [ExtCall.memset 0 _defaultMemLimit, ExtCall.getchar (b % 256),
    ExtCall.putchar (b % 256)] = _
  rw [hmod]

theorem echo_one_byte_witness :
    (65 : Nat) < 256 ∧ ∃ m, translate (bytes ",.") = .ok m ∧
      ∃ s, execModule m 1 [65, 66] = .ok (RVal.int 32 0, s) ∧
        s.calls = [ExtCall.memset 0 _defaultMemLimit, ExtCall.getchar 65, ExtCall.putchar 65] ∧
        s.input = [66] :=
  ⟨by decide, echo_one_byte 65 [66] (by decide)⟩

/-- C10: `++[>++<-]` is translated, and the Module, executed on any input,
returns 0 within four blocks: control goes twice to the loop body (block 1) and
then to the end block (block 2). At the end the pointer register holds 0,
cell 0 holds 0 and cell 1 holds 4, and these are the pointer and the cells the
reference interpreter ends with on the same source. -/
theorem nested_example (input : List Nat) :
    ∃ m, translate (bytes "++[>++<-]") = .ok m ∧
      ∃ s, execModule m 4 input = .ok (RVal.int 32 0, s) ∧
        s.trace = [1, 1, 2] ∧
        s.pointer = some 0 ∧ s.cell 0 = some 0 ∧ s.cell 1 = some 4 ∧
        ∃ r, refRun (bytes "++[>++<-]") 16 input = some r ∧
          s.pointer = some r.ptr ∧ s.cell 0 = some (r.cells 0) ∧
          s.cell 1 = some (r.cells 1) := by
  refine ⟨mkModule nestedBlocks, rfl, ?_⟩
  show ∃ s, run nestedBlocks 4 0 0 (XState.start input) = .ok (RVal.int 32 0, s) ∧ _
  obtain ⟨s0, cells0, he0, hr0, h00, h01, hc0, _, _, ht0⟩ := nested_entry input
  obtain ⟨s1, cells1, he1, hr1, h10, h11, hc1, _, _, ht1⟩ :=
    nested_body { s0 with trace := s0.trace ++ [1] } cells0 1 0 ⟨hr0.1, hr0.2.1, hr0.2.2⟩
      h00 h01 (by decide)
  obtain ⟨s2, cells2, he2, hr2, h20, h21, hc2, _, _, ht2⟩ :=
    nested_body { s1 with trace := s1.trace ++ [1] } cells1 0 2 ⟨hr1.1, hr1.2.1, hr1.2.2⟩
      h10 h11 (by decide)
  have hrun2 : run nestedBlocks 2 1 0 { s1 with trace := s1.trace ++ [1] } =
      .ok (RVal.int 32 0, { s2 with trace := s2.trace ++ [2] }) := by
    rw [run_condBr nestedBlocks 1 1 0 _ s2 _ _ 1 2 0 rfl he2 rfl (evalTyped_reg _ _ _ _ hc2)]
    simp only [ne_eq, not_true_eq_false, if_false]
    exact run_ret nestedBlocks 0 2 0 _ _ _ _ _ rfl rfl rfl rfl
  have hrun1 : run nestedBlocks 3 1 0 { s0 with trace := s0.trace ++ [1] } =
      .ok (RVal.int 32 0, { s2 with trace := s2.trace ++ [2] }) := by
    rw [run_condBr nestedBlocks 2 1 0 _ s1 _ _ 1 2 1 rfl he1 rfl (evalTyped_reg _ _ _ _ hc1)]
    simp only [ne_eq, one_ne_zero, not_false_eq_true, if_true]
    exact hrun2
  have hrun0 : run nestedBlocks 4 0 0 (XState.start input) =
      .ok (RVal.int 32 0, { s2 with trace := s2.trace ++ [2] }) := by
    rw [run_condBr nestedBlocks 3 0 0 _ s0 _ _ 1 2 1 rfl he0 rfl (evalTyped_reg _ _ _ _ hc0)]
    simp only [ne_eq, one_ne_zero, not_false_eq_true, if_true]
    exact hrun1
  have hr : Ready { s2 with trace := s2.trace ++ [2] } cells2 0 := ⟨hr2.1, hr2.2.1, hr2.2.2⟩
  have hp := Ready_pointer _ _ _ hr
  have hcell0 := Ready_cell _ _ _ 0 hr
  have hcell1 := Ready_cell _ _ _ 1 hr
  rw [h20] at hcell0
  rw [h21] at hcell1
  obtain ⟨r, href, hrp, hr0', hr1'⟩ := refRun_nested input
  refine ⟨_, hrun0, ?_, hp, hcell0, hcell1, r, href, ?_, ?_, ?_⟩
  · show s2.trace ++ [2] = [1, 1, 2]
    rw [ht2]
    show s1.trace ++ [1] ++ [2] = [1, 1, 2]
    rw [ht1]
    show s0.trace ++ [1] ++ [1] ++ [2] = [1, 1, 2]
    rw [ht0]
    rfl
  · rw [hp, hrp]
  · rw [hcell0, hr0']
  · rw [hcell1, hr1']

/-! ## The effect of one step on the blocks -/

theorem set_zipper (pre post : List Block) (blk x : Block) :
    (pre ++ blk :: post).set pre.length x = pre ++ x :: post := by
  induction pre with
  | nil => rfl
  | cons a l ih => simp [ih]

/-- The three shapes of a successful step: any byte other than a bracket
appends its code to the current block; `[` appends the test, sets the
conditional branch, adds two empty blocks and pushes their frame; `]` appends
the test, sets the conditional branch to the blocks of the last frame and pops
it. -/
theorem step_cases (st st1 : TState) (c : Nat) (hlt : st.block < st.blocks.length)
    (hs : step st c = .ok st1) :
    ∃ blk, st.blocks[st.block]? = some blk ∧
      ((c ≠ 91 ∧ c ≠ 93 ∧
          st1 = ⟨st.blocks.set st.block
                  ⟨blk.insts ++ codeFor c st.block blk.insts.length, blk.term⟩,
                st.block, st.stack⟩) ∨
       (c = 91 ∧
          st1 = ⟨st.blocks.set st.block
                  ⟨blk.insts ++ codeFor c st.block blk.insts.length,
                    some (Term.condBr (Value.inst st.block (blk.insts.length + 3))
                      st.blocks.length (st.blocks.length + 1))⟩ ++
                  [⟨[], none⟩, ⟨[], none⟩],
                st.blocks.length,
                st.stack ++ [⟨st.blocks.length, st.blocks.length + 1⟩]⟩) ∨
       (c = 93 ∧ ∃ stk lp, st.stack = stk ++ [lp] ∧
          st1 = ⟨st.blocks.set st.block
                  ⟨blk.insts ++ codeFor c st.block blk.insts.length,
                    some (Term.condBr (Value.inst st.block (blk.insts.length + 3))
                      lp.body lp.end_)⟩,
                lp.end_, stk⟩)) := by
  obtain ⟨pre, blk, post, hget, hz⟩ := zipper_of_lt st hlt
  refine ⟨blk, hget, ?_⟩
  have hb : st.block = pre.length := by rw [hz]
  have hbl : st.blocks = pre ++ blk :: post := by rw [hz]
  rw [hz] at hs
  rw [hb, hbl]
  simp only [set_zipper]
  generalize st.stack = stk0 at hs ⊢
  by_cases hi : isInstr c = false
  · rw [step_noop _ c hi] at hs
    cases hs
    simp only [isInstr, Bool.or_eq_false_iff, decide_eq_false_iff_not] at hi
    obtain ⟨⟨⟨⟨⟨⟨⟨h1, h2⟩, h3⟩, h4⟩, h5⟩, h6⟩, h7⟩, h8⟩ := hi
    left
    refine ⟨h7, h8, ?_⟩
    simp [codeFor, h1, h2, h3, h4, h5, h6, h7, h8]
  · simp only [isInstr, Bool.or_eq_false_iff, decide_eq_false_iff_not] at hi
    have hc : c = 43 ∨ c = 45 ∨ c = 60 ∨ c = 62 ∨ c = 46 ∨ c = 44 ∨ c = 91 ∨ c = 93 := by
      by_contra hcon
      simp only [not_or] at hcon
      exact hi ⟨⟨⟨⟨⟨⟨⟨hcon.1, hcon.2.1⟩, hcon.2.2.1⟩, hcon.2.2.2.1⟩, hcon.2.2.2.2.1⟩,
        hcon.2.2.2.2.2.1⟩, hcon.2.2.2.2.2.2.1⟩, hcon.2.2.2.2.2.2.2⟩
    rcases hc with rfl | rfl | rfl | rfl | rfl | rfl | rfl | rfl
    · rw [step_plus] at hs; cases hs
      exact Or.inl ⟨by decide, by decide, rfl⟩
    · rw [step_minus] at hs; cases hs
      exact Or.inl ⟨by decide, by decide, rfl⟩
    · rw [step_left] at hs; cases hs
      exact Or.inl ⟨by decide, by decide, rfl⟩
    · rw [step_right] at hs; cases hs
      exact Or.inl ⟨by decide, by decide, rfl⟩
    · rw [step_dot] at hs; cases hs
      exact Or.inl ⟨by decide, by decide, rfl⟩
    · rw [step_comma] at hs; cases hs
      exact Or.inl ⟨by decide, by decide, rfl⟩
    · rw [step_lbracket] at hs; cases hs
      refine Or.inr (Or.inl ⟨rfl, ?_⟩)
      simp [codeFor, Nat.add_assoc]
    · by_cases he : stk0 = []
      · rw [step_close_empty _ he] at hs
        cases hs
      · obtain ⟨stk1, lp, hstk⟩ : ∃ stk1 lp, stk0 = stk1 ++ [lp] :=
          ⟨stk0.dropLast, stk0.getLast he, (List.dropLast_append_getLast he).symm⟩
        rw [hstk, step_rbracket] at hs; cases hs
        refine Or.inr (Or.inr ⟨rfl, stk1, lp, hstk, ?_⟩)
        simp [codeFor]

theorem lt_of_getElem? (l : List Block) (i : Nat) (x : Block) (h : l[i]? = some x) :
    i < l.length := by
  obtain ⟨h1, _⟩ := List.getElem?_eq_some.mp h
  exact h1

theorem condBranchesTo_set (blocks : List Block) (b t : Nat) (blk blk1 : Block)
    (hget : blocks[b]? = some blk) (hnone : blk.term = none) :
    condBranchesTo (blocks.set b blk1) t =
      condBranchesTo blocks t + if blk1.condBranchTo t = true then 1 else 0 := by
  have hlt := lt_of_getElem? blocks b blk hget
  have hb : blocks[b] = blk := by
    obtain ⟨_, h2⟩ := List.getElem?_eq_some.mp hget
    exact h2
  unfold condBranchesTo
  rw [List.countP_set _ _ _ _ hlt, hb]
  have : blk.condBranchTo t = false := by simp [Block.condBranchTo, hnone]
  simp [this]

theorem init_LoopInv : LoopInv init := by
  rw [init_eq]
  refine ⟨⟨_, rfl, rfl⟩, ?_, ?_, ?_, ?_, ?_⟩
  · intro lp hlp; simp at hlp
  · simp
  · intro b blk hget _
    left
    have := lt_of_getElem? _ b blk hget
    simp at this
    exact this
  · intro b blk hget
    have hlt := lt_of_getElem? _ b blk hget
    simp at hlt
    subst hlt
    simp at hget
    left; rw [← hget]
  · intro t
    have h1 : ¬ (1 ≤ t ∧ t < 1) := by omega
    show condBranchesTo [⟨preludeCode, none⟩] t + stackRefs [] t =
      if 1 ≤ t ∧ t < 1 then 2 else 0
    rw [if_neg h1]
    rfl

/-- A step that appends to the current block and leaves its terminator unset
keeps the invariant. -/
theorem LoopInv_plain (st : TState) (blk blk1 : Block) (h : LoopInv st)
    (hget : st.blocks[st.block]? = some blk) (hterm : blk1.term = none) :
    LoopInv ⟨st.blocks.set st.block blk1, st.block, st.stack⟩ := by
  have hlt := lt_of_getElem? _ _ _ hget
  obtain ⟨blk0, hget0, hnone⟩ := h.cur
  rw [hget] at hget0
  cases hget0
  refine ⟨⟨blk1, List.getElem?_set_self hlt, hterm⟩, ?_, h.nodup, ?_, ?_, ?_⟩
  · intro lp hlp
    obtain ⟨hne, blk2, hg2, hn2⟩ := h.pending lp hlp
    exact ⟨hne, blk2, by simpa [List.getElem?_set_ne (Ne.symm hne)] using hg2, hn2⟩
  · intro b blk2 hg2 hn2
    by_cases hb : b = st.block
    · exact Or.inl hb
    · have hg2' : st.blocks[b]? = some blk2 := by
        simpa [List.getElem?_set_ne (Ne.symm hb)] using hg2
      exact h.unterminated b blk2 hg2' hn2
  · intro b blk2 hg2
    by_cases hb : b = st.block
    · subst hb
      have hg2' : (st.blocks.set st.block blk1)[st.block]? = some blk1 :=
        List.getElem?_set_self hlt
      have hg3 : (st.blocks.set st.block blk1)[st.block]? = some blk2 := hg2
      rw [hg2'] at hg3
      cases hg3
      exact Or.inl hterm
    · have hg2' : st.blocks[b]? = some blk2 := by
        simpa [List.getElem?_set_ne (Ne.symm hb)] using hg2
      exact h.terms b blk2 hg2'
  · intro t
    have hc := h.count t
    have h1 : blk1.condBranchTo t = false := by simp [Block.condBranchTo, hterm]
    show condBranchesTo (st.blocks.set st.block blk1) t + stackRefs st.stack t =
      if 1 ≤ t ∧ t < (st.blocks.set st.block blk1).length then 2 else 0
    rw [condBranchesTo_set _ _ _ _ _ hget hnone, List.length_set, h1]
    simpa using hc

theorem getElem?_two (X : List Block) (e1 e2 blk : Block) (j : Nat)
    (h : (X ++ [e1, e2])[j]? = some blk) :
    (j < X.length ∧ X[j]? = some blk) ∨ (j = X.length ∧ blk = e1) ∨
      (j = X.length + 1 ∧ blk = e2) := by
  rw [List.getElem?_append] at h
  by_cases hj : j < X.length
  · rw [if_pos hj] at h
    exact Or.inl ⟨hj, h⟩
  · rw [if_neg hj] at h
    have hlt := lt_of_getElem? _ _ _ h
    simp at hlt
    have hcases : j - X.length = 0 ∨ j - X.length = 1 := by omega
    rcases hcases with h0 | h1
    · rw [h0] at h
      simp at h
      exact Or.inr (Or.inl ⟨by omega, h.symm⟩)
    · rw [h1] at h
      simp at h
      exact Or.inr (Or.inr ⟨by omega, h.symm⟩)

/-- The step for `[` keeps the invariant. -/
theorem LoopInv_open (st : TState) (blk blk1 : Block) (v : Value) (h : LoopInv st)
    (hget : st.blocks[st.block]? = some blk)
    (hterm : blk1.term = some (Term.condBr v st.blocks.length (st.blocks.length + 1))) :
    LoopInv ⟨st.blocks.set st.block blk1 ++ [Block.mk [] none, Block.mk [] none], st.blocks.length,
      st.stack ++ [Loop.mk st.blocks.length (st.blocks.length + 1)]⟩ := by
  have hlt := lt_of_getElem? _ _ _ hget
  obtain ⟨blk0, hget0, hnone⟩ := h.cur
  rw [hget] at hget0
  cases hget0
  have hlen : (st.blocks.set st.block blk1).length = st.blocks.length := List.length_set _ _ _
  have hL : (st.blocks.set st.block blk1 ++ [Block.mk [] none, Block.mk [] none])[st.blocks.length]? =
      some (Block.mk [] none) := by
    rw [List.getElem?_append_right (by rw [hlen]), hlen]
    simp
  have hL1 : (st.blocks.set st.block blk1 ++ [Block.mk [] none, Block.mk [] none])[st.blocks.length + 1]? =
      some (Block.mk [] none) := by
    rw [List.getElem?_append_right (by rw [hlen]; omega), hlen]
    simp
  have hold : ∀ j, j < st.blocks.length → j ≠ st.block →
      (st.blocks.set st.block blk1 ++ [Block.mk [] none, Block.mk [] none])[j]? = st.blocks[j]? := by
    intro j hj hne
    rw [List.getElem?_append_left (by rw [hlen]; exact hj), List.getElem?_set_ne (Ne.symm hne)]
  have hends : ∀ lp, lp ∈ st.stack → lp.end_ < st.blocks.length := by
    intro lp hlp
    obtain ⟨_, blk2, hg2, _⟩ := h.pending lp hlp
    exact lt_of_getElem? _ _ _ hg2
  refine ⟨⟨_, hL, rfl⟩, ?_, ?_, ?_, ?_, ?_⟩
  · intro lp hlp
    rcases List.mem_append.mp hlp with hm | hm
    · obtain ⟨hne, blk2, hg2, hn2⟩ := h.pending lp hm
      have hl := hends lp hm
      refine ⟨by show lp.end_ ≠ st.blocks.length; omega, blk2, ?_, hn2⟩
      show (st.blocks.set st.block blk1 ++ [Block.mk [] none, Block.mk [] none])[lp.end_]? = some blk2
      rw [hold _ hl hne]; exact hg2
    · simp at hm
      subst hm
      exact ⟨by show st.blocks.length + 1 ≠ st.blocks.length; omega, _, hL1, rfl⟩
  · show ((st.stack ++ [Loop.mk st.blocks.length (st.blocks.length + 1)]).map Loop.end_).Nodup
    rw [List.map_append, List.nodup_append]
    refine ⟨h.nodup, by simp, ?_⟩
    intro x hx1 hx2
    simp at hx2
    obtain ⟨lp, hlp, rfl⟩ := List.mem_map.mp hx1
    have := hends lp hlp
    omega
  · intro b blk2 hg2 hn2
    rcases getElem?_two _ _ _ _ _ hg2 with ⟨hj, hX⟩ | ⟨hj, _⟩ | ⟨hj, _⟩
    · rw [hlen] at hj
      by_cases hb : b = st.block
      · subst hb
        rw [List.getElem?_set_self hlt] at hX
        cases hX
        rw [hterm] at hn2
        cases hn2
      · rw [List.getElem?_set_ne (Ne.symm hb)] at hX
        rcases h.unterminated b blk2 hX hn2 with h1 | ⟨lp, hlp, he⟩
        · exact absurd h1 hb
        · exact Or.inr ⟨lp, List.mem_append_left _ hlp, he⟩
    · left; rw [hj, hlen]
    · right
      exact ⟨Loop.mk st.blocks.length (st.blocks.length + 1), by simp, by rw [hj, hlen]⟩
  · intro b blk2 hg2
    rcases getElem?_two _ _ _ _ _ hg2 with ⟨hj, hX⟩ | ⟨_, hb⟩ | ⟨_, hb⟩
    · by_cases hb : b = st.block
      · subst hb
        rw [List.getElem?_set_self hlt] at hX
        cases hX
        exact Or.inr ⟨_, _, _, hterm⟩
      · rw [List.getElem?_set_ne (Ne.symm hb)] at hX
        exact h.terms b blk2 hX
    · left; rw [hb]
    · left; rw [hb]
  · intro t
    have hc := h.count t
    show condBranchesTo (st.blocks.set st.block blk1 ++ [Block.mk [] none, Block.mk [] none]) t +
        stackRefs (st.stack ++ [Loop.mk st.blocks.length (st.blocks.length + 1)]) t =
      if 1 ≤ t ∧ t < (st.blocks.set st.block blk1 ++ [Block.mk [] none, Block.mk [] none]).length then 2
      else 0
    have h1 : condBranchesTo (st.blocks.set st.block blk1 ++ [Block.mk [] none, Block.mk [] none]) t =
        condBranchesTo (st.blocks.set st.block blk1) t := by
      simp [condBranchesTo, List.countP_append, Block.condBranchTo]
    have h2 : stackRefs (st.stack ++ [Loop.mk st.blocks.length (st.blocks.length + 1)]) t =
        stackRefs st.stack t +
          if (st.blocks.length == t || st.blocks.length + 1 == t) = true then 1 else 0 := by
      simp [stackRefs, List.countP_append, List.countP_cons]
    have h3 : blk1.condBranchTo t = (st.blocks.length == t || st.blocks.length + 1 == t) := by
      simp [Block.condBranchTo, hterm]
    rw [h1, condBranchesTo_set _ _ _ _ _ hget hnone, h2, h3, List.length_append, hlen]
    simp only [List.length_cons, List.length_nil]
    by_cases ht : t = st.blocks.length ∨ t = st.blocks.length + 1
    · have hb : (st.blocks.length == t || st.blocks.length + 1 == t) = true := by
        rcases ht with rfl | rfl <;> simp
      rw [hb]
      have hold2 : ¬ (1 ≤ t ∧ t < st.blocks.length) := by omega
      rw [if_neg hold2] at hc
      have hnew : 1 ≤ t ∧ t < st.blocks.length + (0 + 1 + 1) := by omega
      rw [if_pos hnew]
      simp only [if_true]
      omega
    · have hb : (st.blocks.length == t || st.blocks.length + 1 == t) = false := by
        simp only [Bool.or_eq_false_iff, beq_eq_false_iff_ne, ne_eq]
        omega
      rw [hb]
      simp only [Bool.false_eq_true, if_false, Nat.add_zero]
      rw [hc]
      by_cases hin : 1 ≤ t ∧ t < st.blocks.length
      · rw [if_pos hin, if_pos (by omega)]
      · rw [if_neg hin, if_neg (by omega)]

/-- The step for `]` keeps the invariant. -/
theorem LoopInv_close (st : TState) (blk blk1 : Block) (v : Value) (stk : List Loop)
    (lp : Loop) (h : LoopInv st) (hget : st.blocks[st.block]? = some blk)
    (hstk : st.stack = stk ++ [lp])
    (hterm : blk1.term = some (Term.condBr v lp.body lp.end_)) :
    LoopInv ⟨st.blocks.set st.block blk1, lp.end_, stk⟩ := by
  have hlt := lt_of_getElem? _ _ _ hget
  obtain ⟨blk0, hget0, hnone⟩ := h.cur
  rw [hget] at hget0
  cases hget0
  have hmem : lp ∈ st.stack := by rw [hstk]; simp
  have hsub : ∀ lp1, lp1 ∈ stk → lp1 ∈ st.stack := by
    intro lp1 h1; rw [hstk]; exact List.mem_append_left _ h1
  obtain ⟨hne, blkE, hgE, hnE⟩ := h.pending lp hmem
  have hnd := h.nodup
  rw [hstk, List.map_append, List.nodup_append] at hnd
  obtain ⟨hnd1, _, hdis⟩ := hnd
  have hdist : ∀ lp1, lp1 ∈ stk → lp1.end_ ≠ lp.end_ := by
    intro lp1 h1 heq
    exact hdis (List.mem_map.mpr ⟨lp1, h1, rfl⟩) (by simp [heq])
  refine ⟨⟨blkE, ?_, hnE⟩, ?_, hnd1, ?_, ?_, ?_⟩
  · show (st.blocks.set st.block blk1)[lp.end_]? = some blkE
    rw [List.getElem?_set_ne (Ne.symm hne)]; exact hgE
  · intro lp1 hlp1
    obtain ⟨hne1, blk2, hg2, hn2⟩ := h.pending lp1 (hsub lp1 hlp1)
    refine ⟨hdist lp1 hlp1, blk2, ?_, hn2⟩
    show (st.blocks.set st.block blk1)[lp1.end_]? = some blk2
    rw [List.getElem?_set_ne (Ne.symm hne1)]; exact hg2
  · intro b blk2 hg2 hn2
    have hg2' : (st.blocks.set st.block blk1)[b]? = some blk2 := hg2
    by_cases hb : b = st.block
    · subst hb
      rw [List.getElem?_set_self hlt] at hg2'
      cases hg2'
      rw [hterm] at hn2
      cases hn2
    · rw [List.getElem?_set_ne (Ne.symm hb)] at hg2'
      rcases h.unterminated b blk2 hg2' hn2 with h1 | ⟨lp1, hlp1, he⟩
      · exact absurd h1 hb
      · rw [hstk] at hlp1
        rcases List.mem_append.mp hlp1 with hm | hm
        · exact Or.inr ⟨lp1, hm, he⟩
        · simp at hm
          subst hm
          exact Or.inl he.symm
  · intro b blk2 hg2
    have hg2' : (st.blocks.set st.block blk1)[b]? = some blk2 := hg2
    by_cases hb : b = st.block
    · subst hb
      rw [List.getElem?_set_self hlt] at hg2'
      cases hg2'
      exact Or.inr ⟨_, _, _, hterm⟩
    · rw [List.getElem?_set_ne (Ne.symm hb)] at hg2'
      exact h.terms b blk2 hg2'
  · intro t
    have hc := h.count t
    show condBranchesTo (st.blocks.set st.block blk1) t + stackRefs stk t =
      if 1 ≤ t ∧ t < (st.blocks.set st.block blk1).length then 2 else 0
    have h2 : stackRefs st.stack t =
        stackRefs stk t + if (lp.body == t || lp.end_ == t) = true then 1 else 0 := by
      rw [hstk]
      simp [stackRefs, List.countP_append, List.countP_cons]
    have h3 : blk1.condBranchTo t = (lp.body == t || lp.end_ == t) := by
      simp [Block.condBranchTo, hterm]
    rw [condBranchesTo_set _ _ _ _ _ hget hnone, h3, List.length_set]
    rw [h2] at hc
    omega

/-- Every step keeps the invariant. -/
theorem step_LoopInv (st st1 : TState) (c : Nat) (h : LoopInv st) (hs : step st c = .ok st1) :
    LoopInv st1 := by
  obtain ⟨blk0, hget0, hnone⟩ := h.cur
  obtain ⟨blk, hget, hcase⟩ := step_cases st st1 c (lt_of_getElem? _ _ _ hget0) hs
  have hb : blk0 = blk := by
    rw [hget] at hget0
    cases hget0
    rfl
  rw [hb] at hnone
  rcases hcase with ⟨_, _, rfl⟩ | ⟨_, rfl⟩ | ⟨_, stk, lp, hstk, rfl⟩
  · exact LoopInv_plain st blk _ h hget hnone
  · exact LoopInv_open st blk _ _ h hget rfl
  · exact LoopInv_close st blk _ _ stk lp h hget hstk rfl

theorem scanFrom_LoopInv (prog : List Nat) : ∀ st st1 : TState, LoopInv st →
    scanFrom st prog = .ok st1 → LoopInv st1 := by
  induction prog with
  | nil => intro st st1 h hs; cases hs; exact h
  | cons c cs ih =>
    intro st st1 h hs
    simp only [scanFrom] at hs
    cases hst : step st c with
    | error e => rw [hst] at hs; cases hs
    | ok st2 =>
      rw [hst] at hs
      exact ih st2 st1 (step_LoopInv st st2 c h hst) hs

theorem scan_LoopInv (prog : List Nat) (st : TState) (h : scan prog = .ok st) : LoopInv st :=
  scanFrom_LoopInv prog init st init_LoopInv h

/-! ## From the scan to the Module -/

theorem mainBlocks_mkModule (blocks : List Block) : (mkModule blocks).mainBlocks = blocks := rfl

/-- A successful translation is a successful scan that ends with an empty
stack, followed by the `ret` set on the current block, which had no terminator. -/
theorem translate_ok (src : List Nat) (m : Module) (h : translate src = .ok m) :
    ∃ st cur, scan src = .ok st ∧ st.stack = [] ∧ st.blocks[st.block]? = some cur ∧
      cur.term = none ∧
      m.mainBlocks =
        st.blocks.set st.block ⟨cur.insts, some (Term.ret (Value.const Ty.i32 0))⟩ := by
  unfold translate at h
  cases hsc : scan src with
  | error e => rw [hsc] at h; cases h
  | ok st =>
    rw [hsc] at h
    have hinv := scan_LoopInv src st hsc
    obtain ⟨cur, hget, hnone⟩ := hinv.cur
    obtain ⟨pre, blk, post, hget2, hz⟩ := zipper_of_lt st (lt_of_getElem? _ _ _ hget)
    have hcb : blk = cur := by
      rw [hget] at hget2
      cases hget2
      rfl
    subst hcb
    have hfin : finish st = .ok m := h
    unfold finish at hfin
    by_cases hl : st.stack.length ≠ 0
    · rw [if_pos hl] at hfin; cases hfin
    · rw [if_neg hl] at hfin
      cases hfin
      refine ⟨st, blk, rfl, List.length_eq_zero.mp (by omega), hget, hnone, ?_⟩
      rw [mainBlocks_mkModule]
      have hb : st.block = pre.length := by rw [hz]
      have hbl : st.blocks = pre ++ blk :: post := by rw [hz]
      unfold TState.setTerm
      simp only [hb, hbl, modifyAt_append_cons, set_zipper]

theorem scan_append_ok (xs ys : List Nat) (st : TState) (h : scan (xs ++ ys) = .ok st) :
    ∃ st0, scan xs = .ok st0 ∧ scanFrom st0 ys = .ok st := by
  unfold scan at h ⊢
  rw [scanFrom_append] at h
  cases hx : scanFrom init xs with
  | error e => rw [hx] at h; cases h
  | ok st0 =>
    rw [hx] at h
    exact ⟨st0, rfl, h⟩

theorem scanFrom_append_ok (xs ys : List Nat) (st0 st : TState)
    (h : scanFrom st0 (xs ++ ys) = .ok st) :
    ∃ st1, scanFrom st0 xs = .ok st1 ∧ scanFrom st1 ys = .ok st := by
  rw [scanFrom_append] at h
  cases hx : scanFrom st0 xs with
  | error e => rw [hx] at h; cases h
  | ok st1 =>
    rw [hx] at h
    exact ⟨st1, rfl, h⟩

theorem scanFrom_cons_ok (c : Nat) (cs : List Nat) (st0 st : TState)
    (h : scanFrom st0 (c :: cs) = .ok st) :
    ∃ st1, step st0 c = .ok st1 ∧ scanFrom st1 cs = .ok st := by
  simp only [scanFrom] at h
  cases hx : step st0 c with
  | error e => rw [hx] at h; cases h
  | ok st1 =>
    rw [hx] at h
    exact ⟨st1, rfl, h⟩

/-- A block that has its terminator is left as it is by every later step. -/
theorem step_frozen (st st1 : TState) (c : Nat) (h : LoopInv st) (hs : step st c = .ok st1)
    (b : Nat) (blk : Block) (hget : st.blocks[b]? = some blk) (ht : blk.term ≠ none) :
    st1.blocks[b]? = some blk := by
  obtain ⟨cur, hcur, hnone⟩ := h.cur
  have hne : st.block ≠ b := by
    intro he
    rw [he, hget] at hcur
    cases hcur
    exact ht hnone
  have hlt := lt_of_getElem? _ _ _ hget
  obtain ⟨blk0, _, hcase⟩ := step_cases st st1 c (lt_of_getElem? _ _ _ hcur) hs
  rcases hcase with ⟨_, _, rfl⟩ | ⟨_, rfl⟩ | ⟨_, stk, lp, _, rfl⟩
  · show (st.blocks.set st.block _)[b]? = some blk
    rw [List.getElem?_set_ne hne]; exact hget
  · show (st.blocks.set st.block _ ++ _)[b]? = some blk
    rw [List.getElem?_append_left (by rw [List.length_set]; exact hlt),
      List.getElem?_set_ne hne]
    exact hget
  · show (st.blocks.set st.block _)[b]? = some blk
    rw [List.getElem?_set_ne hne]; exact hget

theorem scanFrom_frozen (prog : List Nat) : ∀ (st st1 : TState), LoopInv st →
    scanFrom st prog = .ok st1 → ∀ (b : Nat) (blk : Block), st.blocks[b]? = some blk →
    blk.term ≠ none → st1.blocks[b]? = some blk := by
  induction prog with
  | nil => intro st st1 _ hs b blk hget _; cases hs; exact hget
  | cons c cs ih =>
    intro st st1 h hs b blk hget ht
    obtain ⟨st2, hst, hrest⟩ := scanFrom_cons_ok c cs st st1 hs
    exact ih st2 st1 (step_LoopInv st st2 c h hst) hrest b blk
      (step_frozen st st2 c h hst b blk hget ht) ht

/-- A block that has its terminator during the scan is a block of the Module,
unchanged. -/
theorem translate_frozen (xs ys : List Nat) (m : Module) (st0 : TState)
    (htr : translate (xs ++ ys) = .ok m) (h0 : scan xs = .ok st0)
    (b : Nat) (blk : Block) (hget : st0.blocks[b]? = some blk) (ht : blk.term ≠ none) :
    m.mainBlocks[b]? = some blk := by
  obtain ⟨st, cur, hsc, _, hcur, hnone, hm⟩ := translate_ok _ m htr
  obtain ⟨st0', h0', hrest⟩ := scan_append_ok xs ys st hsc
  rw [h0] at h0'
  cases h0'
  have hb := scanFrom_frozen ys st0 st (scan_LoopInv xs st0 h0) hrest b blk hget ht
  have hne : st.block ≠ b := by
    intro he
    rw [he, hb] at hcur
    cases hcur
    exact ht hnone
  rw [hm, List.getElem?_set_ne hne]
  exact hb

theorem prefixOk_of_scan (src : List Nat) (st : TState) (h : scan src = .ok st) :
    PrefixOk src := by
  by_contra hn
  rw [scan_err_of_not_prefixOk src hn] at h
  cases h

theorem codeFor_ne_nil (c b n : Nat)
    (hc : c = 43 ∨ c = 45 ∨ c = 60 ∨ c = 62 ∨ c = 46 ∨ c = 44) : codeFor c b n ≠ [] := by
  rcases hc with rfl | rfl | rfl | rfl | rfl | rfl <;>
    simp [codeFor, codeAdd, codeMove, codeOut, codeIn, codeCellPtr]

/-- The blocks of a Module: the current block of the end of the scan ends with
`ret i32 0`, every other block with a conditional branch. -/
theorem final_blocks (src : List Nat) (m : Module) (htr : translate src = .ok m) :
    ∃ st cur, scan src = .ok st ∧ st.stack = [] ∧ st.blocks[st.block]? = some cur ∧
      cur.term = none ∧
      m.mainBlocks =
        st.blocks.set st.block ⟨cur.insts, some (Term.ret (Value.const Ty.i32 0))⟩ ∧
      m.mainBlocks[st.block]? =
        some ⟨cur.insts, some (Term.ret (Value.const Ty.i32 0))⟩ ∧
      ∀ (b : Nat) (blk : Block), m.mainBlocks[b]? = some blk → b ≠ st.block →
        st.blocks[b]? = some blk ∧ ∃ c t f, blk.term = some (Term.condBr c t f) := by
  obtain ⟨st, cur, hsc, hstack, hcur, hnone, hm⟩ := translate_ok src m htr
  have hinv := scan_LoopInv src st hsc
  have hlt := lt_of_getElem? _ _ _ hcur
  refine ⟨st, cur, hsc, hstack, hcur, hnone, hm, ?_, ?_⟩
  · rw [hm, List.getElem?_set_self hlt]
  · intro b blk hget hb
    rw [hm, List.getElem?_set_ne (Ne.symm hb)] at hget
    refine ⟨hget, ?_⟩
    rcases hinv.terms b blk hget with hn | hc
    · rcases hinv.unterminated b blk hget hn with h1 | ⟨lp, hlp, _⟩
      · exact absurd h1 hb
      · rw [hstack] at hlp
        simp at hlp
    · exact hc

theorem step_length (st st1 : TState) (c : Nat) (h : LoopInv st) (hs : step st c = .ok st1) :
    st1.blocks.length = st.blocks.length + if c = 91 then 2 else 0 := by
  obtain ⟨cur, hcur, _⟩ := h.cur
  obtain ⟨blk, _, hcase⟩ := step_cases st st1 c (lt_of_getElem? _ _ _ hcur) hs
  rcases hcase with ⟨h91, _, rfl⟩ | ⟨h91, rfl⟩ | ⟨h93, stk, lp, _, rfl⟩
  · rw [if_neg h91]
    show (st.blocks.set st.block _).length = _
    rw [List.length_set]; rfl
  · rw [if_pos h91]
    show (st.blocks.set st.block _ ++ _).length = _
    rw [List.length_append, List.length_set]; rfl
  · subst h93
    show (st.blocks.set st.block _).length = _
    rw [List.length_set]; rfl

theorem scanFrom_length (prog : List Nat) : ∀ (st st1 : TState), LoopInv st →
    scanFrom st prog = .ok st1 → st1.blocks.length = st.blocks.length + 2 * opens prog := by
  induction prog with
  | nil => intro st st1 _ hs; cases hs; simp [opens]
  | cons c cs ih =>
    intro st st1 h hs
    obtain ⟨st2, hst, hrest⟩ := scanFrom_cons_ok c cs st st1 hs
    rw [ih st2 st1 (step_LoopInv st st2 c h hst) hrest, step_length st st2 c h hst, opens_cons]
    by_cases h91 : c = 91
    · simp [h91]; omega
    · simp [h91]

theorem scan_length (src : List Nat) (st : TState) (h : scan src = .ok st) :
    st.blocks.length = 1 + 2 * opens src := by
  have := scanFrom_length src init st init_LoopInv h
  rw [this, init_eq]
  simp

/-- The step for `[`: the two new blocks, the frame and the branch. -/
theorem step_open_frame (st st1 : TState) (h : LoopInv st) (hs : step st 91 = .ok st1) :
    st1.stack = st.stack ++ [⟨st.blocks.length, st.blocks.length + 1⟩] ∧
    st1.block = st.blocks.length ∧ st1.blocks.length = st.blocks.length + 2 ∧
    st1.blocks[st.blocks.length]? = some ⟨[], none⟩ ∧
    st1.blocks[st.blocks.length + 1]? = some ⟨[], none⟩ ∧
    ∃ blkI c, st1.blocks[st.block]? = some blkI ∧
      blkI.term = some (Term.condBr c st.blocks.length (st.blocks.length + 1)) := by
  obtain ⟨cur, hcur, _⟩ := h.cur
  have hlt := lt_of_getElem? _ _ _ hcur
  obtain ⟨blk, _, hcase⟩ := step_cases st st1 91 hlt hs
  rcases hcase with ⟨h91, _, _⟩ | ⟨_, rfl⟩ | ⟨h93, _⟩
  · exact absurd rfl h91
  · have hlen : (st.blocks.set st.block
        ⟨blk.insts ++ codeFor 91 st.block blk.insts.length,
          some (Term.condBr (Value.inst st.block (blk.insts.length + 3))
            st.blocks.length (st.blocks.length + 1))⟩).length = st.blocks.length :=
      List.length_set _ _ _
    refine ⟨rfl, rfl, ?_, ?_, ?_,
      ⟨blk.insts ++ codeFor 91 st.block blk.insts.length,
        some (Term.condBr (Value.inst st.block (blk.insts.length + 3))
          st.blocks.length (st.blocks.length + 1))⟩, _, ?_, rfl⟩
    · show (st.blocks.set st.block _ ++ _).length = _
      rw [List.length_append, hlen]; rfl
    · show (st.blocks.set st.block _ ++ _)[st.blocks.length]? = _
      rw [List.getElem?_append_right (by rw [hlen]), hlen]
      simp
    · show (st.blocks.set st.block _ ++ _)[st.blocks.length + 1]? = _
      rw [List.getElem?_append_right (by rw [hlen]; omega), hlen]
      simp
    · show (st.blocks.set st.block _ ++ _)[st.block]? = _
      rw [List.getElem?_append_left (by rw [hlen]; exact hlt), List.getElem?_set_self hlt]
  · cases h93

/-- The step for `]`: the popped frame and the branch. -/
theorem step_close_frame (st st1 : TState) (stk : List Loop) (lp : Loop) (h : LoopInv st)
    (hstk : st.stack = stk ++ [lp]) (hs : step st 93 = .ok st1) :
    st1.stack = stk ∧ st1.block = lp.end_ ∧ st1.blocks.length = st.blocks.length ∧
    ∃ blkJ c, st1.blocks[st.block]? = some blkJ ∧
      blkJ.term = some (Term.condBr c lp.body lp.end_) := by
  obtain ⟨cur, hcur, _⟩ := h.cur
  have hlt := lt_of_getElem? _ _ _ hcur
  obtain ⟨blk, _, hcase⟩ := step_cases st st1 93 hlt hs
  rcases hcase with ⟨_, h93, _⟩ | ⟨h91, _⟩ | ⟨_, stk1, lp1, hstk1, rfl⟩
  · exact absurd rfl h93
  · cases h91
  · rw [hstk] at hstk1
    obtain ⟨hs1, hl1⟩ := List.append_inj' hstk1 rfl
    cases hl1
    subst hs1
    refine ⟨rfl, rfl, ?_,
      ⟨blk.insts ++ codeFor 93 st.block blk.insts.length,
        some (Term.condBr (Value.inst st.block (blk.insts.length + 3)) lp.body lp.end_)⟩,
      _, ?_, rfl⟩
    · show (st.blocks.set st.block _).length = _
      rw [List.length_set]
    · show (st.blocks.set st.block _)[st.block]? = _
      rw [List.getElem?_set_self hlt]

/-- The stack during the scan of a stretch of source that never closes a loop
it did not open: the frames below stay, and what is above them follows the
brackets. -/
theorem scanFrom_stack (xs : List Nat) : ∀ (st st1 : TState) (base ext : List Loop),
    st.stack = base ++ ext →
    (∀ k, k ≤ xs.length → closes (xs.take k) ≤ ext.length + opens (xs.take k)) →
    scanFrom st xs = .ok st1 →
    ∃ ext1, st1.stack = base ++ ext1 ∧ ext1.length + closes xs = ext.length + opens xs := by
  induction xs with
  | nil =>
    intro st st1 base ext hst _ hs
    cases hs
    exact ⟨ext, hst, by simp [opens, closes]⟩
  | cons c cs ih =>
    intro st st1 base ext hst hpre hs
    obtain ⟨st2, hstep, hrest⟩ := scanFrom_cons_ok c cs st st1 hs
    have hk : ∀ k, k ≤ cs.length →
        closes (c :: cs.take k) ≤ ext.length + opens (c :: cs.take k) := by
      intro k hk
      have := hpre (k + 1) (by simpa using hk)
      simpa using this
    by_cases h91 : c = 91
    · subst h91
      obtain ⟨st3, h3, lp, hlp⟩ := step_open st
      rw [hstep] at h3
      cases h3
      obtain ⟨ext1, h1, h2⟩ := ih st2 st1 base (ext ++ [lp])
        (by rw [hlp, hst, List.append_assoc])
        (by
          intro k hk'
          have := hk k hk'
          rw [opens_cons, closes_cons] at this
          simp at this ⊢
          omega) hrest
      refine ⟨ext1, h1, ?_⟩
      rw [opens_cons, closes_cons]
      simp at h2 ⊢
      omega
    · by_cases h93 : c = 93
      · subst h93
        have hext : ext ≠ [] := by
          intro he
          have := hk 0 (Nat.zero_le _)
          rw [opens_cons, closes_cons] at this
          simp [he, opens, closes] at this
        have hne : st.stack ≠ [] := by
          rw [hst]
          intro he
          exact hext (List.append_eq_nil.mp he).2
        obtain ⟨st3, h3, hdl⟩ := step_close_cons st hne
        rw [hstep] at h3
        cases h3
        have hpos : 0 < ext.length := List.length_pos.mpr hext
        obtain ⟨ext1, h1, h2⟩ := ih st2 st1 base ext.dropLast
          (by rw [hdl, hst, List.dropLast_append_of_ne_nil _ hext])
          (by
            intro k hk'
            have := hk k hk'
            rw [opens_cons, closes_cons] at this
            simp at this ⊢
            omega) hrest
        refine ⟨ext1, h1, ?_⟩
        rw [opens_cons, closes_cons]
        simp at h2 ⊢
        omega
      · obtain ⟨st3, h3, hstack, _⟩ := step_other st c h91 h93
        rw [hstep] at h3
        cases h3
        obtain ⟨ext1, h1, h2⟩ := ih st2 st1 base ext (by rw [hstack, hst])
          (by
            intro k hk'
            have := hk k hk'
            rw [opens_cons, closes_cons] at this
            simpa [h91, h93] using this) hrest
        refine ⟨ext1, h1, ?_⟩
        rw [opens_cons, closes_cons]
        simpa [h91, h93] using h2

/-- A stretch of source with correctly nested brackets leaves the stack as it
found it. -/
theorem scanFrom_balanced (xs : List Nat) (st st1 : TState) (hp : PrefixOk xs)
    (hb : opens xs = closes xs) (hs : scanFrom st xs = .ok st1) : st1.stack = st.stack := by
  obtain ⟨ext1, h1, h2⟩ := scanFrom_stack xs st st1 st.stack [] (by simp)
    (by intro k hk; simpa using hp k hk) hs
  have : ext1 = [] := List.length_eq_zero.mp (by simp at h2; omega)
  rw [h1, this, List.append_nil]

theorem scanFrom_block_plain (xs : List Nat) : ∀ (st st1 : TState),
    (∀ c, c ∈ xs → c ≠ 91 ∧ c ≠ 93) → scanFrom st xs = .ok st1 → st1.block = st.block := by
  induction xs with
  | nil => intro st st1 _ hs; cases hs; rfl
  | cons c cs ih =>
    intro st st1 hx hs
    obtain ⟨st2, hstep, hrest⟩ := scanFrom_cons_ok c cs st st1 hs
    obtain ⟨st3, h3, _, hblock⟩ := step_other st c (hx c (by simp)).1 (hx c (by simp)).2
    rw [hstep] at h3
    cases h3
    rw [ih st2 st1 (fun c1 h1 => hx c1 (List.mem_cons_of_mem _ h1)) hrest, hblock]

theorem scanFrom_single_ok (c : Nat) (st0 st : TState) (h : scanFrom st0 [c] = .ok st) :
    step st0 c = .ok st := by
  obtain ⟨st1, h1, h2⟩ := scanFrom_cons_ok c [] st0 st h
  cases h2
  exact h1

/-- The scan of a source `p ++ [91] ++ body ++ [93] ++ q` that is translated,
cut at the two brackets. -/
theorem scan_loop_parts (p body q : List Nat) (m : Module)
    (htr : translate (p ++ [91] ++ body ++ [93] ++ q) = .ok m) :
    ∃ st0 st1 st2 st3 st, scan p = .ok st0 ∧ step st0 91 = .ok st1 ∧
      scan (p ++ [91]) = .ok st1 ∧ scanFrom st1 body = .ok st2 ∧
      scan (p ++ [91] ++ body) = .ok st2 ∧ step st2 93 = .ok st3 ∧
      scan (p ++ [91] ++ body ++ [93]) = .ok st3 ∧ scanFrom st3 q = .ok st ∧
      scan (p ++ [91] ++ body ++ [93] ++ q) = .ok st := by
  obtain ⟨st, _, hsc, _⟩ := translate_ok _ m htr
  obtain ⟨st3, h3, hq⟩ := scan_append_ok _ q st hsc
  obtain ⟨st2, h2, hc⟩ := scan_append_ok _ [93] st3 h3
  obtain ⟨st1, h1, hb⟩ := scan_append_ok _ body st2 h2
  obtain ⟨st0, h0, ho⟩ := scan_append_ok p [91] st1 h1
  exact ⟨st0, st1, st2, st3, st, h0, scanFrom_single_ok 91 st0 st1 ho, h1, hb, h2,
    scanFrom_single_ok 93 st2 st3 hc, h3, hq, hsc⟩

theorem codeFor_no_alloca (c b n : Nat) (ins : Inst) (h : ins ∈ codeFor c b n) (t : Ty) :
    ins ≠ Inst.alloca t := by
  intro he
  subst he
  unfold codeFor at h
  split_ifs at h <;>
    simp [codeAdd, codeMove, codeOut, codeIn, codeTest, codeCellPtr] at h

/-- Appending code without `alloca` to a block, setting its terminator and
adding empty blocks keep the prelude and add no allocation. -/
theorem PreludeInv_update (blocks extra : List Block) (b0 : Nat) (blk : Block)
    (code : List Inst) (tm : Option Term) (h : PreludeInv blocks)
    (hget : blocks[b0]? = some blk)
    (hcode : ∀ ins, ins ∈ code → ∀ t, ins ≠ Inst.alloca t)
    (hextra : ∀ e, e ∈ extra → e.insts = []) :
    PreludeInv (blocks.set b0 ⟨blk.insts ++ code, tm⟩ ++ extra) := by
  have hlt := lt_of_getElem? _ _ _ hget
  have hlen : (blocks.set b0 ⟨blk.insts ++ code, tm⟩).length = blocks.length :=
    List.length_set _ _ _
  obtain ⟨⟨entry, rest, hentry, hpre⟩, hall⟩ := h
  have hlook : ∀ (b : Nat) (blk1 : Block),
      (blocks.set b0 ⟨blk.insts ++ code, tm⟩ ++ extra)[b]? = some blk1 →
      (b = b0 ∧ blk1 = ⟨blk.insts ++ code, tm⟩) ∨ (b ≠ b0 ∧ blocks[b]? = some blk1) ∨
        blk1.insts = [] := by
    intro b blk1 hb
    rw [List.getElem?_append] at hb
    by_cases hbl : b < (blocks.set b0 ⟨blk.insts ++ code, tm⟩).length
    · rw [if_pos hbl] at hb
      by_cases hb0 : b = b0
      · subst hb0
        rw [List.getElem?_set_self hlt] at hb
        cases hb
        exact Or.inl ⟨rfl, rfl⟩
      · rw [List.getElem?_set_ne (Ne.symm hb0)] at hb
        exact Or.inr (Or.inl ⟨hb0, hb⟩)
    · rw [if_neg hbl] at hb
      exact Or.inr (Or.inr (hextra blk1 (List.mem_iff_getElem?.mpr ⟨_, hb⟩)))
  constructor
  · have h0 : 0 < blocks.length := lt_of_getElem? _ _ _ hentry
    by_cases hb0 : b0 = 0
    · subst hb0
      have he : entry = blk := by
        rw [hget] at hentry
        cases hentry
        rfl
      subst he
      refine ⟨⟨entry.insts ++ code, tm⟩, rest ++ code, ?_, ?_⟩
      · rw [List.getElem?_append_left (by rw [hlen]; exact h0), List.getElem?_set_self hlt]
      · show entry.insts ++ code = preludeCode ++ (rest ++ code)
        rw [hpre, List.append_assoc]
    · refine ⟨entry, rest, ?_, hpre⟩
      rw [List.getElem?_append_left (by rw [hlen]; exact h0), List.getElem?_set_ne hb0]
      exact hentry
  · intro b blk1 i t hb hi
    rcases hlook b blk1 hb with ⟨hb0, hblk⟩ | ⟨_, hold⟩ | hempty
    · subst hb0
      subst hblk
      have hi' : (blk.insts ++ code)[i]? = some (Inst.alloca t) := hi
      rw [List.getElem?_append] at hi'
      by_cases hil : i < blk.insts.length
      · rw [if_pos hil] at hi'
        exact hall b blk i t hget hi'
      · rw [if_neg hil] at hi'
        exact absurd rfl (hcode _ (List.mem_iff_getElem?.mpr ⟨_, hi'⟩) t)
    · exact hall b blk1 i t hold hi
    · rw [hempty] at hi
      simp at hi

theorem init_PreludeInv : PreludeInv init.blocks := by
  rw [init_eq]
  refine ⟨⟨_, [], rfl, by simp⟩, ?_⟩
  intro b blk i t hb hi
  have hb0 : b = 0 := by
    have := lt_of_getElem? _ _ _ hb
    simp at this
    exact this
  subst hb0
  simp at hb
  subst hb
  refine ⟨rfl, ?_⟩
  obtain ⟨h1, _⟩ := List.getElem?_eq_some.mp hi
  exact h1

theorem step_PreludeInv (st st1 : TState) (c : Nat) (h : PreludeInv st.blocks)
    (hlt : st.block < st.blocks.length) (hs : step st c = .ok st1) :
    PreludeInv st1.blocks := by
  obtain ⟨blk, hget, hcase⟩ := step_cases st st1 c hlt hs
  have hcode := fun ins hi t => codeFor_no_alloca c st.block blk.insts.length ins hi t
  rcases hcase with ⟨_, _, rfl⟩ | ⟨_, rfl⟩ | ⟨_, stk, lp, _, rfl⟩
  · have := PreludeInv_update st.blocks [] st.block blk _ blk.term h hget hcode (by simp)
    simpa using this
  · exact PreludeInv_update st.blocks _ st.block blk _ _ h hget hcode (by simp)
  · have := PreludeInv_update st.blocks [] st.block blk _
      (some (Term.condBr (Value.inst st.block (blk.insts.length + 3)) lp.body lp.end_))
      h hget hcode (by simp)
    simpa using this

theorem scanFrom_PreludeInv (prog : List Nat) : ∀ (st st1 : TState), LoopInv st →
    PreludeInv st.blocks → scanFrom st prog = .ok st1 → PreludeInv st1.blocks := by
  induction prog with
  | nil => intro st st1 _ h hs; cases hs; exact h
  | cons c cs ih =>
    intro st st1 hinv h hs
    obtain ⟨st2, hst, hrest⟩ := scanFrom_cons_ok c cs st st1 hs
    obtain ⟨cur, hcur, _⟩ := hinv.cur
    exact ih st2 st1 (step_LoopInv st st2 c hinv hst)
      (step_PreludeInv st st2 c h (lt_of_getElem? _ _ _ hcur) hst) hrest

theorem scan_PreludeInv (src : List Nat) (st : TState) (h : scan src = .ok st) :
    PreludeInv st.blocks :=
  scanFrom_PreludeInv src init st init_LoopInv init_PreludeInv h

/-- What `PreludeInv` says with the prelude written out. -/
theorem PreludeInv_explicit (blocks : List Block) (h : PreludeInv blocks) :
    (∃ entry rest, blocks[0]? = some entry ∧ entry.insts =
      [Inst.alloca (Ty.array 65535 Ty.i8),
       Inst.getElementPtr (Ty.array 65535 Ty.i8) (Value.inst 0 0)
         [Value.const Ty.i64 0, Value.const Ty.i64 0],
       Inst.call FuncRef.memset
         [Value.inst 0 1, Value.const Ty.i8 0, Value.const Ty.i64 65535],
       Inst.alloca Ty.i64,
       Inst.store (Value.const Ty.i64 0) (Value.inst 0 3)] ++ rest) ∧
    ∀ (b : Nat) (blk : Block) (i : Nat) (t : Ty), blocks[b]? = some blk →
      blk.insts[i]? = some (Inst.alloca t) → b = 0 ∧ (i = 0 ∨ i = 3) := by
  obtain ⟨⟨entry, rest, hentry, hpre⟩, hall⟩ := h
  refine ⟨⟨entry, rest, hentry, hpre⟩, ?_⟩
  intro b blk i t hb hi
  obtain ⟨hb0, hi5⟩ := hall b blk i t hb hi
  refine ⟨hb0, ?_⟩
  subst hb0
  rw [hb] at hentry
  cases hentry
  rw [hpre, List.getElem?_append_left (by simpa [preludeCode] using hi5)] at hi
  have hcases : i = 0 ∨ i = 1 ∨ i = 2 ∨ i = 3 ∨ i = 4 := by omega
  rcases hcases with rfl | rfl | rfl | rfl | rfl
  · exact Or.inl rfl
  · simp [preludeCode] at hi
  · simp [preludeCode] at hi
  · exact Or.inr rfl
  · simp [preludeCode] at hi

theorem instCount_eq (blocks : List Block) (b : Nat) (blk : Block)
    (h : blocks[b]? = some blk) : instCount blocks b = blk.insts.length := by
  unfold instCount
  rw [List.get?_eq_getElem?, h]

/-- In a state of the scan the code emitted for a byte other than `]` is
`codeFor`. -/
theorem emittedCode_eq (st : TState) (c : Nat) (blk : Block) (hc : c ≠ 93)
    (hget : st.blocks[st.block]? = some blk) :
    emittedCode st c = codeFor c st.block blk.insts.length := by
  have hlt := lt_of_getElem? _ _ _ hget
  have hok : ∃ st1, step st c = .ok st1 := by
    by_cases h91 : c = 91
    · subst h91
      obtain ⟨st1, h1, _⟩ := step_open st
      exact ⟨st1, h1⟩
    · obtain ⟨st1, h1, _⟩ := step_other st c h91 hc
      exact ⟨st1, h1⟩
  obtain ⟨st1, hs⟩ := hok
  obtain ⟨blk0, hget0, hcase⟩ := step_cases st st1 c hlt hs
  have hb : blk0 = blk := by
    rw [hget] at hget0
    cases hget0
    rfl
  subst hb
  unfold emittedCode
  rw [hs, instCount_eq _ _ _ hget]
  rcases hcase with ⟨_, _, rfl⟩ | ⟨_, rfl⟩ | ⟨h93, _⟩
  · have h1 : (st.blocks.set st.block
        ⟨blk0.insts ++ codeFor c st.block blk0.insts.length, blk0.term⟩)[st.block]? =
        some ⟨blk0.insts ++ codeFor c st.block blk0.insts.length, blk0.term⟩ :=
      List.getElem?_set_self hlt
    simp only [h1]
    exact List.drop_left _ _
  · have h1 : (st.blocks.set st.block
        ⟨blk0.insts ++ codeFor c st.block blk0.insts.length,
          some (Term.condBr (Value.inst st.block (blk0.insts.length + 3))
            st.blocks.length (st.blocks.length + 1))⟩ ++
        [⟨[], none⟩, ⟨[], none⟩])[st.block]? =
        some ⟨blk0.insts ++ codeFor c st.block blk0.insts.length,
          some (Term.condBr (Value.inst st.block (blk0.insts.length + 3))
            st.blocks.length (st.blocks.length + 1))⟩ := by
      rw [List.getElem?_append_left (by rw [List.length_set]; exact hlt),
        List.getElem?_set_self hlt]
    simp only [h1]
    exact List.drop_left _ _
  · exact absurd h93 hc

/-- The code appended for `>` or `<` in a state of the scan, run in a machine
state in which the pointer register holds `p`. -/
theorem move_exec (d : Int) (c : Nat)
    (hstep : ∀ (pre post : List Block) (blk : Block) (stk : List Loop),
      step ⟨pre ++ blk :: post, pre.length, stk⟩ c =
        .ok ⟨pre ++ { blk with insts := blk.insts ++ codeMove d pre.length blk.insts.length } ::
          post, pre.length, stk⟩)
    (st : TState) (hwf : st.WF) (s : XState) (cells : Nat → Option Nat) (p : Nat)
    (hs : Ready s cells p) :
    EmittedCodeRuns st c s (fun s1 => Ready s1 cells ((p + wrap 64 d) % 2 ^ 64)) := by
  obtain ⟨pre, blk, post, hget, hz⟩ := zipper_of_lt st hwf.1
  have hblock : st.block = pre.length := by rw [hz]
  rw [hz] at hwf
  obtain ⟨s1, he, hr, _⟩ := exec_codeMove d pre.length blk.insts.length s cells p hs
    (WF_entry pre post blk _ hwf)
  refine ⟨blk, ⟨pre ++ { blk with insts := blk.insts ++ codeMove d pre.length blk.insts.length } ::
      post, pre.length, st.stack⟩,
    { blk with insts := blk.insts ++ codeMove d pre.length blk.insts.length },
    codeMove d pre.length blk.insts.length, s1, hget, ?_, ?_, rfl, ?_, hr⟩
  · rw [hz]; exact hstep pre post blk _
  · rw [hblock]; exact getElem?_zipper _ _ _
  · rw [hblock]; exact he

/-! ## The claims about the states of the scan -/

/-- C14: in every state the scan reaches, the depth of the Loop Stack is the
number of `[` minus the number of `]` among the bytes scanned; a step for `[`
raises the depth by one, a step for `]` lowers it by one, and a step for any
other byte leaves it as it is. -/
theorem stack_depth_is_nesting (src : List Nat) (st : TState) (hscan : scan src = .ok st) :
    st.stack.length + closes src = opens src ∧
    (st.stack.length : Int) = (opens src : Int) - (closes src : Int) ∧
    ∀ (c : Nat) (st1 : TState), step st c = .ok st1 →
      (c = 91 → st1.stack.length = st.stack.length + 1) ∧
      (c = 93 → st1.stack.length + 1 = st.stack.length) ∧
      (c ≠ 91 → c ≠ 93 → st1.stack.length = st.stack.length) := by
  obtain ⟨st2, h2, hd⟩ := scan_ok_of_prefixOk src (prefixOk_of_scan src st hscan)
  rw [hscan] at h2
  cases h2
  refine ⟨hd, by omega, ?_⟩
  intro c st1 hs
  refine ⟨?_, ?_, ?_⟩
  · rintro rfl
    obtain ⟨st2, h2, lp, hlp⟩ := step_open st
    rw [hs] at h2
    cases h2
    simp [hlp]
  · rintro rfl
    by_cases he : st.stack = []
    · rw [step_close_empty st he] at hs
      cases hs
    · obtain ⟨st2, h2, hdl⟩ := step_close_cons st he
      rw [hs] at h2
      cases h2
      have hpos : 0 < st.stack.length := List.length_pos.mpr he
      rw [hdl, List.length_dropLast]
      omega
  · intro h91 h93
    obtain ⟨st2, h2, hstack, _⟩ := step_other st c h91 h93
    rw [hs] at h2
    cases h2
    rw [hstack]

theorem stack_depth_is_nesting_witness :
    ∃ st, scan (bytes "[[+]") = .ok st ∧
      st.stack.length + closes (bytes "[[+]") = opens (bytes "[[+]") := by
  obtain ⟨st, hst⟩ : ∃ st, scan (bytes "[[+]") = .ok st := ⟨_, rfl⟩
  exact ⟨st, hst, (stack_depth_is_nesting (bytes "[[+]") st hst).1⟩

/-- C16: in every state the scan reaches, the step for `]` appends to the
current block a load of the pointer register, the address of the cell at that
loaded pointer, a load of that cell and its comparison not-equal to 0, and
sets the conditional branch of that block on this comparison, with the blocks
of the popped frame as targets. Every instruction that the new code refers to,
the two allocations of the prelude apart, is one of these four new
instructions: it sits in the current block at a position that did not exist
before the step, so nothing emitted for the matching `[` is used again. -/
theorem close_test_is_fresh (src : List Nat) (st st1 : TState) (hscan : scan src = .ok st)
    (hstep : step st 93 = .ok st1) :
    ∃ (blk : Block) (stk : List Loop) (lp : Loop),
      st.blocks[st.block]? = some blk ∧ st.stack = stk ++ [lp] ∧
      st1.blocks[st.block]? = some
        ⟨blk.insts ++
          [Inst.load Ty.i64 pc,
           Inst.getElementPtr arrayType cellMem
             [Value.const Ty.i64 0, Value.inst st.block blk.insts.length],
           Inst.load Ty.i8 (Value.inst st.block (blk.insts.length + 1)),
           Inst.icmp IPred.ne (Value.inst st.block (blk.insts.length + 2))
             (Value.const Ty.i8 0)],
         some (Term.condBr (Value.inst st.block (blk.insts.length + 3)) lp.body lp.end_)⟩ ∧
      blk.term = none ∧
      (∀ k, blk.insts[blk.insts.length + k]? = none) ∧
      pc = Value.inst 0 3 ∧ cellMem = Value.inst 0 0 ∧
      (st.block = 0 → 5 ≤ blk.insts.length) := by
  have hinv := scan_LoopInv src st hscan
  have hwf := scan_WF src st hscan
  obtain ⟨cur, hcur, hnone⟩ := hinv.cur
  have hlt := lt_of_getElem? _ _ _ hcur
  obtain ⟨blk, hget, hcase⟩ := step_cases st st1 93 hlt hstep
  have hcb : cur = blk := by
    rw [hget] at hcur
    cases hcur
    rfl
  rw [hcb] at hnone
  rcases hcase with ⟨_, h93, _⟩ | ⟨h91, _⟩ | ⟨_, stk, lp, hstk, rfl⟩
  · exact absurd rfl h93
  · cases h91
  · refine ⟨blk, stk, lp, hget, hstk, ?_, hnone, ?_, rfl, rfl, ?_⟩
    · show (st.blocks.set st.block _)[st.block]? = _
      rw [List.getElem?_set_self hlt]
      simp [codeFor, codeTest, codeCellPtr]
    · intro k
      exact List.getElem?_eq_none (by omega)
    · intro h0
      have h5 := hwf.2.1
      unfold instCount at h5
      have hg : st.blocks.get? 0 = some blk := by
        rw [List.get?_eq_getElem?, ← h0]; exact hget
      rw [hg] at h5
      exact h5

theorem close_test_is_fresh_witness :
    ∃ st st1, scan (bytes "[-") = .ok st ∧ step st 93 = .ok st1 ∧
      ∃ (blk : Block) (lp : Loop) (c : Value), st.blocks[st.block]? = some blk ∧
        (st1.blocks[st.block]?).map Block.term = some (some (Term.condBr c lp.body lp.end_)) := by
  obtain ⟨st, hst⟩ : ∃ st, scan (bytes "[-") = .ok st := ⟨_, rfl⟩
  obtain ⟨st1, hst1⟩ : ∃ st1, step st 93 = .ok st1 := by
    have hd := (stack_depth_is_nesting (bytes "[-") st hst).1
    have hne : st.stack ≠ [] := by
      intro he
      rw [he] at hd
      revert hd
      decide
    obtain ⟨st1, h1, _⟩ := step_close_cons st hne
    exact ⟨st1, h1⟩
  obtain ⟨blk, _, lp, h1, _, h3, _⟩ := close_test_is_fresh (bytes "[-") st st1 hst hst1
  exact ⟨st, st1, hst, hst1, blk, lp, _, h1, by rw [h3]; rfl⟩

/-- C17: in every state the scan reaches, the step for one of `+ - < > . ,`
succeeds and leaves the Loop Stack, the number of the current block, the
number of blocks and every block other than the current one as they are; in
the current block, which has no terminator, the instructions already there
are kept, at least one instruction is appended after them, and the terminator
is not set. -/
theorem plain_step_frame (src : List Nat) (st : TState) (hscan : scan src = .ok st) (c : Nat)
    (hc : c = 43 ∨ c = 45 ∨ c = 60 ∨ c = 62 ∨ c = 46 ∨ c = 44) :
    ∃ (st1 : TState) (blk : Block) (code : List Inst), step st c = .ok st1 ∧
      st1.stack = st.stack ∧ st1.block = st.block ∧
      st1.blocks.length = st.blocks.length ∧
      (∀ b, b ≠ st.block → st1.blocks[b]? = st.blocks[b]?) ∧
      st.blocks[st.block]? = some blk ∧ blk.term = none ∧
      st1.blocks[st.block]? = some ⟨blk.insts ++ code, none⟩ ∧ code ≠ [] := by
  have hinv := scan_LoopInv src st hscan
  obtain ⟨cur, hcur, hnone⟩ := hinv.cur
  have hlt := lt_of_getElem? _ _ _ hcur
  have h91 : c ≠ 91 := by rcases hc with rfl | rfl | rfl | rfl | rfl | rfl <;> decide
  have h93 : c ≠ 93 := by rcases hc with rfl | rfl | rfl | rfl | rfl | rfl <;> decide
  obtain ⟨st1, hs, _, _⟩ := step_other st c h91 h93
  obtain ⟨blk, hget, hcase⟩ := step_cases st st1 c hlt hs
  have hcb : cur = blk := by
    rw [hget] at hcur
    cases hcur
    rfl
  rw [hcb] at hnone
  rcases hcase with ⟨_, _, rfl⟩ | ⟨h, _⟩ | ⟨h, _⟩
  · refine ⟨_, blk, codeFor c st.block blk.insts.length, hs, rfl, rfl, ?_, ?_, hget, hnone, ?_,
      codeFor_ne_nil c _ _ hc⟩
    · show (st.blocks.set st.block _).length = _
      rw [List.length_set]
    · intro b hb
      show (st.blocks.set st.block _)[b]? = _
      rw [List.getElem?_set_ne (Ne.symm hb)]
    · show (st.blocks.set st.block _)[st.block]? = _
      rw [List.getElem?_set_self hlt, hnone]
  · exact absurd h h91
  · exact absurd h h93

theorem plain_step_frame_witness :
    ∃ (st st1 : TState) (blk : Block) (code : List Inst),
      scan (bytes "+[") = .ok st ∧ step st 44 = .ok st1 ∧
      st1.stack = st.stack ∧ st1.block = st.block ∧
      st.blocks[st.block]? = some blk ∧
      st1.blocks[st.block]? = some ⟨blk.insts ++ code, none⟩ := by
  obtain ⟨st, hst⟩ : ∃ st, scan (bytes "+[") = .ok st := ⟨_, rfl⟩
  obtain ⟨st1, blk, code, hs, h1, h2, _, _, h5, _, h7, _⟩ :=
    plain_step_frame (bytes "+[") st hst 44 (by decide)
  exact ⟨st, st1, blk, code, hst, hs, h1, h2, h5, h7⟩

/-! ## The claims about the blocks of the Module -/

/-- C13: in the Module of a successful translation every block of `main` has
a terminator. During the scan (of any source) a block that has its
terminator is never touched again, and a block that a step changes is the
current block, which has no terminator before the step and keeps the
instructions it has; the final `ret` is set on the current block, which has
no terminator at the end of the scan. So each block receives its terminator
once, after all its instructions. -/
theorem one_terminator_per_block (src : List Nat) (m : Module)
    (htr : translate src = .ok m) :
    (∀ blk, blk ∈ m.mainBlocks → ∃ t, blk.term = some t) ∧
    (∃ st cur, scan src = .ok st ∧ st.blocks[st.block]? = some cur ∧ cur.term = none ∧
      m.mainBlocks =
        st.blocks.set st.block ⟨cur.insts, some (Term.ret (Value.const Ty.i32 0))⟩) ∧
    (∀ (pre : List Nat) (st st1 : TState) (c : Nat), scan pre = .ok st →
      step st c = .ok st1 →
      (∀ (b : Nat) (blk : Block), st.blocks[b]? = some blk → blk.term ≠ none →
        st1.blocks[b]? = some blk) ∧
      (∀ (b : Nat) (blk blk1 : Block), st.blocks[b]? = some blk →
        st1.blocks[b]? = some blk1 → blk1 ≠ blk →
        b = st.block ∧ blk.term = none ∧ ∃ code, blk1.insts = blk.insts ++ code)) := by
  obtain ⟨st, cur, hsc, hstack, hcur, hnone, hm, hret, hothers⟩ := final_blocks src m htr
  refine ⟨?_, ⟨st, cur, hsc, hcur, hnone, hm⟩, ?_⟩
  · intro blk hblk
    obtain ⟨b, hb⟩ := List.mem_iff_getElem?.mp hblk
    by_cases hbc : b = st.block
    · rw [hbc, hret] at hb
      cases hb
      exact ⟨_, rfl⟩
    · obtain ⟨_, c, t, f, hc⟩ := hothers b blk hb hbc
      exact ⟨_, hc⟩
  · intro pre st0 st1 c hpre hstep
    have hinv := scan_LoopInv pre st0 hpre
    refine ⟨fun b blk hget ht => step_frozen st0 st1 c hinv hstep b blk hget ht, ?_⟩
    intro b blk blk1 hget hget1 hne
    obtain ⟨cur0, hcur0, hnone0⟩ := hinv.cur
    have hlt0 := lt_of_getElem? _ _ _ hcur0
    have hltb := lt_of_getElem? _ _ _ hget
    obtain ⟨blk0, hget0, hcase⟩ := step_cases st0 st1 c hlt0 hstep
    have hcb : cur0 = blk0 := by
      rw [hget0] at hcur0
      cases hcur0
      rfl
    rw [hcb] at hnone0
    by_cases hb : b = st0.block
    · subst hb
      have hbb : blk0 = blk := by
        rw [hget] at hget0
        cases hget0
        rfl
      subst hbb
      refine ⟨rfl, hnone0, ?_⟩
      rcases hcase with ⟨_, _, rfl⟩ | ⟨_, rfl⟩ | ⟨_, stk, lp, _, rfl⟩
      · have h1 : (st0.blocks.set st0.block _)[st0.block]? = some blk1 := hget1
        rw [List.getElem?_set_self hlt0] at h1
        cases h1
        exact ⟨_, rfl⟩
      · have h1 : (st0.blocks.set st0.block _ ++ _)[st0.block]? = some blk1 := hget1
        rw [List.getElem?_append_left (by rw [List.length_set]; exact hlt0),
          List.getElem?_set_self hlt0] at h1
        cases h1
        exact ⟨_, rfl⟩
      · have h1 : (st0.blocks.set st0.block _)[st0.block]? = some blk1 := hget1
        rw [List.getElem?_set_self hlt0] at h1
        cases h1
        exact ⟨_, rfl⟩
    · exfalso
      apply hne
      have hsame : st1.blocks[b]? = some blk := by
        rcases hcase with ⟨_, _, rfl⟩ | ⟨_, rfl⟩ | ⟨_, stk, lp, _, rfl⟩
        · show (st0.blocks.set st0.block _)[b]? = some blk
          rw [List.getElem?_set_ne (Ne.symm hb)]; exact hget
        · show (st0.blocks.set st0.block _ ++ _)[b]? = some blk
          rw [List.getElem?_append_left (by rw [List.length_set]; exact hltb),
            List.getElem?_set_ne (Ne.symm hb)]
          exact hget
        · show (st0.blocks.set st0.block _)[b]? = some blk
          rw [List.getElem?_set_ne (Ne.symm hb)]; exact hget
      rw [hsame] at hget1
      cases hget1
      rfl

theorem one_terminator_per_block_witness :
    ∃ m, translate (bytes "+[-]") = .ok m ∧ ∀ blk, blk ∈ m.mainBlocks → ∃ t, blk.term = some t := by
  obtain ⟨m, hm⟩ : ∃ m, translate (bytes "+[-]") = .ok m := ⟨_, rfl⟩
  exact ⟨m, hm, (one_terminator_per_block (bytes "+[-]") m hm).1⟩

/-- C15: in a translated source `p ++ [91] ++ body ++ [93] ++ q` whose `body`
has correctly nested brackets (so the `]` after it matches the `[` before it),
the step for the `[` creates two blocks, body and end, and pushes their frame;
the scan of `body` leaves the stack as the `[` left it, so the step for the `]`
pops that frame; the current block after the `]` is that end block; and in the
Module the block that was current at the `[` and the block that was current at
the `]` both end with a conditional branch whose true target is that body
block and whose false target is that end block. -/
theorem matched_branch_targets (p body q : List Nat) (m : Module)
    (htr : translate (p ++ [91] ++ body ++ [93] ++ q) = .ok m)
    (hpre : PrefixOk body) (hbal : opens body = closes body) :
    ∃ (st0 st1 st2 st3 : TState) (lp : Loop) (blkI blkJ : Block) (c1 c2 : Value),
      scan p = .ok st0 ∧ step st0 91 = .ok st1 ∧ scanFrom st1 body = .ok st2 ∧
      step st2 93 = .ok st3 ∧
      lp = ⟨st0.blocks.length, st0.blocks.length + 1⟩ ∧
      st1.blocks.length = st0.blocks.length + 2 ∧
      st1.stack = st0.stack ++ [lp] ∧ st2.stack = st0.stack ++ [lp] ∧
      st3.stack = st0.stack ∧ st3.block = lp.end_ ∧
      m.mainBlocks[st0.block]? = some blkI ∧
      blkI.term = some (Term.condBr c1 lp.body lp.end_) ∧
      m.mainBlocks[st2.block]? = some blkJ ∧
      blkJ.term = some (Term.condBr c2 lp.body lp.end_) := by
  obtain ⟨st0, st1, st2, st3, st, h0, ho, h1, hb, h2, hc, h3, hq, hsc⟩ :=
    scan_loop_parts p body q m htr
  have hinv0 := scan_LoopInv p st0 h0
  have hinv2 := scan_LoopInv _ st2 h2
  obtain ⟨hstk1, _, hlen1, _, _, blkI, c1, hgI, htI⟩ := step_open_frame st0 st1 hinv0 ho
  have hstk2 : st2.stack = st1.stack := scanFrom_balanced body st1 st2 hpre hbal hb
  rw [hstk1] at hstk2
  obtain ⟨hstk3, hblk3, _, blkJ, c2, hgJ, htJ⟩ :=
    step_close_frame st2 st3 st0.stack _ hinv2 hstk2 hc
  have htr1 : translate ((p ++ [91]) ++ (body ++ [93] ++ q)) = .ok m := by
    have : (p ++ [91]) ++ (body ++ [93] ++ q) = p ++ [91] ++ body ++ [93] ++ q := by
      simp [List.append_assoc]
    rw [this]; exact htr
  have hmI := translate_frozen (p ++ [91]) (body ++ [93] ++ q) m st1 htr1 h1 st0.block blkI hgI
    (by rw [htI]; exact fun h => by cases h)
  have hmJ := translate_frozen (p ++ [91] ++ body ++ [93]) q m st3 htr h3 st2.block blkJ hgJ
    (by rw [htJ]; exact fun h => by cases h)
  exact ⟨st0, st1, st2, st3, _, blkI, blkJ, c1, c2, h0, ho, hb, hc, rfl, hlen1, hstk1, hstk2,
    hstk3, hblk3, hmI, htI, hmJ, htJ⟩

theorem matched_branch_targets_witness :
    ∃ (m : Module) (blkI blkJ : Block) (c1 c2 : Value) (a b : Nat),
      translate ([43] ++ [91] ++ [45, 91, 43, 93] ++ [93] ++ [46]) = .ok m ∧
      blkI ∈ m.mainBlocks ∧ blkI.term = some (Term.condBr c1 a b) ∧
      blkJ ∈ m.mainBlocks ∧ blkJ.term = some (Term.condBr c2 a b) := by
  obtain ⟨m, hm⟩ : ∃ m, translate ([43] ++ [91] ++ [45, 91, 43, 93] ++ [93] ++ [46]) = .ok m := by
    rcases translate_cases ([43] ++ [91] ++ [45, 91, 43, 93] ++ [93] ++ [46]) with
      ⟨h, _⟩ | ⟨_, h, _⟩ | ⟨_, _, st, _, _, h⟩
    · exact absurd (by unfold PrefixOk; decide) h
    · exact absurd h (by decide)
    · exact ⟨_, h⟩
  obtain ⟨st0, _, st2, _, lp, blkI, blkJ, c1, c2, _, _, _, _, _, _, _, _, _, _, hI, htI, hJ, htJ⟩ :=
    matched_branch_targets [43] [45, 91, 43, 93] [46] m hm (by unfold PrefixOk; decide)
      (by decide)
  exact ⟨m, blkI, blkJ, c1, c2, lp.body, lp.end_, hm,
    List.mem_iff_getElem?.mpr ⟨_, hI⟩, htI, List.mem_iff_getElem?.mpr ⟨_, hJ⟩, htJ⟩

/-- C18: in the Module of a successful translation the block that is current
when the scan ends is terminated by `ret i32 0`; every other block is
terminated by a conditional branch, so that block is the only one with a
return and no block has an unconditional branch (during the scan of any
source a block has no terminator or a conditional branch). The block with the
return is the entry block when the source has no brackets; when the source is
`p ++ [91] ++ body ++ [93] ++ q` with correctly nested `body` and no bracket in
`q`, that loop is at top level and the block with the return is its end
block, the second of the two blocks created at its `[`. -/
theorem single_return (src : List Nat) (m : Module) (htr : translate src = .ok m) :
    ∃ st, scan src = .ok st ∧
      (∃ insts, m.mainBlocks[st.block]? =
        some ⟨insts, some (Term.ret (Value.const Ty.i32 0))⟩) ∧
      (∀ (b : Nat) (blk : Block), m.mainBlocks[b]? = some blk → b ≠ st.block →
        ∃ c t f, blk.term = some (Term.condBr c t f)) ∧
      (∀ (b : Nat) (blk : Block) (v : Value), m.mainBlocks[b]? = some blk →
        blk.term = some (Term.ret v) → b = st.block ∧ v = Value.const Ty.i32 0) ∧
      (∀ blk, blk ∈ m.mainBlocks → ∀ t, blk.term ≠ some (Term.br t)) ∧
      (∀ (pre : List Nat) (st1 : TState), scan pre = .ok st1 → ∀ (b : Nat) (blk : Block),
        st1.blocks[b]? = some blk →
        blk.term = none ∨ ∃ c t f, blk.term = some (Term.condBr c t f)) ∧
      ((∀ c, c ∈ src → c ≠ 91 ∧ c ≠ 93) → st.block = 0) ∧
      (∀ p body q, src = p ++ [91] ++ body ++ [93] ++ q → PrefixOk body →
        opens body = closes body → (∀ c, c ∈ q → c ≠ 91 ∧ c ≠ 93) →
        ∃ st0 st1, scan p = .ok st0 ∧ st0.stack = [] ∧ step st0 91 = .ok st1 ∧
          st1.blocks.length = st0.blocks.length + 2 ∧
          st1.stack = [⟨st0.blocks.length, st0.blocks.length + 1⟩] ∧
          st.block = st0.blocks.length + 1) := by
  obtain ⟨st, cur, hsc, hstack, hcur, hnone, hm, hret, hothers⟩ := final_blocks src m htr
  have hterm : ∀ (b : Nat) (blk : Block), m.mainBlocks[b]? = some blk →
      (b = st.block ∧ blk.term = some (Term.ret (Value.const Ty.i32 0))) ∨
      (b ≠ st.block ∧ ∃ c t f, blk.term = some (Term.condBr c t f)) := by
    intro b blk hb
    by_cases hbc : b = st.block
    · rw [hbc, hret] at hb
      cases hb
      exact Or.inl ⟨hbc, rfl⟩
    · exact Or.inr ⟨hbc, (hothers b blk hb hbc).2⟩
  refine ⟨st, hsc, ⟨_, hret⟩, fun b blk hb hne => (hothers b blk hb hne).2, ?_, ?_, ?_, ?_, ?_⟩
  · intro b blk v hb hv
    rcases hterm b blk hb with ⟨h1, h2⟩ | ⟨_, c, t, f, h2⟩
    · rw [h2] at hv
      cases hv
      exact ⟨h1, rfl⟩
    · rw [h2] at hv
      cases hv
  · intro blk hblk t ht
    obtain ⟨b, hb⟩ := List.mem_iff_getElem?.mp hblk
    rcases hterm b blk hb with ⟨_, h2⟩ | ⟨_, c, t1, f, h2⟩
    · rw [h2] at ht
      cases ht
    · rw [h2] at ht
      cases ht
  · intro pre st1 hpre b blk hb
    exact (scan_LoopInv pre st1 hpre).terms b blk hb
  · intro hx
    have := scanFrom_block_plain src init st hx hsc
    rw [this]
    rfl
  · intro p body q hsrc hpre hbal hq
    subst hsrc
    obtain ⟨st0, st1, st2, st3, st', h0, ho, h1, hb, h2, hc, h3, hqs, hsc'⟩ :=
      scan_loop_parts p body q m htr
    rw [hsc] at hsc'
    cases hsc'
    have hinv0 := scan_LoopInv p st0 h0
    have hinv2 := scan_LoopInv _ st2 h2
    obtain ⟨hstk1, _, hlen1, _⟩ := step_open_frame st0 st1 hinv0 ho
    have hstk2 : st2.stack = st1.stack := scanFrom_balanced body st1 st2 hpre hbal hb
    rw [hstk1] at hstk2
    obtain ⟨hstk3, hblk3, _⟩ := step_close_frame st2 st3 st0.stack _ hinv2 hstk2 hc
    have hblock : st.block = st3.block := scanFrom_block_plain q st3 st hq hqs
    have hq0 : opens q = 0 ∧ closes q = 0 :=
      ⟨List.count_eq_zero.mpr (fun hm => (hq 91 hm).1 rfl),
        List.count_eq_zero.mpr (fun hm => (hq 93 hm).2 rfl)⟩
    have hstkq : st.stack = st3.stack :=
      scanFrom_balanced q st3 st
        (by
          intro k _
          have hz : closes (q.take k) = 0 :=
            List.count_eq_zero.mpr (fun hm => (hq 93 (List.mem_of_mem_take hm)).2 rfl)
          rw [hz]
          exact Nat.zero_le _)
        (by rw [hq0.1, hq0.2]) hqs
    have hst0 : st0.stack = [] := by rw [← hstk3, ← hstkq, hstack]
    refine ⟨st0, st1, h0, hst0, ho, hlen1, ?_, ?_⟩
    · rw [hstk1, hst0]; rfl
    · rw [hblock, hblk3]

theorem single_return_witness :
    ∃ m st, translate (bytes "+[-]>[.]") = .ok m ∧ scan (bytes "+[-]>[.]") = .ok st ∧
      ∃ insts, m.mainBlocks[st.block]? =
        some ⟨insts, some (Term.ret (Value.const Ty.i32 0))⟩ := by
  obtain ⟨m, hm⟩ : ∃ m, translate (bytes "+[-]>[.]") = .ok m := by
    rcases translate_cases (bytes "+[-]>[.]") with ⟨h, _⟩ | ⟨_, h, _⟩ | ⟨_, _, st, _, _, h⟩
    · exact absurd (by unfold PrefixOk; decide) h
    · exact absurd h (by decide)
    · exact ⟨_, h⟩
  obtain ⟨st, hst, hret, _⟩ := single_return (bytes "+[-]>[.]") m hm
  exact ⟨m, st, hm, hst, hret⟩

/-- C19: after the scan of any source, or prefix of a source, that does not
fail, `main` has `1 + 2 * (number of [)` blocks. A step for `[` appends exactly
two empty blocks after all the blocks there are, the body block first and the
end block second, and leaves the earlier blocks other than the current one as
they are; a step for any other byte keeps the number of blocks. In the Module
of a successful translation no conditional branch goes to the entry block,
and every other block is the target of the conditional branch of exactly two
blocks. -/
theorem block_count (src : List Nat) (st : TState) (hscan : scan src = .ok st) :
    st.blocks.length = 1 + 2 * opens src ∧
    (∀ (c : Nat) (st1 : TState), step st c = .ok st1 →
      (c = 91 →
        st1.blocks.length = st.blocks.length + 2 ∧
        st1.blocks[st.blocks.length]? = some ⟨[], none⟩ ∧
        st1.blocks[st.blocks.length + 1]? = some ⟨[], none⟩ ∧
        st1.stack = st.stack ++ [⟨st.blocks.length, st.blocks.length + 1⟩] ∧
        st1.block = st.blocks.length ∧
        ∀ (b : Nat) (blk : Block), st.blocks[b]? = some blk → b ≠ st.block →
          st1.blocks[b]? = some blk) ∧
      (c ≠ 91 → st1.blocks.length = st.blocks.length)) ∧
    (∀ m, translate src = .ok m →
      m.mainBlocks.length = 1 + 2 * opens src ∧
      condBranchesTo m.mainBlocks 0 = 0 ∧
      ∀ t, 1 ≤ t → t < m.mainBlocks.length → condBranchesTo m.mainBlocks t = 2) := by
  have hinv := scan_LoopInv src st hscan
  refine ⟨scan_length src st hscan, ?_, ?_⟩
  · intro c st1 hs
    constructor
    · rintro rfl
      obtain ⟨hstk, hblk, hlen, hL, hL1, _⟩ := step_open_frame st st1 hinv hs
      refine ⟨hlen, hL, hL1, hstk, hblk, ?_⟩
      intro b blk hb hne
      obtain ⟨cur, hcur, hnone⟩ := hinv.cur
      obtain ⟨blk0, _, hcase⟩ := step_cases st st1 91 (lt_of_getElem? _ _ _ hcur) hs
      rcases hcase with ⟨h91, _, _⟩ | ⟨_, rfl⟩ | ⟨h93, _⟩
      · exact absurd rfl h91
      · show (st.blocks.set st.block _ ++ _)[b]? = some blk
        rw [List.getElem?_append_left
          (by rw [List.length_set]; exact lt_of_getElem? _ _ _ hb),
          List.getElem?_set_ne (Ne.symm hne)]
        exact hb
      · cases h93
    · intro h91
      rw [step_length st st1 c hinv hs, if_neg h91]
      rfl
  · intro m htr
    obtain ⟨st', cur, hsc, hstack, hcur, hnone, hm, _⟩ := final_blocks src m htr
    rw [hscan] at hsc
    cases hsc
    have hlen : m.mainBlocks.length = st.blocks.length := by rw [hm, List.length_set]
    have hcount : ∀ t, condBranchesTo m.mainBlocks t =
        if 1 ≤ t ∧ t < st.blocks.length then 2 else 0 := by
      intro t
      have hc := hinv.count t
      rw [hstack] at hc
      rw [hm, condBranchesTo_set _ _ _ _ _ hcur hnone]
      have h1 : (Block.mk cur.insts (some (Term.ret (Value.const Ty.i32 0)))).condBranchTo t =
          false := rfl
      rw [h1]
      simpa [stackRefs] using hc
    refine ⟨by rw [hlen]; exact scan_length src st hscan, ?_, ?_⟩
    · rw [hcount 0]
      simp
    · intro t h1 h2
      rw [hcount t, if_pos ⟨h1, by rw [← hlen]; exact h2⟩]

theorem block_count_witness :
    ∃ st, scan (bytes "[[-]+") = .ok st ∧ st.blocks.length = 1 + 2 * opens (bytes "[[-]+") := by
  obtain ⟨st, hst⟩ : ∃ st, scan (bytes "[[-]+") = .ok st := ⟨_, rfl⟩
  exact ⟨st, hst, (block_count (bytes "[[-]+") st hst).1⟩

/-- C12: in every state the scan reaches, and in the Module of every
successful translation, the entry block (block 0) starts with the five
instructions of the prelude: the allocation of the array of 65535 bytes, the
address of its first byte, the call of `memset` on that address with value 0
and length 65535, the allocation of the 64-bit pointer register and the store
of 0 to it; no `alloca` is found anywhere else in `main`. Run from the start
state, the prelude leaves 0 in each of the 65535 cells and in the pointer
register, with one call of `memset`. For the empty source `main` is the
prelude followed by `ret i32 0`. -/
theorem prelude_first (src : List Nat) (st : TState) (hscan : scan src = .ok st) :
    preludeCode =
      [Inst.alloca (Ty.array 65535 Ty.i8),
       Inst.getElementPtr (Ty.array 65535 Ty.i8) (Value.inst 0 0)
         [Value.const Ty.i64 0, Value.const Ty.i64 0],
       Inst.call FuncRef.memset
         [Value.inst 0 1, Value.const Ty.i8 0, Value.const Ty.i64 65535],
       Inst.alloca Ty.i64,
       Inst.store (Value.const Ty.i64 0) (Value.inst 0 3)] ∧
    (∃ entry rest, st.blocks[0]? = some entry ∧ entry.insts = preludeCode ++ rest) ∧
    (∀ (b : Nat) (blk : Block) (i : Nat) (t : Ty), st.blocks[b]? = some blk →
      blk.insts[i]? = some (Inst.alloca t) → b = 0 ∧ (i = 0 ∨ i = 3)) ∧
    (∀ m, translate src = .ok m →
      (∃ entry rest, m.mainBlocks[0]? = some entry ∧ entry.insts = preludeCode ++ rest) ∧
      ∀ (b : Nat) (blk : Block) (i : Nat) (t : Ty), m.mainBlocks[b]? = some blk →
        blk.insts[i]? = some (Inst.alloca t) → b = 0 ∧ (i = 0 ∨ i = 3)) ∧
    (∀ input, ∃ s0, execInsts 0 0 preludeCode (XState.start input) = .ok s0 ∧
      s0.pointer = some 0 ∧ (∀ j, j < 65535 → s0.cell j = some 0) ∧
      s0.calls = [ExtCall.memset 0 65535]) ∧
    translate [] =
      .ok (mkModule [⟨preludeCode, some (Term.ret (Value.const Ty.i32 0))⟩]) := by
  have hP := scan_PreludeInv src st hscan
  obtain ⟨h1, h2⟩ := PreludeInv_explicit st.blocks hP
  refine ⟨rfl, h1, h2, ?_, ?_, rfl⟩
  · intro m htr
    obtain ⟨st', cur, hsc, _, hcur, _, hm, _⟩ := final_blocks src m htr
    rw [hscan] at hsc
    cases hsc
    have hPm : PreludeInv m.mainBlocks := by
      have := PreludeInv_update st.blocks [] st.block cur []
        (some (Term.ret (Value.const Ty.i32 0))) hP hcur (by simp) (by simp)
      rw [hm]
      simpa using this
    exact PreludeInv_explicit m.mainBlocks hPm
  · intro input
    obtain ⟨s0, cells0, he, hr, hz, _, hc, _⟩ := exec_prelude input
    refine ⟨s0, he, Ready_pointer s0 _ _ hr, ?_, hc⟩
    intro j hj
    rw [Ready_cell s0 _ _ j hr]
    exact hz j hj

theorem prelude_first_witness :
    ∃ st, scan (bytes "[>+") = .ok st ∧
      ∃ entry rest, st.blocks[0]? = some entry ∧ entry.insts = preludeCode ++ rest := by
  obtain ⟨st, hst⟩ : ∃ st, scan (bytes "[>+") = .ok st := ⟨_, rfl⟩
  exact ⟨st, hst, (prelude_first (bytes "[>+") st hst).2.1⟩

/-! ## The claims about the code for `>` and `<` -/

/-- C11: the code emitted for `>` and for `<` loads the pointer register as an
`i64`, adds a constant and stores the sum back; but the constant operand of
the `add` is built with type `i8` (`constant.NewInt(types.I8, 1)` and
`constant.NewInt(types.I8, -1)`), not `i64`. The printed `add` carries the
type of its first operand only, so when the code runs the pointer register
goes from `p` to `(p + 1) mod 2^64` and to `(p - 1) mod 2^64`, without clamp:
after `<` from 0 it holds `2^64 - 1`. -/
theorem pointer_move_constant_type :
    emittedCode init 62 =
      [Inst.load Ty.i64 pc, Inst.add (Value.inst 0 5) (Value.const Ty.i8 1),
       Inst.store (Value.inst 0 6) pc] ∧
    emittedCode init 60 =
      [Inst.load Ty.i64 pc, Inst.add (Value.inst 0 5) (Value.const Ty.i8 (-1)),
       Inst.store (Value.inst 0 6) pc] ∧
    Ty.i8.width = some 8 ∧ Ty.i64.width = some 64 ∧
    (compileAndRun (bytes ">") 1 []).map observe =
      some (.ok (RVal.int 32 0, some 1, [ExtCall.memset 0 65535], [])) ∧
    (compileAndRun (bytes "<") 1 []).map observe =
      some (.ok (RVal.int 32 0, some 18446744073709551615, [ExtCall.memset 0 65535], [])) ∧
    (∀ (src : List Nat) (st : TState), scan src = .ok st →
      ∀ (s : XState) (cells : Nat → Option Nat) (p : Nat), Ready s cells p →
        p < 2 ^ 64 →
        EmittedCodeRuns st 62 s (fun s1 =>
          s1.pointer = some ((p + 1) % 2 ^ 64) ∧ ∀ j, s1.cell j = s.cell j) ∧
        EmittedCodeRuns st 60 s (fun s1 =>
          (∃ r : Nat, s1.pointer = some r ∧
            (r : Int) = ((p : Int) - 1) % 18446744073709551616) ∧
          ∀ j, s1.cell j = s.cell j)) := by
  refine ⟨rfl, rfl, rfl, rfl, rfl, rfl, ?_⟩
  intro src st hscan s cells p hs hp
  have hwf := scan_WF src st hscan
  have hw1 : wrap 64 1 = 1 := by decide
  have hw2 : wrap 64 (-1) = 18446744073709551615 := by decide
  constructor
  · refine EmittedCodeRuns.mono _ _ _ _ _ (move_exec 1 62 step_right st hwf s cells p hs) ?_
    intro s1 hr
    rw [hw1] at hr
    refine ⟨Ready_pointer s1 _ _ hr, ?_⟩
    intro j
    rw [Ready_cell s1 _ _ j hr, Ready_cell s _ _ j hs]
  · refine EmittedCodeRuns.mono _ _ _ _ _ (move_exec (-1) 60 step_left st hwf s cells p hs) ?_
    intro s1 hr
    rw [hw2] at hr
    refine ⟨⟨_, Ready_pointer s1 _ _ hr, ?_⟩, ?_⟩
    · have h64 : (2 : Nat) ^ 64 = 18446744073709551616 := by decide
      rw [h64] at hp ⊢
      omega
    · intro j
      rw [Ready_cell s1 _ _ j hr, Ready_cell s _ _ j hs]

/-- C20, as amended: in every state the scan reaches, the code emitted for `>`
and the code emitted for `<` have the same shape, a load of the pointer
register, an `add` of a constant of type `i8` and a store; both directions add
a constant narrower than the 64-bit pointer register, and the two differ
only in the value of the constant, 1 and -1. -/
theorem pointer_moves_symmetric (src : List Nat) (st : TState) (hscan : scan src = .ok st) :
    ∃ blk, st.blocks[st.block]? = some blk ∧
      emittedCode st 62 =
        [Inst.load Ty.i64 pc,
         Inst.add (Value.inst st.block blk.insts.length) (Value.const Ty.i8 1),
         Inst.store (Value.inst st.block (blk.insts.length + 1)) pc] ∧
      emittedCode st 60 =
        [Inst.load Ty.i64 pc,
         Inst.add (Value.inst st.block blk.insts.length) (Value.const Ty.i8 (-1)),
         Inst.store (Value.inst st.block (blk.insts.length + 1)) pc] ∧
      addedConstTys (emittedCode st 62) = [Ty.i8] ∧
      addedConstTys (emittedCode st 60) = [Ty.i8] ∧
      addsNarrowConst st 62 = true ∧ addsNarrowConst st 60 = true := by
  obtain ⟨blk, hget, _⟩ := (scan_LoopInv src st hscan).cur
  have h62 := emittedCode_eq st 62 blk (by decide) hget
  have h60 := emittedCode_eq st 60 blk (by decide) hget
  refine ⟨blk, hget, ?_, ?_, ?_, ?_, ?_, ?_⟩
  · rw [h62]; rfl
  · rw [h60]; rfl
  · rw [h62]; rfl
  · rw [h60]; rfl
  · unfold addsNarrowConst; rw [h62]; rfl
  · unfold addsNarrowConst; rw [h60]; rfl

theorem pointer_moves_symmetric_witness :
    ∃ st, scan (bytes "+[") = .ok st ∧
      addsNarrowConst st 62 = true ∧ addsNarrowConst st 60 = true := by
  obtain ⟨st, hst⟩ : ∃ st, scan (bytes "+[") = .ok st := ⟨_, rfl⟩
  obtain ⟨_, _, _, _, _, _, h1, h2⟩ := pointer_moves_symmetric (bytes "+[") st hst
  exact ⟨st, hst, h1, h2⟩

/-- C20 as stated fails: in the state in which the scan starts, the code for `>`
and the code for `<` both add a constant narrower than the pointer register,
so it is not the case that one direction does and the other does not. -/
theorem pointer_moves_asymmetric_counterexample :
    ¬ ((addsNarrowConst init 62 = true ∧ addsNarrowConst init 60 = false) ∨
       (addsNarrowConst init 60 = true ∧ addsNarrowConst init 62 = false)) := by
  decide

end Bfc
